import Mathlib

/-!
# Verification of `src/deque/deque.hpp`

A shallow embedding of the block-indexed double-ended queue `Deque<T, Allocator>`.

* Raw storage handed out by the allocator is an explicit `Heap`: a table of cells, one per
  address ever returned by `allocate`; a cell is either freed (`none`) or a live block, and
  every slot of a block is either raw (`none`) or holds a constructed element (`some v`).
  `allocate` returns an address that no live block has (here: a new one), so that two
  containers can share blocks only by copying a pointer.
* A `Deque` value is the record of the data members `size_`, `front_index_`, `back_index_`
  and `array_` (the vector of block pointers, here addresses into the heap).
* Member functions are heap-passing functions returning a `Res`: normal return, an exception
  leaving the function (with the state at that moment), or undefined behaviour. The element
  type enters through the outcome of its constructor: `some v` (the value built) or `none`
  (the constructor throws).
* Operations that compare object addresses (`this == &other`) act on a `World`: the heap
  together with the deque objects by address.
* `size_t` members are natural numbers. Increments are not wrapped (an index of `2 ^ 64`
  needs more elements than the address space can hold); a decrement at zero wraps to
  `2 ^ 64 - 1` as in the source. Iterator arithmetic, which mixes `size_t` and `ptrdiff_t`,
  is reduced modulo `2 ^ 64`.
-/

namespace CppMipt

/-! ## Machine integers -/

/-- The member `const size_t kBlockSize = 1000`. -/
def kBlockSize : Nat := 1000

/-- Unsigned decrement `x - 1` on `size_t`: wraps around at zero. -/
def decSizeT (n : Nat) : Nat := if n = 0 then 2 ^ 64 - 1 else n - 1

/-- Conversion of an integer result to `size_t` (reduction modulo `2 ^ 64`). -/
def toSizeT (z : Int) : Nat := (z % 2 ^ 64).toNat

/-- Conversion of a `size_t` value to `ptrdiff_t` (two-complement reading). -/
def toPtrdiff (n : Nat) : Int := if n < 2 ^ 63 then (n : Int) else (n : Int) - 2 ^ 64

/-! ## The allocator heap -/

/-- Raw storage: `cells[p]` is `none` once block `p` is deallocated, and otherwise the slots
of the block; a slot is `none` while raw and `some v` while it holds a constructed element. -/
structure Heap (α : Type) where
  cells : List (Option (List (Option α)))
deriving DecidableEq

/-- The call `allocator_traits::allocate(alloc_, n)`: a fresh block of `n` raw slots. -/
def Heap.allocate {α : Type} (h : Heap α) (n : Nat) : Heap α × Nat :=
  (⟨h.cells ++ [some (List.replicate n none)]⟩, h.cells.length)

/-- The call `allocator_traits::deallocate(alloc_, p, n)`; freeing a block that is not live
is undefined (`none`). -/
def Heap.deallocate {α : Type} (h : Heap α) (p : Nat) : Option (Heap α) :=
  match h.cells[p]? with
  | some (some _) => some ⟨h.cells.set p none⟩
  | _ => none

/-- The slot `p + off`: `none` when there is no such slot in a live block. -/
def Heap.slot {α : Type} (h : Heap α) (p off : Nat) : Option (Option α) :=
  match h.cells[p]? with
  | some (some b) => b[off]?
  | _ => none

/-- Overwrite the slot `p + off` (no effect when there is no such slot). -/
def Heap.store {α : Type} (h : Heap α) (p off : Nat) (x : Option α) : Heap α :=
  match h.cells[p]? with
  | some (some b) => ⟨h.cells.set p (some (b.set off x))⟩
  | _ => h

/-- The call `allocator_traits::construct(alloc_, p + off, v)` with a constructor that has
returned `v`; writing outside a live block is undefined (`none`). -/
def Heap.construct {α : Type} (h : Heap α) (p off : Nat) (v : α) : Option (Heap α) :=
  match h.slot p off with
  | some _ => some (h.store p off (some v))
  | none => none

/-- The call `allocator_traits::destroy(alloc_, p + off)`; destroying a slot that holds no
constructed element is undefined (`none`). -/
def Heap.destroy {α : Type} (h : Heap α) (p off : Nat) : Option (Heap α) :=
  match h.slot p off with
  | some (some _) => some (h.store p off none)
  | _ => none

/-- Assignment through a reference `T&` to the element in slot `p + off`; undefined when the
slot holds no constructed element. -/
def Heap.assign {α : Type} (h : Heap α) (p off : Nat) (v : α) : Option (Heap α) :=
  match h.slot p off with
  | some (some _) => some (h.store p off (some v))
  | _ => none

/-- Number of blocks that are allocated and not yet deallocated. -/
def Heap.outstanding {α : Type} (h : Heap α) : Nat :=
  (h.cells.filter Option.isSome).length

/-! ## Results of member functions -/

/-- Outcome of a call: `ok s` normal return in state `s`, `thrown s` an exception leaves the
call in state `s`, `ub` undefined behaviour. -/
inductive Res (σ : Type) where
  | ok (s : σ)
  | thrown (s : σ)
  | ub
deriving DecidableEq

/-! ## The container -/

/-- Data members of `Deque` (`alloc_` is represented by the heap that is passed around). -/
structure Deque where
  size_ : Nat
  front_index_ : Nat
  back_index_ : Nat
  array_ : List Nat
deriving DecidableEq

/-- The constructor `Deque(const Allocator& alloc = Allocator())`. -/
def Deque.default : Deque := ⟨0, 0, 0, []⟩

/-- The member `size()`. -/
def Deque.size (d : Deque) : Nat := d.size_

/-- The member `empty()`. -/
def Deque.empty (d : Deque) : Bool := d.size_ == 0

/-- The address `array_[j / kBlockSize] + j % kBlockSize` for an absolute slot counter `j`;
`none` when `array_` has no such entry. -/
def Deque.locate (d : Deque) (j : Nat) : Option (Nat × Nat) :=
  match d.array_[j / kBlockSize]? with
  | some p => some (p, j % kBlockSize)
  | none => none

/-- Content of the absolute slot `j` of the deque. -/
def Deque.cell {α : Type} (h : Heap α) (d : Deque) (j : Nat) : Option (Option α) :=
  match d.locate j with
  | some (p, off) => h.slot p off
  | none => none

/-- The member `operator[](index)`, read: the element stored at block
`(front_index_ + index) / kBlockSize`, offset `(front_index_ + index) % kBlockSize`;
`none` when that is not a constructed element. -/
def Deque.subscript {α : Type} (h : Heap α) (d : Deque) (index : Nat) : Option α :=
  (d.cell h (d.front_index_ + index)).join

/-- The sequence `[d[0], ..., d[size() - 1]]` read through `operator[]`. -/
def Deque.toList {α : Type} (h : Heap α) (d : Deque) : List (Option α) :=
  (List.range d.size_).map (fun i => d.subscript h i)

/-- Error signalled by `at`. -/
inductive DequeError where
  | out_of_range
deriving DecidableEq

/-- The member `at(index)`. -/
def Deque.at_ {α : Type} (h : Heap α) (d : Deque) (index : Nat) : Except DequeError (Option α) :=
  if index ≥ d.size then Except.error DequeError.out_of_range
  else Except.ok (d.subscript h index)

/-- The member `allocate_block()`. -/
def Deque.allocate_block {α : Type} (h : Heap α) : Heap α × Nat :=
  h.allocate kBlockSize

/-- The member `ensure_back_capacity()`. -/
def Deque.ensure_back_capacity {α : Type} (h : Heap α) (d : Deque) : Heap α × Deque :=
  if d.back_index_ % kBlockSize = 0 then
    let r := Deque.allocate_block h
    (r.1, { d with array_ := d.array_ ++ [r.2] })
  else (h, d)

/-- The member `ensure_front_capacity()`. -/
def Deque.ensure_front_capacity {α : Type} (h : Heap α) (d : Deque) : Heap α × Deque :=
  if d.front_index_ = 0 then
    let r := Deque.allocate_block h
    (r.1, { d with array_ := r.2 :: d.array_,
                   front_index_ := kBlockSize,
                   back_index_ := d.back_index_ + kBlockSize })
  else (h, d)

/-- The member `handle_failed_construction()`. -/
def Deque.handle_failed_construction {α : Type} (h : Heap α) (d : Deque) :
    Option (Heap α × Deque) :=
  if d.back_index_ % kBlockSize = 0 ∧ d.array_ ≠ [] then
    match d.array_.getLast? with
    | some p =>
      match h.deallocate p with
      | some h1 => some (h1, { d with array_ := d.array_.dropLast })
      | none => none
    | none => none
  else some (h, d)

/-- The member `emplace_back(args...)`. The argument `args` is the outcome of running the
constructor of `T` on the arguments: `some v` when it returns the value `v`, `none` when it
throws. -/
def Deque.emplace_back {α : Type} (h : Heap α) (d : Deque) (args : Option α) :
    Res (Heap α × Deque) :=
  let s := Deque.ensure_back_capacity h d
  match s.2.locate s.2.back_index_ with
  | none => Res.ub
  | some (p, off) =>
    match args with
    | none =>
      match Deque.handle_failed_construction s.1 s.2 with
      | some s1 => Res.thrown s1
      | none => Res.ub
    | some v =>
      match s.1.construct p off v with
      | none => Res.ub
      | some h1 =>
        Res.ok (h1, { s.2 with back_index_ := s.2.back_index_ + 1, size_ := s.2.size_ + 1 })

/-- The members `push_back(const T&)`, `push_back(T&&)` and `push_back()`. -/
def Deque.push_back {α : Type} (h : Heap α) (d : Deque) (value : Option α) :
    Res (Heap α × Deque) :=
  Deque.emplace_back h d value

/-- The member `emplace_front(args...)`; `args` as for `emplace_back`. There is no handler
around the construction: an exception leaves with the state reached by
`ensure_front_capacity`. -/
def Deque.emplace_front {α : Type} (h : Heap α) (d : Deque) (args : Option α) :
    Res (Heap α × Deque) :=
  let s := Deque.ensure_front_capacity h d
  match s.2.locate (decSizeT s.2.front_index_) with
  | none => Res.ub
  | some (p, off) =>
    match args with
    | none => Res.thrown s
    | some v =>
      match s.1.construct p off v with
      | none => Res.ub
      | some h1 =>
        Res.ok (h1, { s.2 with front_index_ := decSizeT s.2.front_index_,
                               size_ := s.2.size_ + 1 })

/-- The members `push_front(const T&)` and `push_front(T&&)`. -/
def Deque.push_front {α : Type} (h : Heap α) (d : Deque) (value : Option α) :
    Res (Heap α × Deque) :=
  Deque.emplace_front h d value

/-- The member `pop_back()`. -/
def Deque.pop_back {α : Type} (h : Heap α) (d : Deque) : Res (Heap α × Deque) :=
  match d.locate (decSizeT d.back_index_) with
  | none => Res.ub
  | some (p, off) =>
    match h.destroy p off with
    | none => Res.ub
    | some h1 =>
      Res.ok (h1, { d with back_index_ := decSizeT d.back_index_, size_ := decSizeT d.size_ })

/-- The member `pop_front()`. -/
def Deque.pop_front {α : Type} (h : Heap α) (d : Deque) : Res (Heap α × Deque) :=
  match d.locate d.front_index_ with
  | none => Res.ub
  | some (p, off) =>
    match h.destroy p off with
    | none => Res.ub
    | some h1 =>
      Res.ok (h1, { d with front_index_ := d.front_index_ + 1, size_ := decSizeT d.size_ })

/-! ## Sequences of end operations and the reference list -/

/-- The four end operations; a push carries the value that the constructor of `T` produces. -/
inductive Op (α : Type) where
  | push_back (v : α)
  | push_front (v : α)
  | pop_back
  | pop_front
deriving DecidableEq

/-- Apply one end operation to the deque. -/
def Deque.step {α : Type} (h : Heap α) (d : Deque) : Op α → Res (Heap α × Deque)
  | Op.push_back v => Deque.push_back h d (some v)
  | Op.push_front v => Deque.push_front h d (some v)
  | Op.pop_back => Deque.pop_back h d
  | Op.pop_front => Deque.pop_front h d

/-- Apply a sequence of end operations in order; an exception or undefined behaviour ends
the run. -/
def Deque.run {α : Type} (h : Heap α) (d : Deque) : List (Op α) → Res (Heap α × Deque)
  | [] => Res.ok (h, d)
  | op :: ops =>
    match Deque.step h d op with
    | Res.ok s => Deque.run s.1 s.2 ops
    | Res.thrown s => Res.thrown s
    | Res.ub => Res.ub

/-- Reference list step: `push_front` prepends, `push_back` appends, `pop_front` drops the
first element, `pop_back` drops the last one. -/
def refStep {α : Type} (l : List α) : Op α → List α
  | Op.push_back v => l ++ [v]
  | Op.push_front v => v :: l
  | Op.pop_back => l.dropLast
  | Op.pop_front => l.tail

/-- Reference list after a sequence of operations. -/
def refRun {α : Type} (l : List α) : List (Op α) → List α
  | [] => l
  | op :: ops => refRun (refStep l op) ops

/-- No pop is applied to an empty container, starting from a container of `n` elements. -/
def popsOk {α : Type} : Nat → List (Op α) → Bool
  | _, [] => true
  | n, Op.push_back _ :: ops => popsOk (n + 1) ops
  | n, Op.push_front _ :: ops => popsOk (n + 1) ops
  | 0, Op.pop_back :: _ => false
  | 0, Op.pop_front :: _ => false
  | n + 1, Op.pop_back :: ops => popsOk n ops
  | n + 1, Op.pop_front :: ops => popsOk n ops

/-- Number of pushes in a sequence of operations. -/
def pushCount {α : Type} : List (Op α) → Nat
  | [] => 0
  | Op.push_back _ :: ops => pushCount ops + 1
  | Op.push_front _ :: ops => pushCount ops + 1
  | _ :: ops => pushCount ops

/-- Number of pops in a sequence of operations. -/
def popCount {α : Type} : List (Op α) → Nat
  | [] => 0
  | Op.pop_back :: ops => popCount ops + 1
  | Op.pop_front :: ops => popCount ops + 1
  | _ :: ops => popCount ops

/-! ## Iterators, insert and erase -/

/-- Data members of `DequeIterator`: the address of the container it is bound to and the
logical index. -/
structure DequeIterator where
  deque_ptr_ : Nat
  index_ : Nat
deriving DecidableEq

/-- The member `begin()` of the deque at address `this`. -/
def Deque.begin_ (this : Nat) : DequeIterator := ⟨this, 0⟩

/-- The member `end()` of the deque `d` at address `this`. -/
def Deque.end_ (this : Nat) (d : Deque) : DequeIterator := ⟨this, d.size_⟩

/-- The member `operator+(difference_type n)`. -/
def DequeIterator.add (it : DequeIterator) (n : Int) : DequeIterator :=
  ⟨it.deque_ptr_, toSizeT ((it.index_ : Int) + n)⟩

/-- The member `operator-(const DequeIterator& other)`: the distance. -/
def DequeIterator.dist (it other : DequeIterator) : Int :=
  toPtrdiff (toSizeT ((it.index_ : Int) - (other.index_ : Int)))

/-- The statement `std::swap((*this)[i], (*this)[j])`: both references must denote constructed
elements. -/
def Deque.swap_elems {α : Type} (h : Heap α) (d : Deque) (i j : Nat) : Option (Heap α) :=
  match d.locate (d.front_index_ + i), d.locate (d.front_index_ + j) with
  | some (p, off), some (q, off2) =>
    match h.slot p off, h.slot q off2 with
    | some (some a), some (some b) =>
      match h.assign p off b with
      | some h1 => h1.assign q off2 a
      | none => none
    | _, _ => none
  | _, _ => none

/-- The loop `for (size_t i = size_ - 1; i > pos; --i) swap((*this)[i], (*this)[i - 1])` of
`insert`, entered with loop variable `i`. -/
def Deque.insert_loop {α : Type} (d : Deque) (pos : Nat) : Nat → Heap α → Option (Heap α)
  | 0, h => some h
  | i + 1, h =>
    if i + 1 > pos then
      match Deque.swap_elems h d (i + 1) i with
      | some h1 => Deque.insert_loop d pos i h1
      | none => none
    else some h

/-- The member `insert(iterator iter, const T& value)` of the deque at address `this`;
`value` is the outcome of copying the argument (`none` when the copy throws). -/
def Deque.insert {α : Type} (this : Nat) (h : Heap α) (d : Deque) (iter : DequeIterator)
    (value : Option α) : Res (Heap α × Deque) :=
  match Deque.push_back h d value with
  | Res.ok s =>
    let pos := toSizeT (iter.dist (Deque.begin_ this))
    match Deque.insert_loop s.2 pos (decSizeT s.2.size_) s.1 with
    | some h1 => Res.ok (h1, s.2)
    | none => Res.ub
  | Res.thrown s => Res.thrown s
  | Res.ub => Res.ub

/-- The loop `for (size_t i = pos; i < size_ - 1; ++i) swap((*this)[i], (*this)[i + 1])` of
`erase`, entered with loop variable `i` and `n = (size_ - 1) - i` iterations to go (the bound
`size_ - 1` does not change during the loop). -/
def Deque.erase_loop {α : Type} (d : Deque) : Nat → Nat → Heap α → Option (Heap α)
  | _, 0, h => some h
  | i, n + 1, h =>
    match Deque.swap_elems h d i (i + 1) with
    | some h1 => Deque.erase_loop d (i + 1) n h1
    | none => none

/-- The member `erase(iterator iter)` of the deque at address `this`. -/
def Deque.erase {α : Type} (this : Nat) (h : Heap α) (d : Deque) (iter : DequeIterator) :
    Res (Heap α × Deque) :=
  let pos := toSizeT (iter.dist (Deque.begin_ this))
  match Deque.erase_loop d pos (decSizeT d.size_ - pos) h with
  | some h1 => Deque.pop_back h1 d
  | none => Res.ub

/-! ## Clearing, copying and moving -/

/-- The first loop of `clear()`: destroy the elements `i, i + 1, ..., i + n - 1`. -/
def Deque.destroy_loop {α : Type} (d : Deque) : Nat → Nat → Heap α → Option (Heap α)
  | _, 0, h => some h
  | i, n + 1, h =>
    match d.locate (d.front_index_ + i) with
    | some (p, off) =>
      match h.destroy p off with
      | some h1 => Deque.destroy_loop d (i + 1) n h1
      | none => none
    | none => none

/-- The second loop of `clear()`: deallocate every block of the table. -/
def Deque.dealloc_loop {α : Type} : List Nat → Heap α → Option (Heap α)
  | [], h => some h
  | p :: ps, h =>
    match h.deallocate p with
    | some h1 => Deque.dealloc_loop ps h1
    | none => none

/-- The member `clear()`. -/
def Deque.clear {α : Type} (h : Heap α) (d : Deque) : Option (Heap α × Deque) :=
  match Deque.destroy_loop d 0 d.size_ h with
  | some h1 =>
    match Deque.dealloc_loop d.array_ h1 with
    | some h2 => some (h2, ⟨0, 0, 0, []⟩)
    | none => none
  | none => none

/-- The destructor `~Deque()`. -/
def Deque.destructor {α : Type} (h : Heap α) (d : Deque) : Option (Heap α) :=
  match Deque.clear h d with
  | some s => some s.1
  | none => none

/-- The loop `for (ind = ...; ind < other.size(); ++ind) push_back(other[ind])` of the copy
constructor, entered with loop variable `ind` and `n = other.size() - ind` iterations to go.
`copy x` is the outcome of the copy constructor of `T` on `x`. -/
def Deque.copy_loop {α : Type} (copy : α → Option α) (other : Deque) :
    Nat → Nat → Heap α → Deque → Res (Heap α × Deque)
  | _, 0, h, d => Res.ok (h, d)
  | ind, n + 1, h, d =>
    match other.subscript h ind with
    | none => Res.ub
    | some x =>
      match Deque.push_back h d (copy x) with
      | Res.ok s => Deque.copy_loop copy other (ind + 1) n s.1 s.2
      | Res.thrown s => Res.thrown s
      | Res.ub => Res.ub

/-- The copy constructor `Deque(const Deque& other)`. -/
def Deque.copy_ctor {α : Type} (copy : α → Option α) (h : Heap α) (other : Deque) :
    Res (Heap α × Deque) :=
  match Deque.copy_loop copy other 0 other.size h Deque.default with
  | Res.ok s => Res.ok s
  | Res.thrown s =>
    match Deque.clear s.1 s.2 with
    | some s1 => Res.thrown s1
    | none => Res.ub
  | Res.ub => Res.ub

/-- The move constructor `Deque(Deque&& other)`: the new object and the state `other` is
left in (a moved-from `std::vector` is empty). -/
def Deque.move_ctor (other : Deque) : Deque × Deque :=
  (⟨other.size_, other.front_index_, other.back_index_, other.array_⟩,
   { other with size_ := 0, back_index_ := 0, front_index_ := 0, array_ := [] })

/-- The member `swap(Deque& other)`: the new `*this` and the new `other`. -/
def Deque.swap (this other : Deque) : Deque × Deque :=
  (⟨other.size_, other.front_index_, other.back_index_, other.array_⟩,
   ⟨this.size_, this.front_index_, this.back_index_, this.array_⟩)

/-- Program state with several deque objects: the heap and the objects by address. -/
structure World (α : Type) where
  heap : Heap α
  objs : List Deque
deriving DecidableEq

/-- The copy assignment `operator=(const Deque& other)` called on the object at address
`this` with the object at address `other`. The local `copy` is destroyed on return. -/
def World.copy_assign {α : Type} (copy : α → Option α) (w : World α) (this other : Nat) :
    Res (World α) :=
  if this = other then Res.ok w
  else
    match w.objs[this]?, w.objs[other]? with
    | some dthis, some dother =>
      match Deque.copy_ctor copy w.heap dother with
      | Res.ok s =>
        let r := Deque.swap dthis s.2
        match Deque.destructor s.1 r.2 with
        | some h1 => Res.ok ⟨h1, w.objs.set this r.1⟩
        | none => Res.ub
      | Res.thrown s => Res.thrown ⟨s.1, w.objs⟩
      | Res.ub => Res.ub
    | _, _ => Res.ub

/-- The move assignment `operator=(Deque&& other)` called on the object at address `this`
with the object at address `other`. The local `copy` lives at a fresh address; the statement
`*this = std::move(copy)` is a call of this same operator. `fuel` bounds the depth of
calls: `none` means that the call has not returned within that depth. -/
def World.move_assign {α : Type} : Nat → World α → Nat → Nat → Option (Res (World α))
  | 0, _, _, _ => none
  | fuel + 1, w, this, other =>
    if this ≠ other then
      match w.objs[other]? with
      | none => some Res.ub
      | some dother =>
        let r := Deque.move_ctor dother
        let copyAddr := w.objs.length
        let w1 : World α := ⟨w.heap, (w.objs.set other r.2) ++ [r.1]⟩
        match World.move_assign fuel w1 this copyAddr with
        | none => none
        | some (Res.ok w2) =>
          match w2.objs[copyAddr]? with
          | none => some Res.ub
          | some dcopy =>
            match Deque.destructor w2.heap dcopy with
            | some h1 => some (Res.ok ⟨h1, w2.objs.take copyAddr⟩)
            | none => some Res.ub
        | some r2 => some r2
    else some (Res.ok w)

/-! ## Specification vocabulary -/

/-- Number of slots of the live block at address `p`; `none` when `p` is not a live block. -/
def Heap.blockLen {α : Type} (h : Heap α) (p : Nat) : Option Nat :=
  match h.cells[p]? with
  | some (some b) => some b.length
  | _ => none

/-- Well-formed deque state in heap `h`: `size_ = back_index_ - front_index_` with
`front_index_ ≤ back_index_`, the block table covers `back_index_`, and the table holds
distinct live blocks of `kBlockSize` slots each. -/
structure Deque.WF {α : Type} (h : Heap α) (d : Deque) : Prop where
  size_eq : d.front_index_ + d.size_ = d.back_index_
  cap : d.back_index_ ≤ kBlockSize * d.array_.length
  nodup : d.array_.Nodup
  live : ∀ p ∈ d.array_, h.blockLen p = some kBlockSize

/-- The deque `d` in heap `h` is well formed and its element sequence, read through
`operator[]`, is `L`. -/
def Deque.Models {α : Type} (h : Heap α) (d : Deque) (L : List α) : Prop :=
  d.WF h ∧ d.size_ = L.length ∧ ∀ i, i < d.size_ → d.subscript h i = L[i]?

instance Deque.WF.decidable {α : Type} (h : Heap α) (d : Deque) : Decidable (d.WF h) :=
  decidable_of_iff
    (d.front_index_ + d.size_ = d.back_index_ ∧ d.back_index_ ≤ kBlockSize * d.array_.length ∧
      d.array_.Nodup ∧ ∀ p ∈ d.array_, h.blockLen p = some kBlockSize)
    ⟨fun hw => ⟨hw.1, hw.2.1, hw.2.2.1, hw.2.2.2⟩, fun hw => ⟨hw.1, hw.2, hw.3, hw.4⟩⟩

instance Deque.Models.decidable {α : Type} [DecidableEq α] (h : Heap α) (d : Deque)
    (L : List α) : Decidable (d.Models h L) := by
  unfold Deque.Models
  infer_instance

/-- Heaps `h` and `h1` hold the same cell at every address of `ps`. -/
def Heap.AgreeOn {α : Type} (h h1 : Heap α) (ps : List Nat) : Prop :=
  ∀ q ∈ ps, h1.cells[q]? = h.cells[q]?

/-- Footprint of a call on a deque whose block table was `ps` in heap `h` and is `ps1` in
heap `h1`: cells outside `ps` are kept, and blocks entering the table are fresh. -/
structure Heap.Frame {α : Type} (h : Heap α) (ps : List Nat) (h1 : Heap α) (ps1 : List Nat) :
    Prop where
  grow : h.cells.length ≤ h1.cells.length
  keep : ∀ q, q < h.cells.length → q ∉ ps → h1.cells[q]? = h.cells[q]?
  own : ∀ q ∈ ps1, q ∈ ps ∨ h.cells.length ≤ q

/-- Reference list insert at position `k`: `L[0..k) ++ [v] ++ L[k..)`. -/
def insertAt {α : Type} (L : List α) (k : Nat) (v : α) : List α := L.take k ++ [v] ++ L.drop k

/-- Reference list erase at position `k`: `L[0..k) ++ L[k+1..)`. -/
def eraseAt {α : Type} (L : List α) (k : Nat) : List α := L.take k ++ L.drop (k + 1)

/-! ## Sample states -/

/-- Sample heap: block `0` holds `5` and `6` in its first two slots, block `1` holds `7` in
its first slot; all other slots are raw. -/
def sampleHeap : Heap Nat :=
  ⟨[some (some 5 :: some 6 :: List.replicate 998 none),
    some (some 7 :: List.replicate 999 none)]⟩

/-- Sample deque holding `[5, 6]` in block `0`. -/
def sampleA : Deque := ⟨2, 0, 2, [0]⟩

/-- Sample deque holding `[7]` in block `1`. -/
def sampleB : Deque := ⟨1, 0, 1, [1]⟩

/-- Sample program state: `sampleA` at address `0` and `sampleB` at address `1`. -/
def sampleWorld : World Nat := ⟨sampleHeap, [sampleA, sampleB]⟩

/-! ## Bulk construction -/

/-- The loop `for (i = 0; i < init.size(); ++i) { push_back(*iter); ++iter; }` of the
initializer-list constructor. The list gives, for each element of the initializer list in
order, the outcome of copy-constructing it: `some v`, or `none` when the copy throws. -/
def Deque.init_loop {α : Type} : List (Option α) → Heap α → Deque → Res (Heap α × Deque)
  | [], h, d => Res.ok (h, d)
  | x :: rest, h, d =>
    match Deque.push_back h d x with
    | Res.ok s => Deque.init_loop rest s.1 s.2
    | Res.thrown s => Res.thrown s
    | Res.ub => Res.ub

/-- The constructor `Deque(std::initializer_list<T> init, const Allocator&)`; `init` as for
`init_loop`. The handler calls `clear()` and rethrows. -/
def Deque.init_ctor {α : Type} (h : Heap α) (init : List (Option α)) : Res (Heap α × Deque) :=
  match Deque.init_loop init h Deque.default with
  | Res.ok s => Res.ok s
  | Res.thrown s =>
    match Deque.clear s.1 s.2 with
    | some s1 => Res.thrown s1
    | none => Res.ub
  | Res.ub => Res.ub

/-! ## Iterator operations -/

/-- The member `operator*()`: `(*deque_ptr_)[index_]`, with the container looked up by
address. -/
def DequeIterator.deref {α : Type} (w : World α) (it : DequeIterator) : Option α :=
  match w.objs[it.deque_ptr_]? with
  | some d => d.subscript w.heap it.index_
  | none => none

/-- The member `operator=(const DequeIterator& other)`: only `index_` is assigned. -/
def DequeIterator.assign (it other : DequeIterator) : DequeIterator :=
  ⟨it.deque_ptr_, other.index_⟩

/-- The member `operator++()`. -/
def DequeIterator.inc (it : DequeIterator) : DequeIterator :=
  ⟨it.deque_ptr_, toSizeT ((it.index_ : Int) + 1)⟩

/-- The member `operator--()`. -/
def DequeIterator.dec (it : DequeIterator) : DequeIterator :=
  ⟨it.deque_ptr_, toSizeT ((it.index_ : Int) - 1)⟩

/-- The member `operator+=(difference_type n)`. -/
def DequeIterator.add_assign (it : DequeIterator) (n : Int) : DequeIterator :=
  ⟨it.deque_ptr_, toSizeT ((it.index_ : Int) + n)⟩

/-- The member `operator-=(difference_type n)`. -/
def DequeIterator.sub_assign (it : DequeIterator) (n : Int) : DequeIterator :=
  ⟨it.deque_ptr_, toSizeT ((it.index_ : Int) - n)⟩

/-- The member `operator-(difference_type n)`. -/
def DequeIterator.sub (it : DequeIterator) (n : Int) : DequeIterator :=
  ⟨it.deque_ptr_, toSizeT ((it.index_ : Int) - n)⟩

/-- The member `operator==`. -/
def DequeIterator.eq (it other : DequeIterator) : Bool := it.index_ == other.index_

/-- The member `operator!=`. -/
def DequeIterator.ne (it other : DequeIterator) : Bool := it.index_ != other.index_

/-- The member `operator<`. -/
def DequeIterator.lt (it other : DequeIterator) : Bool := decide (it.index_ < other.index_)

/-- The member `operator>`. -/
def DequeIterator.gt (it other : DequeIterator) : Bool := decide (it.index_ > other.index_)

/-- The member `operator<=`. -/
def DequeIterator.le (it other : DequeIterator) : Bool := decide (it.index_ ≤ other.index_)

/-- The member `operator>=`. -/
def DequeIterator.ge (it other : DequeIterator) : Bool := decide (it.index_ ≥ other.index_)

/-! ## Index invariants -/

/-- The index invariant `front_index_ <= back_index_` and `size_ = back_index_ - front_index_`. -/
def Deque.IndexInv (d : Deque) : Prop :=
  d.front_index_ ≤ d.back_index_ ∧ d.size_ = d.back_index_ - d.front_index_

instance Deque.IndexInv.decidable (d : Deque) : Decidable d.IndexInv := by
  unfold Deque.IndexInv
  infer_instance

/-- Rounded-up quotient `⌈n / b⌉`. -/
def ceilDiv (n b : Nat) : Nat := (n + b - 1) / b

/-- The operation is a push. -/
def Op.isPush {α : Type} : Op α → Bool
  | Op.push_back _ => true
  | Op.push_front _ => true
  | _ => false

/-! ## The linked list (`src/list/list.hpp`)

Nodes live in a node heap: one cell per address ever returned by the node allocator, `none`
once the node is deallocated. A pointer is `nullptr`, the address of the member `fake_node_`
of the list, or the address of an allocated node. Following or writing through `nullptr` or
through a pointer to a deallocated node is undefined behaviour (`none`). -/

/-- Values of the pointer types `BaseNode*` and `Node*`. -/
inductive NodePtr where
  | null
  | fake
  | node (a : Nat)
deriving DecidableEq

/-- The struct `BaseNode`. -/
structure BaseNode where
  next : NodePtr
  prev : NodePtr
deriving DecidableEq

/-- The struct `Node`: the links of `BaseNode` and the member `value` (`none` while no value
has been stored). -/
structure Node (α : Type) where
  next : NodePtr
  prev : NodePtr
  value : Option α
deriving DecidableEq

/-- Data members of `List` (`alloc_` is represented by the node heap). -/
structure LinkedList where
  size_ : Nat
  head_ : NodePtr
  tail_ : NodePtr
  fake_node_ : BaseNode
  fake_ : NodePtr
deriving DecidableEq

/-- Program state of one list: the node heap and the list object. -/
structure ListState (α : Type) where
  nodes : List (Option (Node α))
  list : LinkedList
deriving DecidableEq

/-- Conversion of a computation that is undefined when `none`. -/
def Res.ofOption {σ : Type} : Option σ → Res σ
  | some s => Res.ok s
  | none => Res.ub

/-- The default member initializers: `size_ = 0`, `head_ = tail_ = nullptr`, a `fake_node_`
with null links, `fake_ = nullptr`. -/
def LinkedList.initial : LinkedList :=
  ⟨0, NodePtr.null, NodePtr.null, ⟨NodePtr.null, NodePtr.null⟩, NodePtr.null⟩

/-- Read `p->next`. -/
def ListState.next {α : Type} (s : ListState α) : NodePtr → Option NodePtr
  | NodePtr.null => none
  | NodePtr.fake => some s.list.fake_node_.next
  | NodePtr.node a =>
    match s.nodes[a]? with
    | some (some n) => some n.next
    | _ => none

/-- Read `p->prev`. -/
def ListState.prev {α : Type} (s : ListState α) : NodePtr → Option NodePtr
  | NodePtr.null => none
  | NodePtr.fake => some s.list.fake_node_.prev
  | NodePtr.node a =>
    match s.nodes[a]? with
    | some (some n) => some n.prev
    | _ => none

/-- Read `p->value`; the sentinel has no such member. -/
def ListState.value {α : Type} (s : ListState α) : NodePtr → Option α
  | NodePtr.node a =>
    match s.nodes[a]? with
    | some (some n) => n.value
    | _ => none
  | _ => none

/-- The assignment `p->next = q`. -/
def ListState.set_next {α : Type} (s : ListState α) (p q : NodePtr) : Option (ListState α) :=
  match p with
  | NodePtr.null => none
  | NodePtr.fake =>
    some { s with list := { s.list with fake_node_ := { s.list.fake_node_ with next := q } } }
  | NodePtr.node a =>
    match s.nodes[a]? with
    | some (some n) => some { s with nodes := s.nodes.set a (some { n with next := q }) }
    | _ => none

/-- The assignment `p->prev = q`. -/
def ListState.set_prev {α : Type} (s : ListState α) (p q : NodePtr) : Option (ListState α) :=
  match p with
  | NodePtr.null => none
  | NodePtr.fake =>
    some { s with list := { s.list with fake_node_ := { s.list.fake_node_ with prev := q } } }
  | NodePtr.node a =>
    match s.nodes[a]? with
    | some (some n) => some { s with nodes := s.nodes.set a (some { n with prev := q }) }
    | _ => none

/-- The assignment `p->value = v`. -/
def ListState.set_value {α : Type} (s : ListState α) (p : NodePtr) (v : α) :
    Option (ListState α) :=
  match p with
  | NodePtr.node a =>
    match s.nodes[a]? with
    | some (some n) => some { s with nodes := s.nodes.set a (some { n with value := some v }) }
    | _ => none
  | _ => none

/-- The call `node_alloc_traits::allocate(alloc_, 1)` when it succeeds: a fresh node cell
(links not yet assigned, no value). -/
def ListState.allocate {α : Type} (s : ListState α) : ListState α × NodePtr :=
  ({ s with nodes := s.nodes ++ [some ⟨NodePtr.null, NodePtr.null, none⟩] },
    NodePtr.node s.nodes.length)

/-- The call `node_alloc_traits::construct(alloc_, p, v)` when the constructor returns: the
constructor `Node(const T&)` stores the value, the links get their default `nullptr`. -/
def ListState.construct {α : Type} (s : ListState α) (p : NodePtr) (v : α) :
    Option (ListState α) :=
  match p with
  | NodePtr.node a =>
    match s.nodes[a]? with
    | some (some _) =>
      some { s with nodes := s.nodes.set a (some ⟨NodePtr.null, NodePtr.null, some v⟩) }
    | _ => none
  | _ => none

/-- The call `node_alloc_traits::destroy(alloc_, p)`. -/
def ListState.destroy {α : Type} (s : ListState α) (p : NodePtr) : Option (ListState α) :=
  match p with
  | NodePtr.node a =>
    match s.nodes[a]? with
    | some (some n) =>
      match n.value with
      | some _ => some { s with nodes := s.nodes.set a (some { n with value := none }) }
      | none => none
    | _ => none
  | _ => none

/-- The call `node_alloc_traits::deallocate(alloc_, p, 1)`. -/
def ListState.deallocate {α : Type} (s : ListState α) (p : NodePtr) : Option (ListState α) :=
  match p with
  | NodePtr.node a =>
    match s.nodes[a]? with
    | some (some _) => some { s with nodes := s.nodes.set a none }
    | _ => none
  | _ => none

/-- Number of nodes that are allocated and not yet deallocated. -/
def ListState.outstanding {α : Type} (s : ListState α) : Nat :=
  (s.nodes.filter Option.isSome).length

/-- The four statements `head_->prev = fake_; tail_->next = fake_; fake_->next = head_;
fake_->prev = tail_;` that end the constructors and the mutating members. -/
def ListState.relink {α : Type} (s : ListState α) : Option (ListState α) := do
  let s1 ← s.set_prev s.list.head_ s.list.fake_
  let s2 ← s1.set_next s1.list.tail_ s1.list.fake_
  let s3 ← s2.set_next s2.list.fake_ s2.list.head_
  s3.set_prev s3.list.fake_ s3.list.tail_

/-- The constructor `List()` in a node heap `nodes`. -/
def LinkedList.default_ctor {α : Type} (nodes : List (Option (Node α))) : ListState α :=
  ⟨nodes, { LinkedList.initial with size_ := 0, head_ := NodePtr.null, tail_ := NodePtr.null,
                                    fake_ := NodePtr.fake }⟩

/-- The member `size()`. -/
def ListState.size {α : Type} (s : ListState α) : Nat := s.list.size_

/-- The member `empty()`. -/
def ListState.empty {α : Type} (s : ListState α) : Bool := s.list.size_ == 0

/-- The member `front()`: `head_->value`. -/
def ListState.front {α : Type} (s : ListState α) : Option α := s.value s.list.head_

/-- The member `back()`: `tail_->value`. -/
def ListState.back {α : Type} (s : ListState α) : Option α := s.value s.list.tail_

/-- The member `push_back(const T& value)`. `allocOk = false` means that `allocate` throws
`std::bad_alloc`; `value = none` means that the assignment `temp->value = value` throws. -/
def ListState.push_back_copy {α : Type} (s : ListState α) (allocOk : Bool) (value : Option α) :
    Res (ListState α) :=
  let s1 : ListState α := { s with list := { s.list with size_ := s.list.size_ + 1 } }
  if allocOk = false then Res.thrown s1
  else
    let r := s1.allocate
    match value with
    | none =>
      match r.1.deallocate r.2 with
      | some s2 => Res.thrown s2
      | none => Res.ub
    | some v =>
      Res.ofOption (do
        let s2 ← r.1.set_value r.2 v
        let s3 ← s2.set_prev r.2 s2.list.tail_
        let s4 ← s3.set_next r.2 NodePtr.null
        let s5 ← s4.set_next s4.list.tail_ r.2
        let s6 : ListState α := { s5 with list := { s5.list with tail_ := r.2 } }
        let s7 : ListState α :=
          if s6.list.size_ = 1 then { s6 with list := { s6.list with head_ := s6.list.tail_ } }
          else s6
        s7.relink)

/-- The member `push_back(T&& value)`: as the copying overload, with the guard
`if (tail_ != nullptr)` around `tail_->next = temp`. -/
def ListState.push_back_move {α : Type} (s : ListState α) (allocOk : Bool) (value : Option α) :
    Res (ListState α) :=
  let s1 : ListState α := { s with list := { s.list with size_ := s.list.size_ + 1 } }
  if allocOk = false then Res.thrown s1
  else
    let r := s1.allocate
    match value with
    | none =>
      match r.1.deallocate r.2 with
      | some s2 => Res.thrown s2
      | none => Res.ub
    | some v =>
      Res.ofOption (do
        let s2 ← r.1.set_value r.2 v
        let s3 ← s2.set_prev r.2 s2.list.tail_
        let s4 ← s3.set_next r.2 NodePtr.null
        let s5 ← if s4.list.tail_ ≠ NodePtr.null then s4.set_next s4.list.tail_ r.2 else some s4
        let s6 : ListState α := { s5 with list := { s5.list with tail_ := r.2 } }
        let s7 : ListState α :=
          if s6.list.size_ = 1 then { s6 with list := { s6.list with head_ := s6.list.tail_ } }
          else s6
        s7.relink)

/-- The member `push_front(const T& value)`. -/
def ListState.push_front_copy {α : Type} (s : ListState α) (allocOk : Bool) (value : Option α) :
    Res (ListState α) :=
  let s1 : ListState α := { s with list := { s.list with size_ := s.list.size_ + 1 } }
  if allocOk = false then Res.thrown s1
  else
    let r := s1.allocate
    match value with
    | none =>
      match r.1.deallocate r.2 with
      | some s2 => Res.thrown s2
      | none => Res.ub
    | some v =>
      Res.ofOption (do
        let s2 ← r.1.set_value r.2 v
        let s3 ← s2.set_next r.2 s2.list.head_
        let s4 ← s3.set_prev r.2 NodePtr.null
        let s5 ← s4.set_prev s4.list.head_ r.2
        let s6 : ListState α := { s5 with list := { s5.list with head_ := r.2 } }
        let s7 : ListState α :=
          if s6.list.size_ = 1 then { s6 with list := { s6.list with tail_ := s6.list.head_ } }
          else s6
        s7.relink)

/-- The member `push_front(T&& value)`: as the copying overload, with the guard
`if (head_ != nullptr)` around `head_->prev = temp`. -/
def ListState.push_front_move {α : Type} (s : ListState α) (allocOk : Bool) (value : Option α) :
    Res (ListState α) :=
  let s1 : ListState α := { s with list := { s.list with size_ := s.list.size_ + 1 } }
  if allocOk = false then Res.thrown s1
  else
    let r := s1.allocate
    match value with
    | none =>
      match r.1.deallocate r.2 with
      | some s2 => Res.thrown s2
      | none => Res.ub
    | some v =>
      Res.ofOption (do
        let s2 ← r.1.set_value r.2 v
        let s3 ← s2.set_next r.2 s2.list.head_
        let s4 ← s3.set_prev r.2 NodePtr.null
        let s5 ← if s4.list.head_ ≠ NodePtr.null then s4.set_prev s4.list.head_ r.2 else some s4
        let s6 : ListState α := { s5 with list := { s5.list with head_ := r.2 } }
        let s7 : ListState α :=
          if s6.list.size_ = 1 then { s6 with list := { s6.list with tail_ := s6.list.head_ } }
          else s6
        s7.relink)

/-- The member `pop_back()`. -/
def ListState.pop_back {α : Type} (s : ListState α) : Res (ListState α) :=
  if s.list.size_ = 0 then Res.ok s
  else
    Res.ofOption (do
      let s1 : ListState α := { s with list := { s.list with size_ := decSizeT s.list.size_ } }
      let temp := s1.list.tail_
      let p ← s1.prev s1.list.tail_
      let s2 : ListState α := { s1 with list := { s1.list with tail_ := p } }
      let s3 ← s2.set_next s2.list.tail_ NodePtr.null
      let s4 ← s3.destroy temp
      let s5 ← s4.deallocate temp
      s5.relink)

/-- The member `pop_front()`. -/
def ListState.pop_front {α : Type} (s : ListState α) : Res (ListState α) :=
  if s.list.size_ = 0 then Res.ok s
  else
    Res.ofOption (do
      let s1 : ListState α := { s with list := { s.list with size_ := decSizeT s.list.size_ } }
      let temp := s1.list.head_
      let p ← s1.next s1.list.head_
      let s2 : ListState α := { s1 with list := { s1.list with head_ := p } }
      let s3 ← s2.set_prev s2.list.head_ NodePtr.null
      let s4 ← s3.destroy temp
      let s5 ← s4.deallocate temp
      s5.relink)

/-- Data members of the list iterator `BaseIterator`. -/
structure ListIterator where
  current_ : NodePtr
  head_ : NodePtr
  tail_ : NodePtr
  fake_ : NodePtr
deriving DecidableEq

/-- The iterator member `operator++()`: `current_ = current_->next`. -/
def ListIterator.inc {α : Type} (s : ListState α) (it : ListIterator) : Option ListIterator :=
  match s.next it.current_ with
  | some p => some { it with current_ := p }
  | none => none

/-- The iterator member `operator--()`: `current_ = current_->prev`. -/
def ListIterator.dec {α : Type} (s : ListState α) (it : ListIterator) : Option ListIterator :=
  match s.prev it.current_ with
  | some p => some { it with current_ := p }
  | none => none

/-- The iterator member `operator*()`: `current_->value`. -/
def ListIterator.deref {α : Type} (s : ListState α) (it : ListIterator) : Option α :=
  s.value it.current_

/-- The iterator member `operator==`: the `current_` pointers are compared. -/
def ListIterator.eq (it other : ListIterator) : Bool := it.current_ == other.current_

/-- The member `begin()`: `iterator(head_, head_, tail_, fake_)`. -/
def ListState.begin_ {α : Type} (s : ListState α) : ListIterator :=
  ⟨s.list.head_, s.list.head_, s.list.tail_, s.list.fake_⟩

/-- The member `end()`: `++iterator(tail_, head_, tail_, fake_)`. -/
def ListState.end_ {α : Type} (s : ListState α) : Option ListIterator :=
  ListIterator.inc s ⟨s.list.tail_, s.list.head_, s.list.tail_, s.list.fake_⟩

/-- The loop of the constructor `List(size_t count, const T& value, const allocator_type&)`,
entered with loop variable `i`, `n = count - i` iterations to go and the local `current`.
`allocOk i = false` means that `allocate` throws in iteration `i`; `outcome i` is the outcome
of `construct(alloc_, temp, value)` in iteration `i` (`none` when the copy of `value` throws).
The handler of a failed construction deallocates `temp` and rethrows. -/
def ListState.count_value_loop {α : Type} (count : Nat) (allocOk : Nat → Bool)
    (outcome : Nat → Option α) : Nat → Nat → ListState α → NodePtr → Res (ListState α)
  | 0, _, s, _ => Res.ok s
  | n + 1, i, s, current =>
    if allocOk i = false then Res.thrown s
    else
      let r := s.allocate
      match outcome i with
      | none =>
        match r.1.deallocate r.2 with
        | some s1 => Res.thrown s1
        | none => Res.ub
      | some v =>
        let body : Option (ListState α) := do
          let s1 ← r.1.construct r.2 v
          let s2 ← s1.set_prev r.2 current
          let p ← s2.prev r.2
          let s3 ← if p ≠ NodePtr.null then s2.set_next p r.2 else some s2
          if i = 0 then some { s3 with list := { s3.list with head_ := r.2 } }
          else if i = decSizeT count then some { s3 with list := { s3.list with tail_ := r.2 } }
          else some s3
        match body with
        | some s4 => ListState.count_value_loop count allocOk outcome n (i + 1) s4 r.2
        | none => Res.ub

/-- The constructor `List(size_t count, const T& value, const allocator_type&)` in a node
heap `nodes`; `allocOk` and `outcome` as for `count_value_loop`. -/
def LinkedList.count_value_ctor {α : Type} (nodes : List (Option (Node α))) (count : Nat)
    (allocOk : Nat → Bool) (outcome : Nat → Option α) : Res (ListState α) :=
  let s0 : ListState α := ⟨nodes, { LinkedList.initial with size_ := count }⟩
  match ListState.count_value_loop count allocOk outcome count 0 s0 NodePtr.null with
  | Res.ok s =>
    Res.ofOption (do
      let s1 : ListState α := { s with list := { s.list with fake_ := NodePtr.fake } }
      s1.relink)
  | Res.thrown s => Res.thrown s
  | Res.ub => Res.ub

/-- The block table has exactly `⌈back_index_ / B⌉` entries. -/
def Deque.Tight (d : Deque) : Prop := d.array_.length = ceilDiv d.back_index_ kBlockSize

/-- Sample list state: the default-constructed list in an empty node heap. -/
def sampleListEmpty : ListState Nat := LinkedList.default_ctor []

/-- Sample list state: the list `[1]`, one node at address `0` linked to the sentinel on both
sides. -/
def sampleListOne : ListState Nat :=
  ⟨[some ⟨NodePtr.fake, NodePtr.fake, some 1⟩],
    ⟨1, NodePtr.node 0, NodePtr.node 0, ⟨NodePtr.node 0, NodePtr.node 0⟩, NodePtr.fake⟩⟩

/-! ## Slot safety -/

/-- The absolute slot `j` of the deque lies in an existing block: the block index
`j / kBlockSize` is below the length of the block table, the offset `j % kBlockSize` is below
the block size, and the table entry is a live block of `kBlockSize` slots. -/
def Deque.InBlock {α : Type} (h : Heap α) (d : Deque) (j : Nat) : Prop :=
  j / kBlockSize < d.array_.length ∧ j % kBlockSize < kBlockSize ∧
    ∃ p, d.array_[j / kBlockSize]? = some p ∧ h.blockLen p = some kBlockSize

/-- Along the run of `ops` from the state `(h, d)` no `pop_back` empties a block: none is
applied in a state with `back_index_ % kBlockSize = 1`. -/
def Deque.popBackKeeps {α : Type} (h : Heap α) (d : Deque) : List (Op α) → Bool
  | [] => true
  | op :: ops =>
    (match op with
      | Op.pop_back => decide (d.back_index_ % kBlockSize ≠ 1)
      | _ => true) &&
    (match Deque.step h d op with
      | Res.ok s => Deque.popBackKeeps s.1 s.2 ops
      | _ => true)

/-! ## Allocator calls as events

To count constructions, destructions, allocations and deallocations, the heap is paired
with the log of the allocator calls made so far; every logged primitive is the heap
primitive followed by the record of the call. -/

/-- One successful call of `allocator_traits`: `allocate` returning block `p`,
`deallocate` of block `p`, `construct` at slot `p + off`, `destroy` of slot `p + off`. -/
inductive Event where
  | allocate (p : Nat)
  | deallocate (p : Nat)
  | construct (p off : Nat)
  | destroy (p off : Nat)
deriving DecidableEq

/-- The heap together with the log of allocator calls, oldest first. -/
structure LHeap (α : Type) where
  heap : Heap α
  log : List Event
deriving DecidableEq

/-- The logged call `allocator_traits::allocate(alloc_, n)`. -/
def LHeap.allocate {α : Type} (s : LHeap α) (n : Nat) : LHeap α × Nat :=
  (⟨(s.heap.allocate n).1, s.log ++ [Event.allocate (s.heap.allocate n).2]⟩,
    (s.heap.allocate n).2)

/-- The logged call `allocator_traits::deallocate(alloc_, p, n)`. -/
def LHeap.deallocate {α : Type} (s : LHeap α) (p : Nat) : Option (LHeap α) :=
  match s.heap.deallocate p with
  | some h1 => some ⟨h1, s.log ++ [Event.deallocate p]⟩
  | none => none

/-- The logged call `allocator_traits::construct(alloc_, p + off, v)`. -/
def LHeap.construct {α : Type} (s : LHeap α) (p off : Nat) (v : α) : Option (LHeap α) :=
  match s.heap.construct p off v with
  | some h1 => some ⟨h1, s.log ++ [Event.construct p off]⟩
  | none => none

/-- The logged call `allocator_traits::destroy(alloc_, p + off)`. -/
def LHeap.destroy {α : Type} (s : LHeap α) (p off : Nat) : Option (LHeap α) :=
  match s.heap.destroy p off with
  | some h1 => some ⟨h1, s.log ++ [Event.destroy p off]⟩
  | none => none

/-- The slots constructed in a log, in order. -/
def Event.constructed (lg : List Event) : List (Nat × Nat) :=
  lg.filterMap fun e =>
    match e with
    | Event.construct p off => some (p, off)
    | _ => none

/-- The slots destroyed in a log, in order. -/
def Event.destroyed (lg : List Event) : List (Nat × Nat) :=
  lg.filterMap fun e =>
    match e with
    | Event.destroy p off => some (p, off)
    | _ => none

/-- The blocks allocated in a log, in order. -/
def Event.allocated (lg : List Event) : List Nat :=
  lg.filterMap fun e =>
    match e with
    | Event.allocate p => some p
    | _ => none

/-- The blocks deallocated in a log, in order. -/
def Event.deallocated (lg : List Event) : List Nat :=
  lg.filterMap fun e =>
    match e with
    | Event.deallocate p => some p
    | _ => none

/-- The member `ensure_back_capacity()`, with the log. -/
def Deque.ensure_back_capacity_logged {α : Type} (s : LHeap α) (d : Deque) :
    LHeap α × Deque :=
  if d.back_index_ % kBlockSize = 0 then
    let r := s.allocate kBlockSize
    (r.1, { d with array_ := d.array_ ++ [r.2] })
  else (s, d)

/-- The member `handle_failed_construction()`, with the log. -/
def Deque.handle_failed_construction_logged {α : Type} (s : LHeap α) (d : Deque) :
    Option (LHeap α × Deque) :=
  if d.back_index_ % kBlockSize = 0 ∧ d.array_ ≠ [] then
    match d.array_.getLast? with
    | some p =>
      match s.deallocate p with
      | some s1 => some (s1, { d with array_ := d.array_.dropLast })
      | none => none
    | none => none
  else some (s, d)

/-- The member `emplace_back(args...)`, with the log; `args` as for `emplace_back`. -/
def Deque.emplace_back_logged {α : Type} (s : LHeap α) (d : Deque) (args : Option α) :
    Res (LHeap α × Deque) :=
  let t := Deque.ensure_back_capacity_logged s d
  match t.2.locate t.2.back_index_ with
  | none => Res.ub
  | some (p, off) =>
    match args with
    | none =>
      match Deque.handle_failed_construction_logged t.1 t.2 with
      | some t1 => Res.thrown t1
      | none => Res.ub
    | some v =>
      match t.1.construct p off v with
      | none => Res.ub
      | some s1 =>
        Res.ok (s1, { t.2 with back_index_ := t.2.back_index_ + 1, size_ := t.2.size_ + 1 })

/-- The members `push_back`, with the log. -/
def Deque.push_back_logged {α : Type} (s : LHeap α) (d : Deque) (value : Option α) :
    Res (LHeap α × Deque) :=
  Deque.emplace_back_logged s d value

/-- The first loop of `clear()`, with the log: destroy the elements `i, ..., i + n - 1`. -/
def Deque.destroy_loop_logged {α : Type} (d : Deque) : Nat → Nat → LHeap α → Option (LHeap α)
  | _, 0, s => some s
  | i, n + 1, s =>
    match d.locate (d.front_index_ + i) with
    | some (p, off) =>
      match s.destroy p off with
      | some s1 => Deque.destroy_loop_logged d (i + 1) n s1
      | none => none
    | none => none

/-- The second loop of `clear()`, with the log: deallocate every block of the table. -/
def Deque.dealloc_loop_logged {α : Type} : List Nat → LHeap α → Option (LHeap α)
  | [], s => some s
  | p :: ps, s =>
    match s.deallocate p with
    | some s1 => Deque.dealloc_loop_logged ps s1
    | none => none

/-- The member `clear()`, with the log. -/
def Deque.clear_logged {α : Type} (s : LHeap α) (d : Deque) : Option (LHeap α × Deque) :=
  match Deque.destroy_loop_logged d 0 d.size_ s with
  | some s1 =>
    match Deque.dealloc_loop_logged d.array_ s1 with
    | some s2 => some (s2, ⟨0, 0, 0, []⟩)
    | none => none
  | none => none

/-- The loop of the initializer-list constructor, with the log; the list as for
`init_loop`. -/
def Deque.init_loop_logged {α : Type} :
    List (Option α) → LHeap α → Deque → Res (LHeap α × Deque)
  | [], s, d => Res.ok (s, d)
  | x :: rest, s, d =>
    match Deque.push_back_logged s d x with
    | Res.ok t => Deque.init_loop_logged rest t.1 t.2
    | Res.thrown t => Res.thrown t
    | Res.ub => Res.ub

/-- The constructor `Deque(std::initializer_list<T> init, const Allocator&)`, with the log;
`init` as for `init_loop`. The handler calls `clear()` and rethrows. -/
def Deque.init_ctor_logged {α : Type} (s : LHeap α) (init : List (Option α)) :
    Res (LHeap α × Deque) :=
  match Deque.init_loop_logged init s Deque.default with
  | Res.ok t => Res.ok t
  | Res.thrown t =>
    match Deque.clear_logged t.1 t.2 with
    | some t1 => Res.thrown t1
    | none => Res.ub
  | Res.ub => Res.ub

/-- Log invariant of the initializer-list constructor while it pushes: since the log was
`l0`, the blocks allocated are the block table, nothing was deallocated or destroyed, and the
slots constructed are the slots `0, ..., n - 1` of the deque, in order. -/
def Deque.LogInv {α : Type} (l0 : List Event) (s : LHeap α) (d : Deque) (n : Nat) : Prop :=
  ∃ lg, s.log = l0 ++ lg ∧ Event.allocated lg = d.array_ ∧ Event.deallocated lg = [] ∧
    Event.destroyed lg = [] ∧
    (Event.constructed lg).map some = (List.range n).map d.locate

/-- Forget the log of a result of a logged member function. -/
def Res.forgetLog {α : Type} : Res (LHeap α × Deque) → Res (Heap α × Deque)
  | Res.ok s => Res.ok (s.1.heap, s.2)
  | Res.thrown s => Res.thrown (s.1.heap, s.2)
  | Res.ub => Res.ub

/-! ## Theorems -/

variable {α : Type}

set_option maxRecDepth 100000

theorem kBlockSize_pos : 0 < kBlockSize := by decide

theorem Heap.blockLen_eq_some {h : Heap α} {p n : Nat} :
    h.blockLen p = some n ↔ ∃ b, h.cells[p]? = some (some b) ∧ b.length = n := by
  unfold Heap.blockLen
  split
  · next b hb => simp [hb]
  · next hne =>
    constructor
    · intro hc
      cases hc
    · rintro ⟨b, hb, -⟩
      exact absurd hb (hne b)

theorem Heap.blockLen_lt {h : Heap α} {p n : Nat} (hp : h.blockLen p = some n) :
    p < h.cells.length := by
  obtain ⟨b, hb, -⟩ := Heap.blockLen_eq_some.1 hp
  exact (List.getElem?_eq_some_iff.1 hb).1

theorem Heap.slot_of_block {h : Heap α} {p : Nat} {b : List (Option α)}
    (hb : h.cells[p]? = some (some b)) (off : Nat) : h.slot p off = b[off]? := by
  simp [Heap.slot, hb]

theorem Heap.slot_isSome {h : Heap α} {p n off : Nat} (hp : h.blockLen p = some n)
    (ho : off < n) : ∃ y, h.slot p off = some y := by
  obtain ⟨b, hb, hl⟩ := Heap.blockLen_eq_some.1 hp
  refine ⟨b[off], ?_⟩
  rw [Heap.slot_of_block hb]
  exact List.getElem?_eq_getElem (by omega)

theorem Heap.store_cells_ne (h : Heap α) (p off : Nat) (x : Option α) {q : Nat} (hq : q ≠ p) :
    (h.store p off x).cells[q]? = h.cells[q]? := by
  unfold Heap.store
  split
  · simp [List.getElem?_set_ne (Ne.symm hq)]
  · rfl

theorem Heap.store_length (h : Heap α) (p off : Nat) (x : Option α) :
    (h.store p off x).cells.length = h.cells.length := by
  unfold Heap.store
  split <;> simp

theorem Heap.store_blockLen (h : Heap α) (p off : Nat) (x : Option α) (q : Nat) :
    (h.store p off x).blockLen q = h.blockLen q := by
  by_cases hq : q = p
  · subst hq
    unfold Heap.store
    split
    · next b hb =>
      have hlt : q < h.cells.length := (List.getElem?_eq_some_iff.1 hb).1
      simp [Heap.blockLen, hb, List.getElem?_set_self, hlt]
    · rfl
  · simp [Heap.blockLen, Heap.store_cells_ne h p off x hq]

theorem Heap.slot_store_same {h : Heap α} {p off : Nat} {y : Option α}
    (hs : h.slot p off = some y) (x : Option α) : (h.store p off x).slot p off = some x := by
  unfold Heap.slot at hs
  split at hs
  · next b hb =>
    have hlt : p < h.cells.length := (List.getElem?_eq_some_iff.1 hb).1
    have ho : off < b.length := (List.getElem?_eq_some_iff.1 hs).1
    simp [Heap.slot, Heap.store, hb, hlt, ho]
  · cases hs

theorem Heap.slot_store_ne (h : Heap α) {p off q off2 : Nat} (x : Option α)
    (hne : q ≠ p ∨ off2 ≠ off) : (h.store p off x).slot q off2 = h.slot q off2 := by
  by_cases hq : q = p
  · subst hq
    have ho : off2 ≠ off := by
      rcases hne with h1 | h1
      · exact absurd rfl h1
      · exact h1
    unfold Heap.store
    split
    · next b hb =>
      have hlt : q < h.cells.length := (List.getElem?_eq_some_iff.1 hb).1
      simp [Heap.slot, hb, hlt, List.getElem?_set_ne (Ne.symm ho)]
    · rfl
  · simp [Heap.slot, Heap.store_cells_ne h p off x hq]

theorem Heap.allocate_cells_old (h : Heap α) (n : Nat) {q : Nat} (hq : q < h.cells.length) :
    (h.allocate n).1.cells[q]? = h.cells[q]? := by
  simp [Heap.allocate, List.getElem?_append_left hq]

theorem Heap.allocate_cells_new (h : Heap α) (n : Nat) :
    (h.allocate n).1.cells[(h.allocate n).2]? = some (some (List.replicate n none)) := by
  simp [Heap.allocate]

theorem Heap.allocate_length (h : Heap α) (n : Nat) :
    (h.allocate n).1.cells.length = h.cells.length + 1 := by
  simp [Heap.allocate]

theorem Heap.allocate_snd (h : Heap α) (n : Nat) : (h.allocate n).2 = h.cells.length := rfl

theorem Heap.slot_congr {h h1 : Heap α} {p : Nat} (hc : h1.cells[p]? = h.cells[p]?)
    (off : Nat) : h1.slot p off = h.slot p off := by
  simp [Heap.slot, hc]

theorem Heap.blockLen_congr {h h1 : Heap α} {p : Nat} (hc : h1.cells[p]? = h.cells[p]?) :
    h1.blockLen p = h.blockLen p := by
  simp [Heap.blockLen, hc]

theorem Deque.locate_eq_some {d : Deque} {j p off : Nat} :
    d.locate j = some (p, off) ↔ d.array_[j / kBlockSize]? = some p ∧ off = j % kBlockSize := by
  unfold Deque.locate
  split
  · next q hq =>
    simp only [hq, Option.some.injEq, Prod.mk.injEq]
    constructor
    · rintro ⟨rfl, rfl⟩
      exact ⟨rfl, rfl⟩
    · rintro ⟨rfl, rfl⟩
      exact ⟨rfl, rfl⟩
  · next hq =>
    simp [hq]

theorem Deque.locate_mem {d : Deque} {j p off : Nat} (hl : d.locate j = some (p, off)) :
    p ∈ d.array_ :=
  List.getElem?_mem (Deque.locate_eq_some.1 hl).1

theorem Deque.locate_of_lt {d : Deque} {j : Nat} (hj : j < kBlockSize * d.array_.length) :
    ∃ p, p ∈ d.array_ ∧ d.locate j = some (p, j % kBlockSize) := by
  have hlt : j / kBlockSize < d.array_.length :=
    (Nat.div_lt_iff_lt_mul kBlockSize_pos).2 (by rw [Nat.mul_comm] at hj; exact hj)
  refine ⟨d.array_[j / kBlockSize], List.getElem_mem _, ?_⟩
  exact Deque.locate_eq_some.2 ⟨List.getElem?_eq_getElem hlt, rfl⟩

theorem Deque.locate_inj {d : Deque} (hn : d.array_.Nodup) {j k p off : Nat}
    (hj : d.locate j = some (p, off)) (hk : d.locate k = some (p, off)) : j = k := by
  obtain ⟨hj1, hj2⟩ := Deque.locate_eq_some.1 hj
  obtain ⟨hk1, hk2⟩ := Deque.locate_eq_some.1 hk
  obtain ⟨hjl, hjv⟩ := List.getElem?_eq_some_iff.1 hj1
  obtain ⟨hkl, hkv⟩ := List.getElem?_eq_some_iff.1 hk1
  have hdiv : j / kBlockSize = k / kBlockSize :=
    (List.Nodup.getElem_inj_iff hn).1 (hjv.trans hkv.symm)
  have hmod : j % kBlockSize = k % kBlockSize := hj2.symm.trans hk2
  rw [← Nat.div_add_mod j kBlockSize, ← Nat.div_add_mod k kBlockSize, hdiv, hmod]

theorem Deque.cell_of_locate {h : Heap α} {d : Deque} {j p off : Nat}
    (hl : d.locate j = some (p, off)) : d.cell h j = h.slot p off := by
  simp [Deque.cell, hl]

theorem Deque.cell_congr {h h1 : Heap α} {d : Deque} (ha : h.AgreeOn h1 d.array_) (j : Nat) :
    d.cell h1 j = d.cell h j := by
  unfold Deque.cell
  cases hl : d.locate j with
  | none => rfl
  | some po =>
    obtain ⟨p, off⟩ := po
    exact Heap.slot_congr (ha p (Deque.locate_mem hl)) off

theorem Deque.subscript_congr {h h1 : Heap α} {d : Deque} (ha : h.AgreeOn h1 d.array_)
    (i : Nat) : d.subscript h1 i = d.subscript h i := by
  simp [Deque.subscript, Deque.cell_congr ha]

theorem Deque.WF.wf_congr {h h1 : Heap α} {d : Deque} (hw : d.WF h)
    (ha : h.AgreeOn h1 d.array_) : d.WF h1 :=
  ⟨hw.size_eq, hw.cap, hw.nodup, fun p hp => (Heap.blockLen_congr (ha p hp)).trans (hw.live p hp)⟩

theorem Deque.Models.models_congr {h h1 : Heap α} {d : Deque} {L : List α} (hm : d.Models h L)
    (ha : h.AgreeOn h1 d.array_) : d.Models h1 L :=
  ⟨hm.1.wf_congr ha, hm.2.1, fun i hi => (Deque.subscript_congr ha i).trans (hm.2.2 i hi)⟩

theorem Deque.WF.cell_isSome {h : Heap α} {d : Deque} (hw : d.WF h) {j : Nat}
    (hj : j < kBlockSize * d.array_.length) :
    ∃ p y, d.locate j = some (p, j % kBlockSize) ∧ h.slot p (j % kBlockSize) = some y := by
  obtain ⟨p, hp, hl⟩ := Deque.locate_of_lt hj
  obtain ⟨y, hy⟩ := Heap.slot_isSome (hw.live p hp) (Nat.mod_lt j kBlockSize_pos)
  exact ⟨p, y, hl, hy⟩

theorem Deque.WF.wf_store {h : Heap α} {d : Deque} (hw : d.WF h) (p off : Nat) (x : Option α) :
    d.WF (h.store p off x) :=
  ⟨hw.size_eq, hw.cap, hw.nodup,
    fun q hq => (Heap.store_blockLen h p off x q).trans (hw.live q hq)⟩

theorem Deque.cell_store_same {h : Heap α} {d : Deque} {j p off : Nat} {y : Option α}
    (hl : d.locate j = some (p, off)) (hs : h.slot p off = some y) (x : Option α) :
    d.cell (h.store p off x) j = some x := by
  rw [Deque.cell_of_locate hl]
  exact Heap.slot_store_same hs x

theorem Deque.cell_store_ne {h : Heap α} {d : Deque} (hn : d.array_.Nodup) {j k p off : Nat}
    (hl : d.locate j = some (p, off)) (hk : k ≠ j) (x : Option α) :
    d.cell (h.store p off x) k = d.cell h k := by
  unfold Deque.cell
  cases hlk : d.locate k with
  | none => rfl
  | some qo =>
    obtain ⟨q, off2⟩ := qo
    apply Heap.slot_store_ne
    by_contra hc
    have hq : q = p := by
      by_contra hq
      exact hc (Or.inl hq)
    have ho : off2 = off := by
      by_contra ho
      exact hc (Or.inr ho)
    subst hq ho
    exact hk (Deque.locate_inj hn hlk hl)

theorem Heap.AgreeOn.agree_refl (h : Heap α) (ps : List Nat) : h.AgreeOn h ps := fun _ _ => rfl

theorem Heap.AgreeOn.agree_trans {h h1 h2 : Heap α} {ps : List Nat} (h01 : h.AgreeOn h1 ps)
    (h12 : h1.AgreeOn h2 ps) : h.AgreeOn h2 ps :=
  fun q hq => (h12 q hq).trans (h01 q hq)

theorem Heap.Frame.frame_refl (h : Heap α) (ps : List Nat) : h.Frame ps h ps :=
  ⟨Nat.le_refl _, fun _ _ _ => rfl, fun _ hq => Or.inl hq⟩

theorem Heap.Frame.frame_trans {h h1 h2 : Heap α} {ps ps1 ps2 : List Nat}
    (f1 : h.Frame ps h1 ps1) (f2 : h1.Frame ps1 h2 ps2) : h.Frame ps h2 ps2 := by
  refine ⟨Nat.le_trans f1.grow f2.grow, ?_, ?_⟩
  · intro q hq hn
    have hq1 : q < h1.cells.length := Nat.lt_of_lt_of_le hq f1.grow
    have hn1 : q ∉ ps1 := by
      intro hmem
      rcases f1.own q hmem with hc | hc
      · exact hn hc
      · omega
    exact (f2.keep q hq1 hn1).trans (f1.keep q hq hn)
  · intro q hq
    rcases f2.own q hq with hc | hc
    · exact f1.own q hc
    · exact Or.inr (Nat.le_trans f1.grow hc)

theorem Heap.Frame.frame_store (h : Heap α) {ps : List Nat} {p : Nat} (hp : p ∈ ps) (off : Nat)
    (x : Option α) : h.Frame ps (h.store p off x) ps := by
  refine ⟨Nat.le_of_eq (Heap.store_length h p off x).symm, ?_, fun _ hq => Or.inl hq⟩
  intro q _ hn
  apply Heap.store_cells_ne
  intro hqp
  exact hn (hqp ▸ hp)

/-- Blocks of another table `qs`, live in `h` and disjoint from `ps`, are kept by a call with
footprint `ps`. -/
theorem Heap.Frame.agreeOn {h h1 : Heap α} {ps ps1 qs : List Nat} (f : h.Frame ps h1 ps1)
    (hlive : ∀ q ∈ qs, q < h.cells.length) (hdis : ∀ q ∈ qs, q ∉ ps) : h.AgreeOn h1 qs :=
  fun q hq => f.keep q (hlive q hq) (hdis q hq)

theorem Heap.Frame.disjoint {h h1 : Heap α} {ps ps1 qs : List Nat} (f : h.Frame ps h1 ps1)
    (hlive : ∀ q ∈ qs, q < h.cells.length) (hdis : ∀ q ∈ qs, q ∉ ps) : ∀ q ∈ qs, q ∉ ps1 := by
  intro q hq hmem
  rcases f.own q hmem with hc | hc
  · exact hdis q hq hc
  · have := hlive q hq
    omega

theorem Deque.WF.lt_length {h : Heap α} {d : Deque} (hw : d.WF h) :
    ∀ q ∈ d.array_, q < h.cells.length :=
  fun q hq => Heap.blockLen_lt (hw.live q hq)

theorem Deque.cell_eq_of_array (h : Heap α) {d d1 : Deque} (ha : d1.array_ = d.array_)
    (j : Nat) : d1.cell h j = d.cell h j := by
  simp [Deque.cell, Deque.locate, ha]

theorem Deque.locate_eq_of_array {d d1 : Deque} (ha : d1.array_ = d.array_)
    (j : Nat) : d1.locate j = d.locate j := by
  simp [Deque.locate, ha]

/-- Effect of `ensure_back_capacity` on a well-formed deque. -/
theorem Deque.ensure_back_capacity_spec {h : Heap α} {d : Deque} (hw : d.WF h) :
    (Deque.ensure_back_capacity h d).2.WF (Deque.ensure_back_capacity h d).1 ∧
    (Deque.ensure_back_capacity h d).2.size_ = d.size_ ∧
    (Deque.ensure_back_capacity h d).2.front_index_ = d.front_index_ ∧
    (Deque.ensure_back_capacity h d).2.back_index_ = d.back_index_ ∧
    d.back_index_ < kBlockSize * (Deque.ensure_back_capacity h d).2.array_.length ∧
    (∀ j, j < d.back_index_ →
      (Deque.ensure_back_capacity h d).2.cell (Deque.ensure_back_capacity h d).1 j
        = d.cell h j) ∧
    h.Frame d.array_ (Deque.ensure_back_capacity h d).1
      (Deque.ensure_back_capacity h d).2.array_ := by
  unfold Deque.ensure_back_capacity
  have hcap := hw.cap
  split
  · next hmod =>
    have hfresh : h.cells.length ∉ d.array_ := fun hm => Nat.lt_irrefl _ (hw.lt_length _ hm)
    have hold : ∀ q ∈ d.array_, (Deque.allocate_block h).1.cells[q]? = h.cells[q]? :=
      fun q hq => Heap.allocate_cells_old h kBlockSize (hw.lt_length q hq)
    refine ⟨⟨hw.size_eq, ?_, ?_, ?_⟩, rfl, rfl, rfl, ?_, ?_, ?_⟩
    · simp only [List.length_append, List.length_singleton]
      rw [Nat.mul_add]
      omega
    · rw [List.nodup_append]
      refine ⟨hw.nodup, List.nodup_singleton _, ?_⟩
      intro a ha hb
      rw [List.mem_singleton] at hb
      subst hb
      exact hfresh ha
    · intro p hp
      rw [List.mem_append, List.mem_singleton] at hp
      rcases hp with hp | hp
      · exact (Heap.blockLen_congr (hold p hp)).trans (hw.live p hp)
      · subst hp
        simp [Heap.blockLen, Deque.allocate_block, Heap.allocate]
    · simp only [List.length_append, List.length_singleton]
      rw [Nat.mul_add]
      have := kBlockSize_pos
      omega
    · intro j hj
      have hjl : j / kBlockSize < d.array_.length :=
        (Nat.div_lt_iff_lt_mul kBlockSize_pos).2 (by rw [Nat.mul_comm]; omega)
      have hmem : d.array_[j / kBlockSize] ∈ d.array_ := List.getElem_mem _
      simp only [Deque.cell, Deque.locate, List.getElem?_append_left hjl,
        List.getElem?_eq_getElem hjl]
      exact Heap.slot_congr (hold _ hmem) _
    · refine ⟨by simp [Deque.allocate_block, Heap.allocate], ?_, ?_⟩
      · intro q hq _
        exact Heap.allocate_cells_old h kBlockSize hq
      · intro q hq
        rw [List.mem_append, List.mem_singleton] at hq
        rcases hq with hq | hq
        · exact Or.inl hq
        · exact Or.inr (Nat.le_of_eq hq.symm)
  · next hmod =>
    refine ⟨hw, rfl, rfl, rfl, ?_, fun _ _ => rfl, Heap.Frame.frame_refl _ _⟩
    rcases Nat.lt_or_ge d.back_index_ (kBlockSize * d.array_.length) with hlt | hge
    · exact hlt
    · exfalso
      apply hmod
      have : d.back_index_ = kBlockSize * d.array_.length := Nat.le_antisymm hcap hge
      rw [this]
      exact Nat.mul_mod_right _ _

theorem decSizeT_pos {n : Nat} (hn : 0 < n) : decSizeT n = n - 1 := by
  unfold decSizeT
  rw [if_neg (by omega)]

theorem Deque.Models.cell {h : Heap α} {d : Deque} {L : List α} (hm : d.Models h L) {i : Nat}
    (hi : i < L.length) : d.cell h (d.front_index_ + i) = some (some L[i]) := by
  have hs := hm.2.2 i (by rw [hm.2.1]; exact hi)
  rw [List.getElem?_eq_getElem hi] at hs
  exact Option.join_eq_some.1 hs

/-- Effect of `ensure_front_capacity` on a well-formed deque: the indices are shifted by
`sh` (zero or one block width) and the content of every slot moves with them. -/
theorem Deque.ensure_front_capacity_spec {h : Heap α} {d : Deque} (hw : d.WF h) :
    (Deque.ensure_front_capacity h d).2.WF (Deque.ensure_front_capacity h d).1 ∧
    (Deque.ensure_front_capacity h d).2.size_ = d.size_ ∧
    0 < (Deque.ensure_front_capacity h d).2.front_index_ ∧
    (∃ sh, (Deque.ensure_front_capacity h d).2.front_index_ = d.front_index_ + sh ∧
      ∀ j, j < d.back_index_ →
        (Deque.ensure_front_capacity h d).2.cell (Deque.ensure_front_capacity h d).1 (j + sh)
          = d.cell h j) ∧
    h.Frame d.array_ (Deque.ensure_front_capacity h d).1
      (Deque.ensure_front_capacity h d).2.array_ := by
  unfold Deque.ensure_front_capacity
  have hcap := hw.cap
  have hsz := hw.size_eq
  split
  · next h0 =>
    have hfresh : h.cells.length ∉ d.array_ := fun hm => Nat.lt_irrefl _ (hw.lt_length _ hm)
    have hold : ∀ q ∈ d.array_, (Deque.allocate_block h).1.cells[q]? = h.cells[q]? :=
      fun q hq => Heap.allocate_cells_old h kBlockSize (hw.lt_length q hq)
    refine ⟨⟨?_, ?_, ?_, ?_⟩, rfl, kBlockSize_pos, ⟨kBlockSize, ?_, ?_⟩, ?_⟩
    · simp only
      omega
    · simp only [List.length_cons]
      rw [Nat.mul_add]
      omega
    · rw [List.nodup_cons]
      exact ⟨hfresh, hw.nodup⟩
    · intro p hp
      rw [List.mem_cons] at hp
      rcases hp with hp | hp
      · subst hp
        simp [Heap.blockLen, Deque.allocate_block, Heap.allocate]
      · exact (Heap.blockLen_congr (hold p hp)).trans (hw.live p hp)
    · simp only
      omega
    · intro j hj
      have hjl : j / kBlockSize < d.array_.length :=
        (Nat.div_lt_iff_lt_mul kBlockSize_pos).2 (by rw [Nat.mul_comm]; omega)
      have hmem : d.array_[j / kBlockSize] ∈ d.array_ := List.getElem_mem _
      have hdiv : (j + kBlockSize) / kBlockSize = j / kBlockSize + 1 :=
        Nat.add_div_right j kBlockSize_pos
      have hmod : (j + kBlockSize) % kBlockSize = j % kBlockSize := Nat.add_mod_right j _
      simp only [Deque.cell, Deque.locate, hdiv, hmod, List.getElem?_cons_succ,
        List.getElem?_eq_getElem hjl]
      exact Heap.slot_congr (hold _ hmem) _
    · refine ⟨by simp [Deque.allocate_block, Heap.allocate], ?_, ?_⟩
      · intro q hq _
        exact Heap.allocate_cells_old h kBlockSize hq
      · intro q hq
        rw [List.mem_cons] at hq
        rcases hq with hq | hq
        · exact Or.inr (Nat.le_of_eq hq.symm)
        · exact Or.inl hq
  · next h0 =>
    exact ⟨hw, rfl, Nat.pos_of_ne_zero h0, ⟨0, rfl, fun _ _ => rfl⟩, Heap.Frame.frame_refl _ _⟩

/-- A successful `emplace_back` appends the value. -/
theorem Deque.emplace_back_spec {h : Heap α} {d : Deque} {L : List α} (hm : d.Models h L)
    (v : α) : ∃ h1 d1, Deque.emplace_back h d (some v) = Res.ok (h1, d1) ∧
      d1.Models h1 (L ++ [v]) ∧ h.Frame d.array_ h1 d1.array_ := by
  have key := Deque.ensure_back_capacity_spec hm.1
  unfold Deque.emplace_back
  generalize Deque.ensure_back_capacity h d = s at key ⊢
  obtain ⟨hs, ds⟩ := s
  obtain ⟨hw1, hsz, hfr, hbk, hlt, hcell, hframe⟩ := key
  simp only at hw1 hsz hfr hbk hlt hcell hframe ⊢
  obtain ⟨p, y, hloc, hslot⟩ := hw1.cell_isSome hlt
  rw [← hbk] at hloc hslot
  have hp : p ∈ ds.array_ := Deque.locate_mem hloc
  refine ⟨hs.store p (ds.back_index_ % kBlockSize) (some v),
    { ds with back_index_ := ds.back_index_ + 1, size_ := ds.size_ + 1 }, ?_, ?_, ?_⟩
  · simp [hloc, Heap.construct, hslot]
  · have hsize := hm.1.size_eq
    have hcap := hw1.cap
    have hlen := hm.2.1
    refine ⟨⟨?_, ?_, hw1.nodup, ?_⟩, ?_, ?_⟩
    · simp only
      omega
    · simp only
      omega
    · exact (hw1.wf_store _ _ _).live
    · simp only [List.length_append, List.length_singleton]
      omega
    · intro i hi
      simp only at hi
      simp only [Deque.subscript]
      change (Deque.cell _ ds _).join = _
      by_cases hlast : i = L.length
      · have hj : ds.front_index_ + i = ds.back_index_ := by omega
        rw [hj, Deque.cell_store_same hloc hslot, hlast]
        simp
      · have hil : i < L.length := by omega
        have hj : ds.front_index_ + i ≠ ds.back_index_ := by omega
        rw [Deque.cell_store_ne hw1.nodup hloc hj, hfr, hcell _ (by omega), hm.cell hil,
          List.getElem?_append_left hil, List.getElem?_eq_getElem hil]
        rfl
  · exact hframe.frame_trans (Heap.Frame.frame_store hs hp _ _)

/-- A successful `emplace_front` prepends the value. -/
theorem Deque.emplace_front_spec {h : Heap α} {d : Deque} {L : List α} (hm : d.Models h L)
    (v : α) : ∃ h1 d1, Deque.emplace_front h d (some v) = Res.ok (h1, d1) ∧
      d1.Models h1 (v :: L) ∧ h.Frame d.array_ h1 d1.array_ := by
  have key := Deque.ensure_front_capacity_spec hm.1
  unfold Deque.emplace_front
  generalize Deque.ensure_front_capacity h d = s at key ⊢
  obtain ⟨hs, ds⟩ := s
  obtain ⟨hw1, hsz, hpos, ⟨sh, hfr, hcell⟩, hframe⟩ := key
  simp only at hw1 hsz hpos hfr hcell hframe ⊢
  have hsize1 := hw1.size_eq
  have hcap1 := hw1.cap
  have hsize := hm.1.size_eq
  have hlen := hm.2.1
  have hlt : ds.front_index_ - 1 < kBlockSize * ds.array_.length := by omega
  obtain ⟨p, y, hloc, hslot⟩ := hw1.cell_isSome hlt
  have hp : p ∈ ds.array_ := Deque.locate_mem hloc
  rw [decSizeT_pos hpos]
  refine ⟨hs.store p ((ds.front_index_ - 1) % kBlockSize) (some v),
    { ds with front_index_ := ds.front_index_ - 1, size_ := ds.size_ + 1 }, ?_, ?_, ?_⟩
  · simp [hloc, Heap.construct, hslot]
  · refine ⟨⟨?_, ?_, hw1.nodup, ?_⟩, ?_, ?_⟩
    · simp only
      omega
    · exact hcap1
    · exact (hw1.wf_store _ _ _).live
    · simp only [List.length_cons]
      omega
    · intro i hi
      simp only at hi
      simp only [Deque.subscript]
      change (Deque.cell _ ds _).join = _
      cases i with
      | zero =>
        rw [Nat.add_zero, Deque.cell_store_same hloc hslot]
        simp
      | succ k =>
        have hkl : k < L.length := by omega
        have hj : ds.front_index_ - 1 + (k + 1) ≠ ds.front_index_ - 1 := by omega
        have hj2 : ds.front_index_ - 1 + (k + 1) = (d.front_index_ + k) + sh := by omega
        rw [Deque.cell_store_ne hw1.nodup hloc hj, hj2, hcell _ (by omega), hm.cell hkl,
          List.getElem?_cons_succ, List.getElem?_eq_getElem hkl]
        rfl
  · exact hframe.frame_trans (Heap.Frame.frame_store hs hp _ _)

theorem Deque.cell_eq_some {h : Heap α} {d : Deque} {j : Nat} {y : Option α}
    (hc : d.cell h j = some y) : ∃ p off, d.locate j = some (p, off) ∧ h.slot p off = some y := by
  unfold Deque.cell at hc
  cases hl : d.locate j with
  | none => rw [hl] at hc; cases hc
  | some po =>
    obtain ⟨p, off⟩ := po
    rw [hl] at hc
    exact ⟨p, off, rfl, hc⟩

/-- A `pop_back` on a non-empty deque drops the last element. -/
theorem Deque.pop_back_spec {h : Heap α} {d : Deque} {L : List α} (hm : d.Models h L)
    (hne : L ≠ []) : ∃ h1 d1, Deque.pop_back h d = Res.ok (h1, d1) ∧
      d1.Models h1 L.dropLast ∧ h.Frame d.array_ h1 d1.array_ := by
  have hpos : 0 < L.length := List.length_pos.2 hne
  have hsize := hm.1.size_eq
  have hlen := hm.2.1
  have hcap := hm.1.cap
  have hlast := hm.cell (show L.length - 1 < L.length by omega)
  obtain ⟨p, off, hloc, hslot⟩ := Deque.cell_eq_some hlast
  have hj : d.front_index_ + (L.length - 1) = d.back_index_ - 1 := by omega
  rw [hj] at hloc
  have hp : p ∈ d.array_ := Deque.locate_mem hloc
  refine ⟨h.store p off none,
    { d with back_index_ := d.back_index_ - 1, size_ := d.size_ - 1 }, ?_, ?_, ?_⟩
  · unfold Deque.pop_back
    rw [decSizeT_pos (show 0 < d.back_index_ by omega),
      decSizeT_pos (show 0 < d.size_ by omega)]
    simp [hloc, Heap.destroy, hslot]
  · refine ⟨⟨?_, ?_, hm.1.nodup, ?_⟩, ?_, ?_⟩
    · simp only
      omega
    · simp only
      omega
    · exact (hm.1.wf_store _ _ _).live
    · simp only [List.length_dropLast]
      omega
    · intro i hi
      simp only at hi
      simp only [Deque.subscript]
      change (Deque.cell _ d _).join = _
      have hil : i < L.length := by omega
      have hne2 : d.front_index_ + i ≠ d.back_index_ - 1 := by omega
      rw [Deque.cell_store_ne hm.1.nodup hloc hne2, hm.cell hil, List.getElem?_dropLast,
        if_pos (by omega), List.getElem?_eq_getElem hil]
      rfl
  · exact Heap.Frame.frame_store h hp _ _

/-- A `pop_front` on a non-empty deque drops the first element. -/
theorem Deque.pop_front_spec {h : Heap α} {d : Deque} {L : List α} (hm : d.Models h L)
    (hne : L ≠ []) : ∃ h1 d1, Deque.pop_front h d = Res.ok (h1, d1) ∧
      d1.Models h1 L.tail ∧ h.Frame d.array_ h1 d1.array_ := by
  have hpos : 0 < L.length := List.length_pos.2 hne
  have hsize := hm.1.size_eq
  have hlen := hm.2.1
  have hcap := hm.1.cap
  have hfirst := hm.cell hpos
  obtain ⟨p, off, hloc, hslot⟩ := Deque.cell_eq_some hfirst
  rw [Nat.add_zero] at hloc
  have hp : p ∈ d.array_ := Deque.locate_mem hloc
  refine ⟨h.store p off none,
    { d with front_index_ := d.front_index_ + 1, size_ := d.size_ - 1 }, ?_, ?_, ?_⟩
  · unfold Deque.pop_front
    rw [decSizeT_pos (show 0 < d.size_ by omega)]
    simp [hloc, Heap.destroy, hslot]
  · refine ⟨⟨?_, ?_, hm.1.nodup, ?_⟩, ?_, ?_⟩
    · simp only
      omega
    · exact hcap
    · exact (hm.1.wf_store _ _ _).live
    · simp only [List.length_tail]
      omega
    · intro i hi
      simp only at hi
      simp only [Deque.subscript]
      change (Deque.cell _ d _).join = _
      have hil : i + 1 < L.length := by omega
      have hne2 : d.front_index_ + 1 + i ≠ d.front_index_ := by omega
      have hj : d.front_index_ + 1 + i = d.front_index_ + (i + 1) := by omega
      rw [Deque.cell_store_ne hm.1.nodup hloc hne2, hj, hm.cell hil, List.getElem?_tail,
        List.getElem?_eq_getElem hil]
      rfl
  · exact Heap.Frame.frame_store h hp _ _

/-- The default-constructed deque represents the empty list, in any heap. -/
theorem Deque.default_models (h : Heap α) : Deque.default.Models h ([] : List α) := by
  refine ⟨⟨rfl, Nat.zero_le _, List.nodup_nil, ?_⟩, rfl, ?_⟩
  · intro p hp
    cases hp
  · intro i hi
    exact absurd hi (Nat.not_lt_zero i)

/-- Reading the whole deque through `operator[]` gives the represented list. -/
theorem Deque.Models.toList_eq {h : Heap α} {d : Deque} {L : List α} (hm : d.Models h L) :
    d.toList h = L.map some := by
  apply List.ext_getElem?
  intro i
  unfold Deque.toList
  rw [List.getElem?_map, List.getElem?_map]
  by_cases hi : i < d.size_
  · rw [List.getElem?_range hi, Option.map_some', hm.2.2 i hi]
    rw [List.getElem?_eq_getElem (by rw [← hm.2.1]; exact hi)]
    rfl
  · have h1 : (List.range d.size_)[i]? = none :=
      List.getElem?_eq_none (by rw [List.length_range]; omega)
    have h2 : L[i]? = none := List.getElem?_eq_none (by rw [← hm.2.1]; omega)
    rw [h1, h2]
    rfl

/-- One end operation, applied where no pop meets an empty deque, follows the reference. -/
theorem Deque.step_spec {h : Heap α} {d : Deque} {L : List α} (hm : d.Models h L)
    (op : Op α) (hok : popsOk L.length [op] = true) :
    ∃ h1 d1, Deque.step h d op = Res.ok (h1, d1) ∧ d1.Models h1 (refStep L op) ∧
      h.Frame d.array_ h1 d1.array_ := by
  cases op with
  | push_back v => exact Deque.emplace_back_spec hm v
  | push_front v => exact Deque.emplace_front_spec hm v
  | pop_back =>
    have hne : L ≠ [] := by
      rintro rfl
      simp [popsOk] at hok
    exact Deque.pop_back_spec hm hne
  | pop_front =>
    have hne : L ≠ [] := by
      rintro rfl
      simp [popsOk] at hok
    exact Deque.pop_front_spec hm hne

theorem popsOk_cons (n : Nat) (op : Op α) (ops : List (Op α))
    (hok : popsOk n (op :: ops) = true) :
    popsOk n [op] = true ∧ ∀ L : List α, L.length = n →
      popsOk (refStep L op).length ops = true := by
  cases op with
  | push_back v =>
    refine ⟨by simp [popsOk], fun L hL => ?_⟩
    simpa [refStep, popsOk, hL] using hok
  | push_front v =>
    refine ⟨by simp [popsOk], fun L hL => ?_⟩
    simpa [refStep, popsOk, hL] using hok
  | pop_back =>
    cases n with
    | zero => simp [popsOk] at hok
    | succ k =>
      refine ⟨by simp [popsOk], fun L hL => ?_⟩
      simpa [refStep, popsOk, hL] using hok
  | pop_front =>
    cases n with
    | zero => simp [popsOk] at hok
    | succ k =>
      refine ⟨by simp [popsOk], fun L hL => ?_⟩
      simpa [refStep, popsOk, hL] using hok

/-- A run of end operations in which no pop meets an empty deque returns normally and
follows the reference list. -/
theorem Deque.run_spec (ops : List (Op α)) : ∀ {h : Heap α} {d : Deque} {L : List α},
    d.Models h L → popsOk L.length ops = true →
    ∃ h1 d1, Deque.run h d ops = Res.ok (h1, d1) ∧ d1.Models h1 (refRun L ops) ∧
      h.Frame d.array_ h1 d1.array_ := by
  induction ops with
  | nil =>
    intro h d L hm _
    exact ⟨h, d, rfl, hm, Heap.Frame.frame_refl _ _⟩
  | cons op ops ih =>
    intro h d L hm hok
    obtain ⟨hok1, hok2⟩ := popsOk_cons L.length op ops hok
    obtain ⟨h1, d1, hstep, hm1, hf1⟩ := Deque.step_spec hm op hok1
    obtain ⟨h2, d2, hrun, hm2, hf2⟩ := ih hm1 (hok2 L rfl)
    refine ⟨h2, d2, ?_, hm2, hf1.frame_trans hf2⟩
    simp only [Deque.run, hstep]
    exact hrun

/-- Length of the reference list: pushes minus pops. -/
theorem refRun_length (ops : List (Op α)) : ∀ (L : List α), popsOk L.length ops = true →
    (refRun L ops).length + popCount ops = L.length + pushCount ops := by
  induction ops with
  | nil =>
    intro L _
    simp [refRun, popCount, pushCount]
  | cons op ops ih =>
    intro L hok
    obtain ⟨hok1, hok2⟩ := popsOk_cons L.length op ops hok
    have := ih (refStep L op) (hok2 L rfl)
    cases op with
    | push_back v =>
      simp only [refStep, List.length_append, List.length_singleton] at this
      simp only [refRun, refStep, popCount, pushCount]
      omega
    | push_front v =>
      simp only [refStep, List.length_cons] at this
      simp only [refRun, refStep, popCount, pushCount]
      omega
    | pop_back =>
      have hpos : 0 < L.length := by
        cases L with
        | nil => simp [popsOk] at hok1
        | cons a l => simp
      simp only [refStep, List.length_dropLast] at this
      simp only [refRun, refStep, popCount, pushCount]
      omega
    | pop_front =>
      have hpos : 0 < L.length := by
        cases L with
        | nil => simp [popsOk] at hok1
        | cons a l => simp
      simp only [refStep, List.length_tail] at this
      simp only [refRun, refStep, popCount, pushCount]
      omega

/-- C1: every finite sequence of `push_back`, `push_front`, `pop_back` and `pop_front` applied
to a default-constructed deque (in any heap), in which no pop meets an empty deque, returns
normally; afterwards `size()` is the number of pushes minus the number of pops, and the
sequence `[d[0], ..., d[size() - 1]]` read through `operator[]` is the reference list obtained
by the same operations. Block boundaries and re-basing prepends are covered: the sequence of
operations is arbitrary. -/
theorem Deque.run_refines_reference (h0 : Heap α) (ops : List (Op α))
    (hok : popsOk 0 ops = true) :
    ∃ h d, Deque.run h0 Deque.default ops = Res.ok (h, d) ∧
      popCount ops ≤ pushCount ops ∧
      d.size = pushCount ops - popCount ops ∧
      d.toList h = (refRun [] ops).map some := by
  obtain ⟨h, d, hrun, hm, -⟩ := Deque.run_spec ops (Deque.default_models h0) hok
  have hlen := refRun_length ops ([] : List α) hok
  have hsz : d.size_ = (refRun [] ops).length := hm.2.1
  simp only [List.length_nil, Nat.zero_add] at hlen
  refine ⟨h, d, hrun, by omega, ?_, hm.toList_eq⟩
  unfold Deque.size
  omega

theorem Deque.run_refines_reference_witness :
    popsOk 0 [Op.push_back 4, Op.push_front 7, Op.pop_back, Op.push_front 9] = true ∧
    ∃ h d, Deque.run (⟨[]⟩ : Heap Nat) Deque.default
        [Op.push_back 4, Op.push_front 7, Op.pop_back, Op.push_front 9] = Res.ok (h, d) ∧
      d.size = 2 ∧ d.toList h = [some 9, some 7] := by
  refine ⟨by decide, ?_⟩
  obtain ⟨h, d, hrun, -, hsz, hl⟩ := Deque.run_refines_reference (⟨[]⟩ : Heap Nat)
    [Op.push_back 4, Op.push_front 7, Op.pop_back, Op.push_front 9] (by decide)
  exact ⟨h, d, hrun, hsz, hl⟩

theorem popsOk_push_back (vs : List α) : ∀ n, popsOk n (vs.map Op.push_back) = true := by
  induction vs with
  | nil => intro n; simp [popsOk]
  | cons v vs ih => intro n; simpa [popsOk] using ih (n + 1)

theorem popsOk_push_front (vs : List α) : ∀ n, popsOk n (vs.map Op.push_front) = true := by
  induction vs with
  | nil => intro n; simp [popsOk]
  | cons v vs ih => intro n; simpa [popsOk] using ih (n + 1)

theorem refRun_push_back (vs : List α) : ∀ L : List α,
    refRun L (vs.map Op.push_back) = L ++ vs := by
  induction vs with
  | nil => intro L; simp [refRun]
  | cons v vs ih => intro L; simp [refRun, refStep, ih]

theorem refRun_push_front (vs : List α) : ∀ L : List α,
    refRun L (vs.map Op.push_front) = vs.reverse ++ L := by
  induction vs with
  | nil => intro L; simp [refRun]
  | cons v vs ih => intro L; simp [refRun, refStep, ih]

/-- C2: for every list of values `vs` (of any length, also beyond the block size), a
default-constructed deque after `push_back` of each value in turn has `d[i] = vs[i]` for every
`i < N`, and after `push_front` of each value in turn has `d[i] = vs[N - 1 - i]`. -/
theorem Deque.push_roundtrip (h0 : Heap α) (vs : List α) :
    (∃ h d, Deque.run h0 Deque.default (vs.map Op.push_back) = Res.ok (h, d) ∧
      d.size = vs.length ∧
      ∀ i (hi : i < vs.length), d.subscript h i = some vs[i]) ∧
    (∃ h d, Deque.run h0 Deque.default (vs.map Op.push_front) = Res.ok (h, d) ∧
      d.size = vs.length ∧
      ∀ i (hi : i < vs.length), d.subscript h i = some (vs[vs.length - 1 - i])) := by
  constructor
  · obtain ⟨h, d, hrun, hm, -⟩ := Deque.run_spec (vs.map Op.push_back)
      (Deque.default_models h0) (popsOk_push_back vs _)
    rw [refRun_push_back, List.nil_append] at hm
    refine ⟨h, d, hrun, hm.2.1, fun i hi => ?_⟩
    rw [hm.2.2 i (by rw [hm.2.1]; exact hi), List.getElem?_eq_getElem hi]
  · obtain ⟨h, d, hrun, hm, -⟩ := Deque.run_spec (vs.map Op.push_front)
      (Deque.default_models h0) (popsOk_push_front vs _)
    rw [refRun_push_front, List.append_nil] at hm
    have hlen : d.size_ = vs.length := by rw [hm.2.1, List.length_reverse]
    refine ⟨h, d, hrun, hlen, fun i hi => ?_⟩
    rw [hm.2.2 i (by rw [hlen]; exact hi), List.getElem?_reverse hi,
      List.getElem?_eq_getElem (by omega)]

/-- C3: `at(i)` signals the out-of-range error exactly when `i >= size()`, and for
`i < size()` it returns what `operator[](i)` returns; in particular `at(size())` and
`at(size() + 1)` fail, and `at(size() - 1)` succeeds on a non-empty deque. -/
theorem Deque.at_checked (h : Heap α) (d : Deque) (i : Nat) :
    (d.at_ h i = Except.error DequeError.out_of_range ↔ i ≥ d.size) ∧
    (i < d.size → d.at_ h i = Except.ok (d.subscript h i)) ∧
    d.at_ h d.size = Except.error DequeError.out_of_range ∧
    d.at_ h (d.size + 1) = Except.error DequeError.out_of_range ∧
    (d.size ≠ 0 → d.at_ h (d.size - 1) = Except.ok (d.subscript h (d.size - 1))) := by
  unfold Deque.at_
  refine ⟨?_, ?_, ?_, ?_, ?_⟩
  · by_cases hi : i ≥ d.size
    · simp [hi]
    · simp [hi]
  · intro hi
    rw [if_neg (by omega)]
  · rw [if_pos (Nat.le_refl _)]
  · rw [if_pos (Nat.le_succ _)]
  · intro hne
    rw [if_neg (by omega)]

theorem insertAt_length (L : List α) {k : Nat} (hk : k ≤ L.length) (v : α) :
    (insertAt L k v).length = L.length + 1 := by
  simp only [insertAt, List.length_append, List.length_take, List.length_drop,
    List.length_singleton]
  omega

theorem eraseAt_length (L : List α) {k : Nat} (hk : k < L.length) :
    (eraseAt L k).length = L.length - 1 := by
  simp only [eraseAt, List.length_append, List.length_take, List.length_drop]
  omega

theorem getElem?_insertAt (L : List α) {k : Nat} (hk : k ≤ L.length) (v : α) (m : Nat) :
    (insertAt L k v)[m]? = if m < k then L[m]? else if m = k then some v else L[m - 1]? := by
  have hlen : (L.take k).length = k := by rw [List.length_take]; omega
  unfold insertAt
  rw [List.append_assoc]
  by_cases h1 : m < k
  · rw [if_pos h1, List.getElem?_append_left (by omega), List.getElem?_take_of_lt h1]
  · rw [if_neg h1, List.getElem?_append_right (by omega), hlen]
    by_cases h2 : m = k
    · rw [if_pos h2, h2, Nat.sub_self]
      simp
    · rw [if_neg h2]
      obtain ⟨t, ht⟩ : ∃ t, m - k = t + 1 := ⟨m - k - 1, by omega⟩
      rw [ht, List.singleton_append, List.getElem?_cons_succ, List.getElem?_drop]
      congr 1
      omega

theorem insertAt_length_self (L : List α) (v : α) : insertAt L L.length v = L ++ [v] := by
  simp [insertAt]

theorem insertAt_eraseAt (L : List α) {k : Nat} (hk : k < L.length) :
    insertAt (eraseAt L k) k L[k] = L := by
  have hlen : (L.take k).length = k := by rw [List.length_take]; omega
  unfold insertAt eraseAt
  rw [List.take_append_eq_append_take, List.drop_append_eq_append_drop, hlen, Nat.sub_self,
    List.take_zero, List.drop_zero, List.append_nil, List.take_take, Nat.min_self,
    List.drop_eq_nil_of_le (Nat.le_of_eq hlen), List.nil_append, List.append_assoc,
    List.singleton_append, ← List.drop_eq_getElem_cons hk]
  exact List.take_append_drop k L

/-- Exchanging two distinct elements through `std::swap`. -/
theorem Deque.swap_elems_spec {h : Heap α} {d : Deque} {L M : List α} (hm : d.Models h L)
    {i j : Nat} (hi : i < L.length) (hj : j < L.length) (hij : i ≠ j)
    (hlen : M.length = L.length) (hMi : M[i]? = L[j]?) (hMj : M[j]? = L[i]?)
    (hM : ∀ m, m ≠ i → m ≠ j → M[m]? = L[m]?) :
    ∃ h1, Deque.swap_elems h d i j = some h1 ∧ d.Models h1 M ∧ h.Frame d.array_ h1 d.array_ := by
  obtain ⟨p, off, hlp, hsp⟩ := Deque.cell_eq_some (hm.cell hi)
  obtain ⟨q, off2, hlq, hsq⟩ := Deque.cell_eq_some (hm.cell hj)
  have hne : d.front_index_ + j ≠ d.front_index_ + i := by omega
  have hsq1 : (h.store p off (some L[j])).slot q off2 = some (some L[j]) := by
    have := Deque.cell_store_ne hm.1.nodup hlp hne (some L[j]) (h := h)
    rw [Deque.cell_of_locate hlq, Deque.cell_of_locate hlq] at this
    rw [this, hsq]
  refine ⟨(h.store p off (some L[j])).store q off2 (some L[i]), ?_, ?_, ?_⟩
  · simp [Deque.swap_elems, hlp, hlq, hsp, hsq, Heap.assign, hsq1]
  · refine ⟨(hm.1.wf_store _ _ _).wf_store _ _ _, by rw [hm.2.1, hlen], ?_⟩
    intro m hmlt
    have hml : m < L.length := by rw [← hm.2.1]; exact hmlt
    simp only [Deque.subscript]
    by_cases h1 : m = j
    · subst h1
      rw [Deque.cell_store_same hlq hsq1, hMj, List.getElem?_eq_getElem hi]
      rfl
    · have hne1 : d.front_index_ + m ≠ d.front_index_ + j := by omega
      rw [Deque.cell_store_ne hm.1.nodup hlq hne1]
      by_cases h2 : m = i
      · subst h2
        rw [Deque.cell_store_same hlp hsp, hMi, List.getElem?_eq_getElem hj]
        rfl
      · have hne2 : d.front_index_ + m ≠ d.front_index_ + i := by omega
        rw [Deque.cell_store_ne hm.1.nodup hlp hne2, hm.cell hml, hM m h2 h1,
          List.getElem?_eq_getElem hml]
        rfl
  · exact (Heap.Frame.frame_store h (Deque.locate_mem hlp) _ _).frame_trans
      (Heap.Frame.frame_store _ (Deque.locate_mem hlq) _ _)

/-- Swapping positions `i` and `i + 1` moves the inserted element one place. -/
theorem insertAt_swap (R : List α) {i : Nat} (hi : i < R.length) (x : α) :
    (insertAt R (i + 1) x)[i]? = (insertAt R i x)[i + 1]? ∧
    (insertAt R (i + 1) x)[i + 1]? = (insertAt R i x)[i]? ∧
    ∀ m, m ≠ i → m ≠ i + 1 → (insertAt R (i + 1) x)[m]? = (insertAt R i x)[m]? := by
  refine ⟨?_, ?_, ?_⟩
  · rw [getElem?_insertAt R (by omega), getElem?_insertAt R (by omega)]
    simp
  · rw [getElem?_insertAt R (by omega), getElem?_insertAt R (by omega)]
    simp
  · intro m h1 h2
    rw [getElem?_insertAt R (by omega), getElem?_insertAt R (by omega)]
    by_cases h3 : m < i
    · rw [if_pos h3, if_pos (by omega)]
    · rw [if_neg h3, if_neg h1, if_neg (by omega), if_neg h2]

theorem toSizeT_natCast {k : Nat} (hk : k < 2 ^ 64) : toSizeT (k : Int) = k := by
  unfold toSizeT
  omega

theorem toSizeT_toPtrdiff {n : Nat} (hn : n < 2 ^ 64) : toSizeT (toPtrdiff n) = n := by
  unfold toSizeT toPtrdiff
  split <;> omega

/-- The iterator `begin() + k` has index `k`, and its distance to `begin()` is `k` again. -/
theorem DequeIterator.begin_add (this : Nat) {k : Nat} (hk : k < 2 ^ 64) :
    ((Deque.begin_ this).add (k : Int)).index_ = k ∧
    toSizeT (((Deque.begin_ this).add (k : Int)).dist (Deque.begin_ this)) = k := by
  have h1 : ((Deque.begin_ this).add (k : Int)).index_ = k := by
    simp only [DequeIterator.add, Deque.begin_]
    rw [show ((0 : Nat) : Int) + (k : Int) = (k : Int) by omega]
    exact toSizeT_natCast hk
  refine ⟨h1, ?_⟩
  unfold DequeIterator.dist
  rw [h1]
  simp only [Deque.begin_]
  rw [show (k : Int) - ((0 : Nat) : Int) = (k : Int) by omega, toSizeT_natCast hk]
  exact toSizeT_toPtrdiff hk

/-- The loop of `insert` walks the new element from position `i` down to position `k`. -/
theorem Deque.insert_loop_spec {d : Deque} {L : List α} (v : α) {k : Nat} :
    ∀ (i : Nat) {h : Heap α}, k ≤ i → i ≤ L.length → d.Models h (insertAt L i v) →
    ∃ h1, Deque.insert_loop d k i h = some h1 ∧ d.Models h1 (insertAt L k v) ∧
      h.Frame d.array_ h1 d.array_ := by
  intro i
  induction i with
  | zero =>
    intro h hk _ hm
    have : k = 0 := by omega
    subst this
    exact ⟨h, rfl, hm, Heap.Frame.frame_refl _ _⟩
  | succ i ih =>
    intro h hk hi hm
    by_cases hgt : i + 1 > k
    · obtain ⟨s1, s2, s3⟩ := insertAt_swap L (show i < L.length by omega) v
      have hlen1 := insertAt_length L (show i + 1 ≤ L.length by omega) v
      have hlen0 := insertAt_length L (show i ≤ L.length by omega) v
      obtain ⟨h1, hsw, hm1, hf1⟩ := Deque.swap_elems_spec (M := insertAt L i v) hm
        (show i + 1 < (insertAt L (i + 1) v).length by omega)
        (show i < (insertAt L (i + 1) v).length by omega) (by omega)
        (by omega) s1.symm s2.symm (fun m hm1 hm2 => (s3 m hm2 hm1).symm)
      obtain ⟨h2, hloop, hm2, hf2⟩ := ih (by omega) (by omega) hm1
      refine ⟨h2, ?_, hm2, hf1.frame_trans hf2⟩
      simp only [Deque.insert_loop, if_pos hgt, hsw]
      exact hloop
    · have : k = i + 1 := by omega
      subst this
      refine ⟨h, ?_, hm, Heap.Frame.frame_refl _ _⟩
      simp [Deque.insert_loop]

/-- The loop of `erase` walks the element at position `i` up to the last position. -/
theorem Deque.erase_loop_spec {d : Deque} {R : List α} (x : α) :
    ∀ (n i : Nat) {h : Heap α}, i + n = R.length → d.Models h (insertAt R i x) →
    ∃ h1, Deque.erase_loop d i n h = some h1 ∧ d.Models h1 (insertAt R R.length x) ∧
      h.Frame d.array_ h1 d.array_ := by
  intro n
  induction n with
  | zero =>
    intro i h hi hm
    have : i = R.length := by omega
    subst this
    exact ⟨h, rfl, hm, Heap.Frame.frame_refl _ _⟩
  | succ n ih =>
    intro i h hi hm
    obtain ⟨s1, s2, s3⟩ := insertAt_swap R (show i < R.length by omega) x
    have hlen1 := insertAt_length R (show i + 1 ≤ R.length by omega) x
    have hlen0 := insertAt_length R (show i ≤ R.length by omega) x
    obtain ⟨h1, hsw, hm1, hf1⟩ := Deque.swap_elems_spec (M := insertAt R (i + 1) x) hm
      (show i < (insertAt R i x).length by omega)
      (show i + 1 < (insertAt R i x).length by omega) (by omega)
      (by omega) s1 s2 s3
    obtain ⟨h2, hloop, hm2, hf2⟩ := ih (i + 1) (by omega) hm1
    refine ⟨h2, ?_, hm2, hf1.frame_trans hf2⟩
    simp only [Deque.erase_loop, hsw]
    exact hloop

/-- C4: for a deque `d` with element sequence `L`, a position `k <= |L|` (a value of the
index type) and a value `v`, the call `d.insert(d.begin() + k, v)` returns normally, and
afterwards `size() = |L| + 1` and the element sequence is `L[0..k) ++ [v] ++ L[k..|L|)`. -/
theorem Deque.insert_matches_reference (this : Nat) (h : Heap α) (d : Deque) (L : List α)
    (k : Nat) (v : α) (hm : d.Models h L) (hk : k ≤ L.length) (hfit : k < 2 ^ 64) :
    ∃ h1 d1, Deque.insert this h d ((Deque.begin_ this).add (k : Int)) (some v)
        = Res.ok (h1, d1) ∧
      d1.size = L.length + 1 ∧
      d1.toList h1 = (L.take k ++ [v] ++ L.drop k).map some ∧
      d1.Models h1 (L.take k ++ [v] ++ L.drop k) := by
  obtain ⟨h1, d1, hpush, hm1, -⟩ := Deque.emplace_back_spec hm v
  obtain ⟨-, hpos⟩ := DequeIterator.begin_add this hfit
  have hsz1 : d1.size_ = L.length + 1 := by
    rw [hm1.2.1, List.length_append, List.length_singleton]
  rw [← insertAt_length_self] at hm1
  obtain ⟨h2, hloop, hm2, -⟩ := Deque.insert_loop_spec v L.length hk (Nat.le_refl _) hm1
  refine ⟨h2, d1, ?_, hsz1, hm2.toList_eq, hm2⟩
  have hdec : decSizeT (L.length + 1) = L.length := by
    rw [decSizeT_pos (Nat.succ_pos _)]
    omega
  unfold Deque.insert Deque.push_back
  rw [hpush]
  simp only [hpos, hsz1, hdec, hloop]

theorem Deque.insert_matches_reference_witness :
    sampleA.Models sampleHeap [5, 6] ∧ 1 ≤ [5, 6].length ∧
    ∃ h1 d1, Deque.insert 0 sampleHeap sampleA ((Deque.begin_ 0).add ((1 : Nat) : Int)) (some 9)
        = Res.ok (h1, d1) ∧
      d1.size = 3 ∧ d1.toList h1 = [some 5, some 9, some 6] := by
  refine ⟨by decide, by decide, ?_⟩
  obtain ⟨h1, d1, hins, hsz, hl, -⟩ := Deque.insert_matches_reference 0 sampleHeap sampleA
    [5, 6] 1 9 (by decide) (by decide) (by norm_num)
  exact ⟨h1, d1, hins, hsz, hl⟩

/-- C5: for a non-empty deque `d` with element sequence `L` and a position `k < |L|` (a value
of the index type), the call `d.erase(d.begin() + k)` returns normally, and afterwards
`size() = |L| - 1` and the element sequence is `L[0..k) ++ L[k+1..|L|)`. -/
theorem Deque.erase_matches_reference (this : Nat) (h : Heap α) (d : Deque) (L : List α)
    (k : Nat) (hm : d.Models h L) (hk : k < L.length) (hfit : k < 2 ^ 64) :
    ∃ h1 d1, Deque.erase this h d ((Deque.begin_ this).add (k : Int)) = Res.ok (h1, d1) ∧
      d1.size = L.length - 1 ∧
      d1.toList h1 = (L.take k ++ L.drop (k + 1)).map some ∧
      d1.Models h1 (L.take k ++ L.drop (k + 1)) := by
  obtain ⟨-, hpos⟩ := DequeIterator.begin_add this hfit
  have hRlen := eraseAt_length L hk
  have hm0 : d.Models h (insertAt (eraseAt L k) k L[k]) := by
    rw [insertAt_eraseAt L hk]
    exact hm
  obtain ⟨h1, hloop, hm1, -⟩ := Deque.erase_loop_spec L[k] ((eraseAt L k).length - k) k
    (by omega) hm0
  rw [insertAt_length_self] at hm1
  obtain ⟨h2, d2, hpop, hm2, -⟩ := Deque.pop_back_spec hm1 (by simp)
  rw [List.dropLast_concat] at hm2
  refine ⟨h2, d2, ?_, ?_, hm2.toList_eq, hm2⟩
  · unfold Deque.erase
    have hsz : d.size_ = L.length := hm.2.1
    simp only [hpos, hsz, decSizeT_pos (show 0 < L.length by omega)]
    rw [hRlen] at hloop
    rw [hloop]
    exact hpop
  · show d2.size_ = _
    rw [hm2.2.1]
    exact hRlen

theorem Deque.erase_matches_reference_witness :
    sampleA.Models sampleHeap [5, 6] ∧ 0 < [5, 6].length ∧
    ∃ h1 d1, Deque.erase 0 sampleHeap sampleA ((Deque.begin_ 0).add ((0 : Nat) : Int))
        = Res.ok (h1, d1) ∧
      d1.size = 1 ∧ d1.toList h1 = [some 6] := by
  refine ⟨by decide, by decide, ?_⟩
  obtain ⟨h1, d1, her, hsz, hl, -⟩ := Deque.erase_matches_reference 0 sampleHeap sampleA
    [5, 6] 0 (by decide) (by decide) (by norm_num)
  exact ⟨h1, d1, her, hsz, hl⟩

theorem Heap.outstanding_rollback (h : Heap α) (b : List (Option α)) :
    (⟨(h.cells ++ [some b]).set h.cells.length none⟩ : Heap α).outstanding = h.outstanding := by
  have : (h.cells ++ [some b]).set h.cells.length none = h.cells ++ [none] := by
    rw [List.set_append_right _ _ (Nat.le_refl _), Nat.sub_self]
    rfl
  simp [Heap.outstanding, this, List.filter_append]

/-- C10: in every well-formed deque state (every reachable state is one), when the element
constructor throws inside `emplace_back`, the exception leaves with the deque in its pre-call
state: `size_`, `front_index_`, `back_index_` and the block table are unchanged, the elements
are unchanged, a block allocated by this call has been deallocated (its cell is freed and the
number of outstanding blocks is the same), and no other heap cell has changed. -/
theorem Deque.emplace_back_throw_restores (h : Heap α) (d : Deque) (hw : d.WF h) :
    ∃ h1, Deque.emplace_back h d none = Res.thrown (h1, d) ∧
      h1.outstanding = h.outstanding ∧
      (∀ q, q < h.cells.length → h1.cells[q]? = h.cells[q]?) ∧
      (d.back_index_ % kBlockSize = 0 → h1.cells = h.cells ++ [none]) ∧
      (d.back_index_ % kBlockSize ≠ 0 → h1 = h) ∧
      d.toList h1 = d.toList h := by
  have key := Deque.ensure_back_capacity_spec hw
  obtain ⟨hw1, -, -, hbk, hlt, -, -⟩ := key
  obtain ⟨p, y, hloc, -⟩ := hw1.cell_isSome hlt
  rw [← hbk] at hloc
  by_cases hmod : d.back_index_ % kBlockSize = 0
  · have hens : Deque.ensure_back_capacity h d =
        (⟨h.cells ++ [some (List.replicate kBlockSize none)]⟩,
          { d with array_ := d.array_ ++ [h.cells.length] }) := by
      simp [Deque.ensure_back_capacity, hmod, Deque.allocate_block, Heap.allocate]
    rw [hens] at hloc
    have hset : (h.cells ++ [some (List.replicate kBlockSize (none : Option α))]).set
        h.cells.length none = h.cells ++ [none] := by
      rw [List.set_append_right _ _ (Nat.le_refl _), Nat.sub_self]
      rfl
    have hagree : ∀ q, q < h.cells.length → (h.cells ++ [none])[q]? = h.cells[q]? :=
      fun q hq => List.getElem?_append_left hq
    refine ⟨⟨h.cells ++ [none]⟩, ?_, ?_, hagree, fun _ => rfl, fun hc => absurd hmod hc, ?_⟩
    · unfold Deque.emplace_back
      rw [hens]
      simp only [hloc]
      simp [Deque.handle_failed_construction, hmod, Heap.deallocate, hset]
    · rw [← hset]
      exact Heap.outstanding_rollback h _
    · unfold Deque.toList
      apply List.map_congr_left
      intro i _
      exact Deque.subscript_congr (fun q hq => hagree q (hw.lt_length q hq)) i
  · have hens : Deque.ensure_back_capacity h d = (h, d) := by
      simp [Deque.ensure_back_capacity, hmod]
    rw [hens] at hloc
    refine ⟨h, ?_, rfl, fun _ _ => rfl, fun hc => absurd hc hmod, fun _ => rfl, rfl⟩
    unfold Deque.emplace_back
    rw [hens]
    simp only [hloc]
    simp [Deque.handle_failed_construction, hmod]

theorem Deque.emplace_back_throw_restores_witness :
    Deque.default.WF (⟨[]⟩ : Heap Nat) ∧
    ∃ h1, Deque.emplace_back (⟨[]⟩ : Heap Nat) Deque.default none
        = Res.thrown (h1, Deque.default) ∧
      h1.outstanding = 0 ∧ h1.cells = [none] := by
  refine ⟨by decide, ?_⟩
  obtain ⟨h1, hres, hout, -, hnew, -, -⟩ := Deque.emplace_back_throw_restores
    (⟨[]⟩ : Heap Nat) Deque.default (by decide)
  exact ⟨h1, hres, hout, hnew (by decide)⟩

/-- The first loop of `clear()` succeeds on constructed elements and touches own blocks. -/
theorem Deque.destroy_loop_spec {d : Deque} :
    ∀ (n i : Nat) {h : Heap α}, d.WF h →
    (∀ m, i ≤ m → m < i + n → ∃ x : α, d.cell h (d.front_index_ + m) = some (some x)) →
    ∃ h1, Deque.destroy_loop d i n h = some h1 ∧ d.WF h1 ∧ h.Frame d.array_ h1 d.array_ := by
  intro n
  induction n with
  | zero =>
    intro i h hw _
    exact ⟨h, rfl, hw, Heap.Frame.frame_refl _ _⟩
  | succ n ih =>
    intro i h hw hc
    obtain ⟨x, hx⟩ := hc i (Nat.le_refl _) (by omega)
    obtain ⟨p, off, hloc, hslot⟩ := Deque.cell_eq_some hx
    have hw1 : d.WF (h.store p off none) := hw.wf_store _ _ _
    have hc1 : ∀ m, i + 1 ≤ m → m < i + 1 + n →
        ∃ x : α, d.cell (h.store p off none) (d.front_index_ + m) = some (some x) := by
      intro m h1 h2
      obtain ⟨z, hz⟩ := hc m (by omega) (by omega)
      refine ⟨z, ?_⟩
      rw [Deque.cell_store_ne hw.nodup hloc (by omega)]
      exact hz
    obtain ⟨h2, hloop, hw2, hf2⟩ := ih (i + 1) hw1 hc1
    refine ⟨h2, ?_, hw2, (Heap.Frame.frame_store h (Deque.locate_mem hloc) _ _).frame_trans hf2⟩
    simp only [Deque.destroy_loop, hloc, Heap.destroy, hslot]
    exact hloop

/-- The second loop of `clear()` frees distinct live blocks and nothing else. -/
theorem Deque.dealloc_loop_spec : ∀ (ps : List Nat) {h : Heap α}, ps.Nodup →
    (∀ p ∈ ps, ∃ n, h.blockLen p = some n) →
    ∃ h1, Deque.dealloc_loop ps h = some h1 ∧ h1.cells.length = h.cells.length ∧
      (∀ q, q ∉ ps → h1.cells[q]? = h.cells[q]?) ∧
      (∀ q ∈ ps, h1.cells[q]? = some none) := by
  intro ps
  induction ps with
  | nil =>
    intro h _ _
    exact ⟨h, rfl, rfl, fun _ _ => rfl, fun q hq => by cases hq⟩
  | cons p ps ih =>
    intro h hn hl
    obtain ⟨hp, hn1⟩ := List.nodup_cons.1 hn
    obtain ⟨n, hbl⟩ := hl p (List.mem_cons_self _ _)
    obtain ⟨b, hb, -⟩ := Heap.blockLen_eq_some.1 hbl
    have hplt : p < h.cells.length := (List.getElem?_eq_some_iff.1 hb).1
    have hd : h.deallocate p = some ⟨h.cells.set p none⟩ := by
      simp [Heap.deallocate, hb]
    have hl1 : ∀ q ∈ ps, ∃ n, (⟨h.cells.set p none⟩ : Heap α).blockLen q = some n := by
      intro q hq
      obtain ⟨m, hm⟩ := hl q (List.mem_cons_of_mem _ hq)
      refine ⟨m, ?_⟩
      have hqp : p ≠ q := fun hc => hp (hc ▸ hq)
      rw [← hm]
      simp [Heap.blockLen, List.getElem?_set_ne hqp]
    obtain ⟨h1, hloop, hlen, hkeep, hfree⟩ := ih hn1 hl1
    refine ⟨h1, ?_, ?_, ?_, ?_⟩
    · simp only [Deque.dealloc_loop, hd]
      exact hloop
    · rw [hlen, List.length_set]
    · intro q hq
      rw [List.mem_cons, not_or] at hq
      rw [hkeep q hq.2]
      exact List.getElem?_set_ne (Ne.symm hq.1)
    · intro q hq
      rw [List.mem_cons] at hq
      by_cases hqps : q ∈ ps
      · exact hfree q hqps
      · have hqp : q = p := by
          rcases hq with hq | hq
          · exact hq
          · exact absurd hq hqps
        subst hqp
        rw [hkeep q hqps]
        simp [List.getElem?_set_self, hplt]

/-- Effect of `clear()` on a deque that represents a list: every block of the table is freed,
no other cell changes. -/
theorem Deque.clear_spec {h : Heap α} {d : Deque} {L : List α} (hm : d.Models h L) :
    ∃ h1, Deque.clear h d = some (h1, Deque.default) ∧ h.Frame d.array_ h1 [] ∧
      (∀ q ∈ d.array_, h1.cells[q]? = some none) := by
  have hc : ∀ m, 0 ≤ m → m < 0 + d.size_ →
      ∃ x : α, d.cell h (d.front_index_ + m) = some (some x) := by
    intro m _ h2
    exact ⟨_, hm.cell (show m < L.length by rw [← hm.2.1]; omega)⟩
  obtain ⟨h1, hloop, hw1, hf1⟩ := Deque.destroy_loop_spec d.size_ 0 hm.1 hc
  obtain ⟨h2, hde, hlen, hkeep, hfree⟩ := Deque.dealloc_loop_spec d.array_ hw1.nodup
    (fun p hp => ⟨_, hw1.live p hp⟩)
  refine ⟨h2, ?_, ?_, hfree⟩
  · simp [Deque.clear, hloop, hde, Deque.default]
  · refine ⟨by rw [hlen]; exact hf1.grow, ?_, fun q hq => by cases hq⟩
    intro q hq hn
    rw [hkeep q hn]
    exact hf1.keep q hq hn

/-- A deque living in the same heap, with a disjoint block table, is not affected by a call
whose footprint is `ps`. -/
theorem Deque.Models.frame {h h1 : Heap α} {a : Deque} {L : List α} {ps ps1 : List Nat}
    (hm : a.Models h L) (f : h.Frame ps h1 ps1) (hdis : ∀ q ∈ a.array_, q ∉ ps) :
    a.Models h1 L ∧ (∀ q ∈ a.array_, q ∉ ps1) ∧ (∀ i, a.subscript h1 i = a.subscript h i) :=
  ⟨hm.models_congr (f.agreeOn hm.1.lt_length hdis), f.disjoint hm.1.lt_length hdis,
    fun i => Deque.subscript_congr (f.agreeOn hm.1.lt_length hdis) i⟩

/-- The loop of the copy constructor appends the remaining elements of `other`. -/
theorem Deque.copy_loop_spec {copy : α → Option α} (hcopy : ∀ x, copy x = some x)
    {other : Deque} {Lo : List α} :
    ∀ (n ind : Nat) {h : Heap α} {d : Deque} {Ld : List α}, ind + n = Lo.length →
    other.Models h Lo → d.Models h Ld → (∀ q ∈ other.array_, q ∉ d.array_) →
    ∃ h1 d1, Deque.copy_loop copy other ind n h d = Res.ok (h1, d1) ∧
      d1.Models h1 (Ld ++ Lo.drop ind) ∧ other.Models h1 Lo ∧
      (∀ q ∈ other.array_, q ∉ d1.array_) ∧ h.Frame d.array_ h1 d1.array_ := by
  intro n
  induction n with
  | zero =>
    intro ind h d Ld hind hmo hmd hdis
    refine ⟨h, d, rfl, ?_, hmo, hdis, Heap.Frame.frame_refl _ _⟩
    rw [List.drop_eq_nil_of_le (by omega), List.append_nil]
    exact hmd
  | succ n ih =>
    intro ind h d Ld hind hmo hmd hdis
    have hlt : ind < Lo.length := by omega
    have hread : other.subscript h ind = some Lo[ind] := by
      rw [hmo.2.2 ind (by rw [hmo.2.1]; exact hlt), List.getElem?_eq_getElem hlt]
    obtain ⟨h1, d1, hpush, hm1, hf1⟩ := Deque.emplace_back_spec hmd Lo[ind]
    obtain ⟨hmo1, hdis1, -⟩ := hmo.frame hf1 hdis
    obtain ⟨h2, d2, hloop, hm2, hmo2, hdis2, hf2⟩ := ih (ind + 1) (by omega) hmo1 hm1 hdis1
    refine ⟨h2, d2, ?_, ?_, hmo2, hdis2, hf1.frame_trans hf2⟩
    · simp only [Deque.copy_loop, hread, hcopy, Deque.push_back, hpush]
      exact hloop
    · rw [List.drop_eq_getElem_cons hlt]
      rw [List.append_assoc, List.singleton_append] at hm2
      exact hm2

/-- The copy constructor builds a deque with the same elements in fresh blocks. -/
theorem Deque.copy_ctor_spec {copy : α → Option α} (hcopy : ∀ x, copy x = some x)
    {h : Heap α} {other : Deque} {Lo : List α} (hmo : other.Models h Lo) :
    ∃ h1 d1, Deque.copy_ctor copy h other = Res.ok (h1, d1) ∧
      d1.Models h1 Lo ∧ other.Models h1 Lo ∧
      (∀ q ∈ other.array_, q ∉ d1.array_) ∧ h.Frame [] h1 d1.array_ := by
  obtain ⟨h1, d1, hloop, hm1, hmo1, hdis1, hf1⟩ := Deque.copy_loop_spec hcopy Lo.length 0
    (Nat.zero_add _) hmo (Deque.default_models h) (fun q _ hq => by cases hq)
  rw [List.drop_zero, List.nil_append] at hm1
  refine ⟨h1, d1, ?_, hm1, hmo1, hdis1, hf1⟩
  unfold Deque.copy_ctor Deque.size
  rw [hmo.2.1, hloop]

/-- C6: for a deque `a` with element sequence `L` (any `front_index_`, any block layout) and
an element copy constructor that does not throw, the copy constructor returns a deque `b` with
`b.size() = a.size()` and `b[i] = a[i]` for every `i < a.size()`; and after any sequence of
`push_back`, `push_front`, `pop_back`, `pop_front` on `b` (no pop on an empty deque) every
`a[i]` is what it was and `a` still represents `L`. -/
theorem Deque.copy_independent (copy : α → Option α) (h : Heap α) (a : Deque) (L : List α)
    (hcopy : ∀ x, copy x = some x) (hm : a.Models h L) :
    ∃ h1 b, Deque.copy_ctor copy h a = Res.ok (h1, b) ∧
      b.size = a.size ∧
      (∀ i, i < a.size → b.subscript h1 i = a.subscript h i) ∧
      b.toList h1 = L.map some ∧
      ∀ ops : List (Op α), popsOk b.size ops = true →
        ∃ h2 b2, Deque.run h1 b ops = Res.ok (h2, b2) ∧
          a.Models h2 L ∧
          a.toList h2 = a.toList h ∧
          ∀ i, i < a.size → a.subscript h2 i = a.subscript h i := by
  obtain ⟨h1, b, hctor, hmb, hma1, hdis, hf⟩ := Deque.copy_ctor_spec hcopy hm
  have hsub1 : ∀ i, a.subscript h1 i = a.subscript h i :=
    (hm.frame hf (fun q _ hq => by cases hq)).2.2
  refine ⟨h1, b, hctor, ?_, ?_, hmb.toList_eq, ?_⟩
  · show b.size_ = a.size_
    rw [hmb.2.1, hm.2.1]
  · intro i hi
    rw [hmb.2.2 i (by rw [hmb.2.1, ← hm.2.1]; exact hi), hm.2.2 i hi]
  · intro ops hok
    have hok1 : popsOk L.length ops = true := by
      have : b.size = L.length := hmb.2.1
      rw [← this]
      exact hok
    obtain ⟨h2, b2, hrun, -, hf2⟩ := Deque.run_spec ops hmb hok1
    obtain ⟨hma2, -, hsub2⟩ := hma1.frame hf2 hdis
    refine ⟨h2, b2, hrun, hma2, ?_, fun i _ => (hsub2 i).trans (hsub1 i)⟩
    rw [hma2.toList_eq, hm.toList_eq]

theorem Deque.copy_independent_witness :
    sampleA.Models sampleHeap [5, 6] ∧
    ∃ h1 b, Deque.copy_ctor some sampleHeap sampleA = Res.ok (h1, b) ∧
      b.size = 2 ∧ b.toList h1 = [some 5, some 6] ∧
      ∃ h2 b2, Deque.run h1 b [Op.pop_front, Op.push_back 8, Op.push_front 3] = Res.ok (h2, b2) ∧
        sampleA.toList h2 = [some 5, some 6] := by
  refine ⟨by decide, ?_⟩
  obtain ⟨h1, b, hctor, hsz, -, hl, hops⟩ := Deque.copy_independent some sampleHeap sampleA
    [5, 6] (fun _ => rfl) (by decide)
  obtain ⟨h2, b2, hrun, -, hl2, -⟩ := hops [Op.pop_front, Op.push_back 8, Op.push_front 3]
    (by rw [hsz]; decide)
  exact ⟨h1, b, hctor, hsz, hl, h2, b2, hrun, hl2.trans (by decide)⟩

/-- C7: after move construction `b = std::move(a)` from a deque `a` with element sequence
`L`, the source has `size() = 0`, `front_index_ = back_index_ = 0` and an empty block table,
and `b` has `size() = |L|` and `b[i] = L[i]` for every `i < |L|`. -/
theorem Deque.move_ctor_steals (h : Heap α) (a : Deque) (L : List α) (hm : a.Models h L) :
    (Deque.move_ctor a).2.size = 0 ∧
    (Deque.move_ctor a).2.front_index_ = 0 ∧
    (Deque.move_ctor a).2.back_index_ = 0 ∧
    (Deque.move_ctor a).2.array_ = [] ∧
    (Deque.move_ctor a).1.size = L.length ∧
    (∀ i (hi : i < L.length), (Deque.move_ctor a).1.subscript h i = some L[i]) ∧
    (Deque.move_ctor a).1.toList h = L.map some := by
  have hb : (Deque.move_ctor a).1 = a := rfl
  refine ⟨rfl, rfl, rfl, rfl, ?_, ?_, ?_⟩
  · rw [hb]
    exact hm.2.1
  · intro i hi
    rw [hb, hm.2.2 i (by rw [hm.2.1]; exact hi), List.getElem?_eq_getElem hi]
  · rw [hb]
    exact hm.toList_eq

theorem Deque.move_ctor_steals_witness :
    sampleA.Models sampleHeap [5, 6] ∧
    (Deque.move_ctor sampleA).2.size = 0 ∧
    (Deque.move_ctor sampleA).2.array_ = [] ∧
    (Deque.move_ctor sampleA).1.size = 2 ∧
    (Deque.move_ctor sampleA).1.toList sampleHeap = [some 5, some 6] :=
  have key := Deque.move_ctor_steals sampleHeap sampleA [5, 6] (by decide)
  ⟨by decide, key.1, key.2.2.2.1, key.2.2.2.2.1, key.2.2.2.2.2.2⟩

/-- The move assignment does not return when the two objects are distinct: each call
makes a further call on a fresh local object. -/
theorem World.move_assign_none : ∀ (fuel : Nat) (w : World α) (this other : Nat),
    this < w.objs.length → other < w.objs.length → this ≠ other →
    World.move_assign fuel w this other = none := by
  intro fuel
  induction fuel with
  | zero =>
    intro w this other _ _ _
    rfl
  | succ fuel ih =>
    intro w this other ht ho hne
    have hget : w.objs[other]? = some w.objs[other] := List.getElem?_eq_getElem ho
    have hrec := ih ⟨w.heap, (w.objs.set other (Deque.move_ctor w.objs[other]).2) ++
      [(Deque.move_ctor w.objs[other]).1]⟩ this w.objs.length
      (by simp; omega) (by simp) (by omega)
    simp only [World.move_assign, if_pos hne, hget, hrec]

/-- C8 (the code diverges from the claim): the move assignment `a = std::move(b)` on the two
distinct sample objects, `a` at address `0` and `b` at address `1`, does not return, whatever
the allowed depth of calls: the statement `*this = std::move(copy)` calls the same operator
on a fresh local object, which is never `*this`. -/
theorem World.move_assign_never_returns :
    ∀ fuel : Nat, World.move_assign fuel sampleWorld 0 1 = none :=
  fun fuel => World.move_assign_none fuel sampleWorld 0 1 (by decide) (by decide) (by decide)

/-- The destructor of a deque that represents a list frees its blocks only. -/
theorem Deque.destructor_spec {h : Heap α} {d : Deque} {L : List α} (hm : d.Models h L) :
    ∃ h1, Deque.destructor h d = some h1 ∧ h.Frame d.array_ h1 [] := by
  obtain ⟨h1, hc, hf, -⟩ := Deque.clear_spec hm
  exact ⟨h1, by simp [Deque.destructor, hc], hf⟩

/-- C9: for two deque objects `a` (at address `ia`) and `b` (at address `ib`) of one program
state, with element sequences `La` and `Lb` and, when distinct, disjoint blocks, and an element
copy constructor that does not throw: the copy assignment `a = b` returns normally, afterwards
`a.size() = b.size()` and `a[i] = b[i]` for every `i < b.size()`, the object `b` and its
elements are unchanged, and the self-assignment `a = a` leaves the whole state unchanged. -/
theorem World.copy_assign_copies (copy : α → Option α) (w : World α) (ia ib : Nat)
    (da db : Deque) (La Lb : List α) (hcopy : ∀ x, copy x = some x)
    (hia : w.objs[ia]? = some da) (hib : w.objs[ib]? = some db)
    (hma : da.Models w.heap La) (hmb : db.Models w.heap Lb)
    (hdis : ia ≠ ib → ∀ q ∈ db.array_, q ∉ da.array_) :
    (ia ≠ ib → ∃ w1 da1, World.copy_assign copy w ia ib = Res.ok w1 ∧
      w1.objs[ia]? = some da1 ∧ w1.objs[ib]? = some db ∧
      da1.size = db.size ∧
      (∀ i, i < db.size → da1.subscript w1.heap i = db.subscript w1.heap i) ∧
      (∀ i, i < db.size → db.subscript w1.heap i = db.subscript w.heap i) ∧
      da1.toList w1.heap = Lb.map some ∧ db.toList w1.heap = Lb.map some) ∧
    World.copy_assign copy w ia ia = Res.ok w := by
  refine ⟨?_, by simp [World.copy_assign]⟩
  intro hne
  obtain ⟨h1, c, hctor, hmc, hmb1, hdbc, hf1⟩ := Deque.copy_ctor_spec hcopy hmb
  obtain ⟨hma1, -, -⟩ := hma.frame hf1 (fun q _ hq => by cases hq)
  obtain ⟨h2, hdes, hf2⟩ := Deque.destructor_spec hma1
  have hcda : ∀ q ∈ c.array_, q ∉ da.array_ := by
    intro q hq hqa
    rcases hf1.own q hq with hc | hc
    · cases hc
    · have := hma.1.lt_length q hqa
      omega
  obtain ⟨hmc2, -, -⟩ := hmc.frame hf2 hcda
  obtain ⟨hmb2, -, hsub2⟩ := hmb1.frame hf2 (hdis hne)
  have hsub1 : ∀ i, db.subscript h1 i = db.subscript w.heap i :=
    (hmb.frame hf1 (fun q _ hq => by cases hq)).2.2
  have hialt : ia < w.objs.length := (List.getElem?_eq_some_iff.1 hia).1
  refine ⟨⟨h2, w.objs.set ia c⟩, c, ?_, ?_, ?_, ?_, ?_, ?_, hmc2.toList_eq, hmb2.toList_eq⟩
  · unfold World.copy_assign
    rw [if_neg hne]
    simp only [hia, hib, hctor, Deque.swap]
    change (match Deque.destructor h1 da with
      | some h1 => Res.ok (⟨h1, w.objs.set ia c⟩ : World α)
      | none => Res.ub) = _
    rw [hdes]
  · simp [List.getElem?_set_self, hialt]
  · show (w.objs.set ia c)[ib]? = some db
    rw [List.getElem?_set_ne hne]
    exact hib
  · show c.size_ = db.size_
    rw [hmc2.2.1, hmb.2.1]
  · intro i hi
    have hi1 : i < db.size_ := hi
    rw [hmc2.2.2 i (by rw [hmc2.2.1, ← hmb.2.1]; exact hi1), hmb2.2.2 i hi1]
  · intro i _
    exact (hsub2 i).trans (hsub1 i)

theorem World.copy_assign_copies_witness :
    sampleA.Models sampleHeap [5, 6] ∧ sampleB.Models sampleHeap [7] ∧
    (∃ w1 da1, World.copy_assign some sampleWorld 0 1 = Res.ok w1 ∧
      w1.objs[0]? = some da1 ∧ w1.objs[1]? = some sampleB ∧ da1.size = 1 ∧
      da1.toList w1.heap = [some 7] ∧ sampleB.toList w1.heap = [some 7]) ∧
    World.copy_assign some sampleWorld 0 0 = Res.ok sampleWorld := by
  have key := World.copy_assign_copies some sampleWorld 0 1 sampleA sampleB [5, 6] [7]
    (fun _ => rfl) rfl rfl (by decide) (by decide) (by decide)
  obtain ⟨w1, da1, hres, h0, h1, hsz, -, -, hla, hlb⟩ := key.1 (by decide)
  exact ⟨by decide, by decide, ⟨w1, da1, hres, h0, h1, hsz, hla, hlb⟩, key.2⟩

theorem Heap.construct_length {h h1 : Heap α} {p off : Nat} {v : α}
    (hc : h.construct p off v = some h1) : h1.cells.length = h.cells.length := by
  unfold Heap.construct at hc
  split at hc
  · cases hc
    exact Heap.store_length _ _ _ _
  · cases hc

theorem Heap.destroy_length {h h1 : Heap α} {p off : Nat}
    (hc : h.destroy p off = some h1) : h1.cells.length = h.cells.length := by
  unfold Heap.destroy at hc
  split at hc
  · cases hc
    exact Heap.store_length _ _ _ _
  · cases hc

/-- Data members after a successful `emplace_back`. -/
theorem Deque.emplace_back_fields {h h1 : Heap α} {d d1 : Deque} {v : α}
    (he : Deque.emplace_back h d (some v) = Res.ok (h1, d1)) :
    d1.size_ = d.size_ + 1 ∧ d1.front_index_ = d.front_index_ ∧
    d1.back_index_ = d.back_index_ + 1 ∧
    d1.array_ = (if d.back_index_ % kBlockSize = 0 then d.array_ ++ [h.cells.length]
      else d.array_) ∧
    h1.cells.length = (if d.back_index_ % kBlockSize = 0 then h.cells.length + 1
      else h.cells.length) := by
  unfold Deque.emplace_back at he
  have hens : Deque.ensure_back_capacity h d =
      if d.back_index_ % kBlockSize = 0 then
        ((⟨h.cells ++ [some (List.replicate kBlockSize none)]⟩ : Heap α),
          { d with array_ := d.array_ ++ [h.cells.length] })
      else (h, d) := rfl
  generalize Deque.ensure_back_capacity h d = s at he hens
  simp only at he
  split at he
  · cases he
  · next p off hloc =>
    split at he
    · cases he
    · next hc2 hcon =>
      simp only [Res.ok.injEq, Prod.mk.injEq] at he
      obtain ⟨rfl, rfl⟩ := he
      have hlen := Heap.construct_length hcon
      subst hens
      by_cases hmod : d.back_index_ % kBlockSize = 0
      · simp only [if_pos hmod] at hlen ⊢
        simp [hlen]
      · simp only [if_neg hmod] at hlen ⊢
        simp [hlen]

/-- Data members after a successful `emplace_front`. -/
theorem Deque.emplace_front_fields {h h1 : Heap α} {d d1 : Deque} {v : α}
    (he : Deque.emplace_front h d (some v) = Res.ok (h1, d1)) :
    d1.size_ = d.size_ + 1 ∧
    d1.front_index_ = (if d.front_index_ = 0 then kBlockSize - 1 else d.front_index_ - 1) ∧
    d1.back_index_ = (if d.front_index_ = 0 then d.back_index_ + kBlockSize
      else d.back_index_) ∧
    d1.array_ = (if d.front_index_ = 0 then h.cells.length :: d.array_ else d.array_) ∧
    h1.cells.length = (if d.front_index_ = 0 then h.cells.length + 1 else h.cells.length) := by
  unfold Deque.emplace_front at he
  have hens : Deque.ensure_front_capacity h d =
      if d.front_index_ = 0 then
        ((⟨h.cells ++ [some (List.replicate kBlockSize none)]⟩ : Heap α),
          { d with array_ := h.cells.length :: d.array_, front_index_ := kBlockSize,
                   back_index_ := d.back_index_ + kBlockSize })
      else (h, d) := rfl
  generalize Deque.ensure_front_capacity h d = s at he hens
  simp only at he
  split at he
  · cases he
  · next p off hloc =>
    split at he
    · cases he
    · next hc2 hcon =>
      simp only [Res.ok.injEq, Prod.mk.injEq] at he
      obtain ⟨rfl, rfl⟩ := he
      have hlen := Heap.construct_length hcon
      subst hens
      by_cases h0 : d.front_index_ = 0
      · simp only [if_pos h0] at hlen ⊢
        simp [hlen, decSizeT_pos kBlockSize_pos]
      · simp only [if_neg h0] at hlen ⊢
        simp [hlen, decSizeT_pos (Nat.pos_of_ne_zero h0)]

/-- Data members after a successful `pop_back`. -/
theorem Deque.pop_back_fields {h h1 : Heap α} {d d1 : Deque}
    (he : Deque.pop_back h d = Res.ok (h1, d1)) :
    d1.size_ = decSizeT d.size_ ∧ d1.front_index_ = d.front_index_ ∧
    d1.back_index_ = decSizeT d.back_index_ ∧ d1.array_ = d.array_ ∧
    h1.cells.length = h.cells.length := by
  unfold Deque.pop_back at he
  split at he
  · cases he
  · split at he
    · cases he
    · next hdes =>
      simp only [Res.ok.injEq, Prod.mk.injEq] at he
      obtain ⟨rfl, rfl⟩ := he
      exact ⟨rfl, rfl, rfl, rfl, Heap.destroy_length hdes⟩

/-- Data members after a successful `pop_front`. -/
theorem Deque.pop_front_fields {h h1 : Heap α} {d d1 : Deque}
    (he : Deque.pop_front h d = Res.ok (h1, d1)) :
    d1.size_ = decSizeT d.size_ ∧ d1.front_index_ = d.front_index_ + 1 ∧
    d1.back_index_ = d.back_index_ ∧ d1.array_ = d.array_ ∧
    h1.cells.length = h.cells.length := by
  unfold Deque.pop_front at he
  split at he
  · cases he
  · split at he
    · cases he
    · next hdes =>
      simp only [Res.ok.injEq, Prod.mk.injEq] at he
      obtain ⟨rfl, rfl⟩ := he
      exact ⟨rfl, rfl, rfl, rfl, Heap.destroy_length hdes⟩

/-- C11 (the code diverges from the claim): `emplace_front` on the default-constructed deque
with a throwing element constructor. The exception leaves with the block prepended by
`ensure_front_capacity` still allocated and in the table, `front_index_ = back_index_ = 1000`:
nothing is rolled back, where the claim has `front_index_`, `back_index_` and the table length
unchanged. -/
theorem Deque.emplace_front_throw_keeps_block :
    Deque.emplace_front (⟨[]⟩ : Heap Nat) Deque.default none =
      Res.thrown (⟨[some (List.replicate kBlockSize none)]⟩,
        ⟨0, kBlockSize, kBlockSize, [0]⟩) ∧
    (⟨[some (List.replicate kBlockSize none)]⟩ : Heap Nat).outstanding = 1 ∧
    (⟨[]⟩ : Heap Nat).outstanding = 0 := by
  refine ⟨rfl, by decide, by decide⟩

/-- The index invariant is kept by a successful end operation. -/
theorem Deque.IndexInv.step_keeps {h h1 : Heap α} {d d1 : Deque} {op : Op α}
    (hinv : d.IndexInv) (hne : op.isPush = false → d.size_ ≠ 0)
    (hs : Deque.step h d op = Res.ok (h1, d1)) : d1.IndexInv := by
  obtain ⟨h1le, h2⟩ := hinv
  have hB := kBlockSize_pos
  unfold Deque.IndexInv
  cases op with
  | push_back v =>
    obtain ⟨f1, f2, f3, -, -⟩ := Deque.emplace_back_fields hs
    omega
  | push_front v =>
    obtain ⟨f1, f2, f3, -, -⟩ := Deque.emplace_front_fields hs
    by_cases h0 : d.front_index_ = 0
    · rw [if_pos h0] at f2 f3
      omega
    · rw [if_neg h0] at f2 f3
      omega
  | pop_back =>
    have hsz : 0 < d.size_ := Nat.pos_of_ne_zero (hne rfl)
    obtain ⟨f1, f2, f3, -, -⟩ := Deque.pop_back_fields hs
    rw [decSizeT_pos hsz] at f1
    rw [decSizeT_pos (show 0 < d.back_index_ by omega)] at f3
    omega
  | pop_front =>
    have hsz : 0 < d.size_ := Nat.pos_of_ne_zero (hne rfl)
    obtain ⟨f1, f2, f3, -, -⟩ := Deque.pop_front_fields hs
    rw [decSizeT_pos hsz] at f1
    omega

/-- C18: in every deque state reached from a default-constructed deque by `push_back`,
`push_front`, `pop_back`, `pop_front` with no pop on an empty deque,
`front_index_ <= back_index_` and `size_ = back_index_ - front_index_`; and each of the four
operations (a pop on a non-empty deque) preserves this. -/
theorem Deque.index_invariant :
    (∀ (h0 : Heap α) (ops : List (Op α)), popsOk 0 ops = true →
      ∃ h d, Deque.run h0 Deque.default ops = Res.ok (h, d) ∧
        d.front_index_ ≤ d.back_index_ ∧ d.size_ = d.back_index_ - d.front_index_) ∧
    (∀ (h h1 : Heap α) (d d1 : Deque) (op : Op α), d.IndexInv →
      (op.isPush = false → d.size_ ≠ 0) → Deque.step h d op = Res.ok (h1, d1) →
      d1.front_index_ ≤ d1.back_index_ ∧ d1.size_ = d1.back_index_ - d1.front_index_) := by
  constructor
  · intro h0 ops hok
    obtain ⟨h, d, hrun, hm, -⟩ := Deque.run_spec ops (Deque.default_models h0) hok
    have := hm.1.size_eq
    exact ⟨h, d, hrun, by omega, by omega⟩
  · intro h h1 d d1 op hinv hne hs
    exact hinv.step_keeps hne hs

/-- C19, counterexample: after `push_back(1); pop_back();` on a default-constructed deque
`back_index_ = 0`, so `⌈back_index_ / B⌉ = 0`, while the block table has one block (blocks are
not released by a pop). -/
theorem Deque.block_table_not_ceil :
    ∃ h d, Deque.run (⟨[]⟩ : Heap Nat) Deque.default [Op.push_back 1, Op.pop_back]
        = Res.ok (h, d) ∧
      d.back_index_ = 0 ∧ d.array_.length = 1 ∧
      d.array_.length ≠ ceilDiv d.back_index_ kBlockSize := by
  refine ⟨_, _, rfl, rfl, rfl, by decide⟩

theorem Deque.tight_iff (d : Deque) : d.Tight ↔
    d.back_index_ ≤ kBlockSize * d.array_.length ∧
    kBlockSize * d.array_.length < d.back_index_ + kBlockSize := by
  unfold Deque.Tight ceilDiv kBlockSize
  omega

/-- A run of pushes keeps the block table at exactly `⌈back_index_ / B⌉` entries. -/
theorem Deque.run_pushes_tight (ops : List (Op α)) : ∀ {h : Heap α} {d : Deque} {L : List α},
    d.Models h L → d.Tight → (∀ op ∈ ops, op.isPush = true) →
    ∃ h1 d1, Deque.run h d ops = Res.ok (h1, d1) ∧ d1.Models h1 (refRun L ops) ∧
      d1.Tight := by
  induction ops with
  | nil =>
    intro h d L hm ht _
    exact ⟨h, d, rfl, hm, ht⟩
  | cons op ops ih =>
    intro h d L hm ht hall
    have hop : op.isPush = true := hall op (List.mem_cons_self _ _)
    have hrest : ∀ o ∈ ops, o.isPush = true := fun o ho => hall o (List.mem_cons_of_mem _ ho)
    have hok : popsOk L.length [op] = true := by
      cases op <;> simp [popsOk, Op.isPush] at hop ⊢
    obtain ⟨h1, d1, hstep, hm1, -⟩ := Deque.step_spec hm op hok
    have ht1 : d1.Tight := by
      rw [Deque.tight_iff] at ht ⊢
      cases op with
      | push_back v =>
        obtain ⟨-, -, f3, f4, -⟩ := Deque.emplace_back_fields hstep
        rw [f3, f4]
        by_cases hmod : d.back_index_ % kBlockSize = 0
        · rw [if_pos hmod, List.length_append, List.length_singleton]
          unfold kBlockSize at *
          omega
        · rw [if_neg hmod]
          unfold kBlockSize at *
          omega
      | push_front v =>
        obtain ⟨-, -, f3, f4, -⟩ := Deque.emplace_front_fields hstep
        rw [f3, f4]
        by_cases h0 : d.front_index_ = 0
        · rw [if_pos h0, if_pos h0, List.length_cons]
          unfold kBlockSize at *
          omega
        · rw [if_neg h0, if_neg h0]
          exact ht
      | pop_back => simp [Op.isPush] at hop
      | pop_front => simp [Op.isPush] at hop
    obtain ⟨h2, d2, hrun, hm2, ht2⟩ := ih hm1 ht1 hrest
    refine ⟨h2, d2, ?_, hm2, ht2⟩
    simp only [Deque.run, hstep]
    exact hrun

theorem toPtrdiff_small {n : Nat} (hn : n < 2 ^ 63) : toPtrdiff n = (n : Int) := by
  unfold toPtrdiff
  rw [if_pos hn]

/-- C17: for a deque `d` at address `this` and `k < d.size()` (sizes being values of
`ptrdiff_t`): `*(d.begin() + k)` is `d[k]`, `(d.begin() + k) - d.begin() = k`,
`d.end() - d.begin() = d.size()`; two iterators compare equal exactly when their indices are
equal, whatever containers they are bound to; and `+`, `-`, `+=` keep the container binding
and compute the new index from the index alone. -/
theorem DequeIterator.index_arithmetic (w : World α) (this : Nat) (d : Deque) (k : Nat)
    (hobj : w.objs[this]? = some d) (hk : k < d.size) (hfit : d.size < 2 ^ 63) :
    ((Deque.begin_ this).add (k : Int)).deref w = d.subscript w.heap k ∧
    ((Deque.begin_ this).add (k : Int)).dist (Deque.begin_ this) = (k : Int) ∧
    (Deque.end_ this d).dist (Deque.begin_ this) = (d.size : Int) ∧
    (∀ it1 it2 : DequeIterator, it1.eq it2 = true ↔ it1.index_ = it2.index_) ∧
    (∀ (it : DequeIterator) (n : Int),
      (it.add n).deque_ptr_ = it.deque_ptr_ ∧
      (it.sub n).deque_ptr_ = it.deque_ptr_ ∧
      (it.add_assign n).deque_ptr_ = it.deque_ptr_ ∧
      (it.add n).index_ = toSizeT ((it.index_ : Int) + n) ∧
      (it.sub n).index_ = toSizeT ((it.index_ : Int) - n) ∧
      (it.add_assign n).index_ = toSizeT ((it.index_ : Int) + n)) := by
  have hk64 : k < 2 ^ 64 := by
    have : (2 : Nat) ^ 63 < 2 ^ 64 := by norm_num
    omega
  have hsz64 : d.size < 2 ^ 64 := by
    have : (2 : Nat) ^ 63 < 2 ^ 64 := by norm_num
    omega
  obtain ⟨hidx, -⟩ := DequeIterator.begin_add this hk64
  refine ⟨?_, ?_, ?_, ?_, ?_⟩
  · unfold DequeIterator.deref
    rw [hidx]
    have hptr : ((Deque.begin_ this).add (k : Int)).deque_ptr_ = this := rfl
    rw [hptr, hobj]
  · unfold DequeIterator.dist
    rw [hidx]
    simp only [Deque.begin_]
    rw [show (k : Int) - ((0 : Nat) : Int) = (k : Int) by omega, toSizeT_natCast hk64,
      toPtrdiff_small (by omega)]
  · unfold DequeIterator.dist
    simp only [Deque.begin_, Deque.end_]
    have hs : d.size_ = d.size := rfl
    rw [hs, show (d.size : Int) - ((0 : Nat) : Int) = (d.size : Int) by omega,
      toSizeT_natCast hsz64, toPtrdiff_small hfit]
  · intro it1 it2
    simp [DequeIterator.eq]
  · intro it n
    exact ⟨rfl, rfl, rfl, rfl, rfl, rfl⟩

theorem DequeIterator.index_arithmetic_witness :
    sampleWorld.objs[0]? = some sampleA ∧ 1 < sampleA.size ∧
    ((Deque.begin_ 0).add ((1 : Nat) : Int)).deref sampleWorld = some 6 ∧
    ((Deque.begin_ 0).add ((1 : Nat) : Int)).dist (Deque.begin_ 0) = 1 ∧
    (Deque.end_ 0 sampleA).dist (Deque.begin_ 0) = 2 :=
  have key := DequeIterator.index_arithmetic sampleWorld 0 sampleA 1 rfl (by decide)
    (by decide)
  ⟨rfl, by decide, key.1.trans (by decide), key.2.1, key.2.2.1⟩

/-- A throwing `emplace_back` leaves the deque record as it was; the heap differs at most by
one freed cell at its end. -/
theorem Deque.emplace_back_none_spec {h : Heap α} {d : Deque} (hw : d.WF h) :
    ∃ h1, Deque.emplace_back h d none = Res.thrown (h1, d) ∧
      (h1.cells = h.cells ++ [none] ∨ h1.cells = h.cells) := by
  obtain ⟨hw1, -, -, hbk, hlt, -, -⟩ := Deque.ensure_back_capacity_spec hw
  obtain ⟨p, y, hloc, -⟩ := hw1.cell_isSome hlt
  rw [← hbk] at hloc
  by_cases hmod : d.back_index_ % kBlockSize = 0
  · have hens : Deque.ensure_back_capacity h d =
        (⟨h.cells ++ [some (List.replicate kBlockSize none)]⟩,
          { d with array_ := d.array_ ++ [h.cells.length] }) := by
      simp [Deque.ensure_back_capacity, hmod, Deque.allocate_block, Heap.allocate]
    rw [hens] at hloc
    have hset : (h.cells ++ [some (List.replicate kBlockSize (none : Option α))]).set
        h.cells.length none = h.cells ++ [none] := by
      rw [List.set_append_right _ _ (Nat.le_refl _), Nat.sub_self]
      rfl
    refine ⟨⟨h.cells ++ [none]⟩, ?_, Or.inl rfl⟩
    unfold Deque.emplace_back
    rw [hens]
    simp only [hloc]
    simp [Deque.handle_failed_construction, hmod, Heap.deallocate, hset]
  · have hens : Deque.ensure_back_capacity h d = (h, d) := by
      simp [Deque.ensure_back_capacity, hmod]
    rw [hens] at hloc
    refine ⟨h, ?_, Or.inr rfl⟩
    unfold Deque.emplace_back
    rw [hens]
    simp only [hloc]
    simp [Deque.handle_failed_construction, hmod]

/-- The first loop of `clear()` leaves every visited slot raw and no other slot changed. -/
theorem Deque.destroy_loop_raw {d : Deque} :
    ∀ (n i : Nat) {h : Heap α}, d.WF h →
    (∀ m, i ≤ m → m < i + n → ∃ x : α, d.cell h (d.front_index_ + m) = some (some x)) →
    ∃ h1, Deque.destroy_loop d i n h = some h1 ∧ d.WF h1 ∧
      h.Frame d.array_ h1 d.array_ ∧ h1.cells.length = h.cells.length ∧
      (∀ m, i ≤ m → m < i + n → d.cell h1 (d.front_index_ + m) = some none) ∧
      (∀ j, (∀ m, i ≤ m → m < i + n → j ≠ d.front_index_ + m) → d.cell h1 j = d.cell h j) := by
  intro n
  induction n with
  | zero =>
    intro i h hw _
    exact ⟨h, rfl, hw, Heap.Frame.frame_refl _ _, rfl, fun m h1 h2 => by omega,
      fun _ _ => rfl⟩
  | succ n ih =>
    intro i h hw hc
    obtain ⟨x, hx⟩ := hc i (Nat.le_refl _) (by omega)
    obtain ⟨p, off, hloc, hslot⟩ := Deque.cell_eq_some hx
    have hw1 : d.WF (h.store p off none) := hw.wf_store _ _ _
    have hc1 : ∀ m, i + 1 ≤ m → m < i + 1 + n →
        ∃ x : α, d.cell (h.store p off none) (d.front_index_ + m) = some (some x) := by
      intro m h1 h2
      obtain ⟨z, hz⟩ := hc m (by omega) (by omega)
      refine ⟨z, ?_⟩
      rw [Deque.cell_store_ne hw.nodup hloc (by omega)]
      exact hz
    obtain ⟨h2, hloop, hw2, hf2, hlen2, hraw2, hkeep2⟩ := ih (i + 1) hw1 hc1
    refine ⟨h2, ?_, hw2, (Heap.Frame.frame_store h (Deque.locate_mem hloc) _ _).frame_trans hf2,
      ?_, ?_, ?_⟩
    · simp only [Deque.destroy_loop, hloc, Heap.destroy, hslot]
      exact hloop
    · rw [hlen2, Heap.store_length]
    · intro m h1 h2
      by_cases hmi : m = i
      · subst hmi
        rw [hkeep2 (d.front_index_ + m) (fun k hk1 _ => by omega)]
        exact Deque.cell_store_same hloc hslot none
      · exact hraw2 m (by omega) (by omega)
    · intro j hj
      rw [hkeep2 j (fun m hm1 hm2 => hj m (by omega) (by omega))]
      exact Deque.cell_store_ne hw.nodup hloc (hj i (Nat.le_refl _) (by omega)) none

theorem Heap.outstanding_append_freed (h h1 : Heap α) (m : Nat)
    (hc : h1.cells = h.cells ++ List.replicate m none) : h1.outstanding = h.outstanding := by
  have hnil : ∀ k : Nat, (List.replicate k (none : Option (List (Option α)))).filter
      Option.isSome = [] := by
    intro k
    induction k with
    | zero => rfl
    | succ k ih => simp [List.replicate_succ, ih]
  unfold Heap.outstanding
  rw [hc, List.filter_append, hnil, List.append_nil]

/-- The loop of the initializer-list constructor over elements whose copy succeeds: the
values are appended, and every block allocated since the heap had `n0` cells is in the
block table. -/
theorem Deque.init_loop_pushes (vals : List α) (n0 : Nat) :
    ∀ {h : Heap α} {d : Deque} {L : List α}, d.Models h L →
    (∀ q, n0 ≤ q → q < h.cells.length → q ∈ d.array_) → (∀ q ∈ d.array_, n0 ≤ q) →
    n0 ≤ h.cells.length →
    ∃ h1 d1, (∀ rest, Deque.init_loop (vals.map some ++ rest) h d = Deque.init_loop rest h1 d1) ∧
      d1.Models h1 (L ++ vals) ∧
      (∀ q, n0 ≤ q → q < h1.cells.length → q ∈ d1.array_) ∧ (∀ q ∈ d1.array_, n0 ≤ q) ∧
      n0 ≤ h1.cells.length ∧ (∀ q, q < n0 → h1.cells[q]? = h.cells[q]?) := by
  induction vals with
  | nil =>
    intro h d L hm hown hge hn0
    refine ⟨h, d, fun rest => rfl, ?_, hown, hge, hn0, fun _ _ => rfl⟩
    rw [List.append_nil]
    exact hm
  | cons v vals ih =>
    intro h d L hm hown hge hn0
    obtain ⟨h1, d1, hpush, hm1, hf1⟩ := Deque.emplace_back_spec hm v
    obtain ⟨-, -, -, farr, flen⟩ := Deque.emplace_back_fields hpush
    have hown1 : ∀ q, n0 ≤ q → q < h1.cells.length → q ∈ d1.array_ := by
      intro q hq1 hq2
      rw [farr]
      rw [flen] at hq2
      by_cases hmod : d.back_index_ % kBlockSize = 0
      · rw [if_pos hmod] at hq2 ⊢
        rw [List.mem_append, List.mem_singleton]
        by_cases hql : q < h.cells.length
        · exact Or.inl (hown q hq1 hql)
        · exact Or.inr (by omega)
      · rw [if_neg hmod] at hq2 ⊢
        exact hown q hq1 hq2
    have hge1 : ∀ q ∈ d1.array_, n0 ≤ q := by
      intro q hq
      rcases hf1.own q hq with hc | hc
      · exact hge q hc
      · omega
    have hn1 : n0 ≤ h1.cells.length := Nat.le_trans hn0 hf1.grow
    have hold1 : ∀ q, q < n0 → h1.cells[q]? = h.cells[q]? := by
      intro q hq
      apply hf1.keep q (by omega)
      intro hmem
      have := hge q hmem
      omega
    obtain ⟨h2, d2, hloop, hm2, hown2, hge2, hn2, hold2⟩ := ih hm1 hown1 hge1 hn1
    refine ⟨h2, d2, ?_, ?_, hown2, hge2, hn2, fun q hq => (hold2 q hq).trans (hold1 q hq)⟩
    · intro rest
      simp only [List.map_cons, List.cons_append, Deque.init_loop, Deque.push_back, hpush]
      exact hloop rest
    · rw [List.append_assoc, List.singleton_append] at hm2
      exact hm2

/-- Heap effect of the initializer-list constructor when the copy of the element after `vals`
throws: the loop leaves with the exception in a state holding `vals`, the destroy loop of
`clear()` succeeds on it, and the constructor leaves with the empty record, every cell
allocated by the call freed and the number of outstanding blocks unchanged. -/
theorem Deque.init_ctor_throw_cleans (h0 : Heap α) (vals : List α) (rest : List (Option α)) :
    ∃ hK dK hmid h1,
      Deque.init_loop (vals.map some ++ none :: rest) h0 Deque.default = Res.thrown (hK, dK) ∧
      dK.size_ = vals.length ∧ dK.toList hK = vals.map some ∧
      Deque.destroy_loop dK 0 dK.size_ hK = some hmid ∧
      (∀ i, i < vals.length → dK.cell hmid (dK.front_index_ + i) = some none) ∧
      Deque.init_ctor h0 (vals.map some ++ none :: rest) = Res.thrown (h1, ⟨0, 0, 0, []⟩) ∧
      h1.cells = h0.cells ++ List.replicate (h1.cells.length - h0.cells.length) none ∧
      h1.outstanding = h0.outstanding := by
  obtain ⟨h', d', hloop, hm', hown, hge, hn0, hold⟩ :=
    Deque.init_loop_pushes vals h0.cells.length (Deque.default_models h0)
      (fun q h1 h2 => by omega) (fun q hq => by cases hq) (Nat.le_refl _)
  rw [List.nil_append] at hm'
  obtain ⟨hK, hthrow, hKcells⟩ := Deque.emplace_back_none_spec hm'.1
  -- the throwing push leaves the deque and its blocks as they were
  have hagree : h'.AgreeOn hK d'.array_ := by
    intro q hq
    have hlt := hm'.1.lt_length q hq
    rcases hKcells with hc | hc
    · rw [hc, List.getElem?_append_left hlt]
    · rw [hc]
  have hmK : d'.Models hK vals := hm'.models_congr hagree
  have hKlen : h'.cells.length ≤ hK.cells.length := by
    rcases hKcells with hc | hc
    · rw [hc, List.length_append]
      omega
    · rw [hc]
  have hKold : ∀ q, q < h'.cells.length → hK.cells[q]? = h'.cells[q]? := by
    intro q hq
    rcases hKcells with hc | hc
    · rw [hc, List.getElem?_append_left hq]
    · rw [hc]
  have hKnew : ∀ q, h'.cells.length ≤ q → q < hK.cells.length → hK.cells[q]? = some none := by
    intro q hq1 hq2
    rcases hKcells with hc | hc
    · rw [hc, List.length_append, List.length_singleton] at hq2
      have : q = h'.cells.length := by omega
      subst this
      rw [hc, List.getElem?_append_right (Nat.le_refl _), Nat.sub_self]
      rfl
    · rw [hc] at hq2
      omega
  have hloopK : Deque.init_loop (vals.map some ++ none :: rest) h0 Deque.default
      = Res.thrown (hK, d') := by
    rw [hloop]
    simp only [Deque.init_loop, Deque.push_back, hthrow]
  -- clear(): destroy every element, then free every block
  have hc : ∀ m, 0 ≤ m → m < 0 + d'.size_ →
      ∃ x : α, d'.cell hK (d'.front_index_ + m) = some (some x) := by
    intro m _ h2
    exact ⟨_, hmK.cell (show m < vals.length by rw [← hmK.2.1]; omega)⟩
  obtain ⟨hmid, hdes, hwmid, hfmid, hlenmid, hraw, -⟩ :=
    Deque.destroy_loop_raw d'.size_ 0 hmK.1 hc
  obtain ⟨h1, hde, hlen1, hkeep1, hfree1⟩ := Deque.dealloc_loop_spec d'.array_ hwmid.nodup
    (fun p hp => ⟨_, hwmid.live p hp⟩)
  have hctor : Deque.init_ctor h0 (vals.map some ++ none :: rest)
      = Res.thrown (h1, ⟨0, 0, 0, []⟩) := by
    unfold Deque.init_ctor
    rw [hloopK]
    simp [Deque.clear, hdes, hde]
  have hlen : h1.cells.length = hK.cells.length := by rw [hlen1, hlenmid]
  have hcells : h1.cells = h0.cells ++
      List.replicate (h1.cells.length - h0.cells.length) none := by
    apply List.ext_getElem?
    intro q
    by_cases hq0 : q < h0.cells.length
    · have hnot : q ∉ d'.array_ := fun hmem => by
        have := hge q hmem
        omega
      rw [List.getElem?_append_left hq0, hkeep1 q hnot,
        hfmid.keep q (by omega) hnot, hKold q (by omega), hold q hq0]
    · rw [List.getElem?_append_right (by omega)]
      by_cases hq1 : q < h1.cells.length
      · rw [List.getElem?_replicate, if_pos (by omega)]
        by_cases hmem : q ∈ d'.array_
        · exact hfree1 q hmem
        · have hge' : h'.cells.length ≤ q := by
            by_contra hlt
            exact hmem (hown q (by omega) (by omega))
          rw [hkeep1 q hmem, hfmid.keep q (by omega) hmem]
          exact hKnew q hge' (by omega)
      · rw [List.getElem?_eq_none (by omega), List.getElem?_eq_none (by simp; omega)]
  refine ⟨hK, d', hmid, h1, hloopK, hmK.2.1, hmK.toList_eq, hdes, ?_, hctor, hcells,
    Heap.outstanding_append_freed h0 h1 _ hcells⟩
  intro i hi
  exact hraw i (Nat.zero_le _) (by rw [hmK.2.1]; omega)

/-- C13 (the code diverges from the claim): on the default-constructed list, which is empty,
`end()` is `++iterator(tail_, ...)` with `tail_ == nullptr`: the increment reads
`current_->next` through a null pointer, so `begin() == end()` has no defined value, where the
claim has it hold. -/
theorem ListState.end_of_default_undefined :
    (∀ nodes : List (Option (Node α)), (LinkedList.default_ctor nodes).end_ = none) ∧
    sampleListEmpty.empty = true ∧ sampleListEmpty.end_ = none ∧
    sampleListEmpty.begin_ = ⟨NodePtr.null, NodePtr.null, NodePtr.null, NodePtr.fake⟩ :=
  ⟨fun _ => rfl, rfl, rfl, rfl⟩

/-- C14 (the code diverges from the claim): `List(count, v)` with `count = 1` and with
`count = 0` is undefined. For `count = 1` the loop sets `head_` in iteration `0` and skips the
`else if (i == count - 1)` branch, so `tail_` is still `nullptr` when `tail_->next = fake_` is
executed (third conjunct: the state after the loop); for `count = 0` already `head_->prev`
goes through `nullptr`. -/
theorem LinkedList.count_value_ctor_one_undefined :
    (∀ v : α, LinkedList.count_value_ctor [] 1 (fun _ => true) (fun _ => some v) = Res.ub) ∧
    (∀ v : α, LinkedList.count_value_ctor [] 0 (fun _ => true) (fun _ => some v) = Res.ub) ∧
    ListState.count_value_loop 1 (fun _ => true) (fun _ => some (7 : Nat)) 1 0
        ⟨[], { LinkedList.initial with size_ := 1 }⟩ NodePtr.null
      = Res.ok ⟨[some ⟨NodePtr.null, NodePtr.null, some 7⟩],
          ⟨1, NodePtr.node 0, NodePtr.null, ⟨NodePtr.null, NodePtr.null⟩, NodePtr.null⟩⟩ :=
  ⟨fun _ => rfl, fun _ => rfl, rfl⟩

/-- C15 (the code diverges from the claim): `List(2, v)` where the copy of `v` throws for the
second node. The handler of the count+value constructor deallocates the second node only:
the exception leaves with the first node still allocated (one outstanding node) and `head_`
pointing to it, where the claim has every node built so far destroyed and deallocated and
`head_` null. -/
theorem LinkedList.count_value_ctor_throw_leaks :
    LinkedList.count_value_ctor [] 2 (fun _ => true)
        (fun i => if i = 1 then none else some (7 : Nat))
      = Res.thrown ⟨[some ⟨NodePtr.null, NodePtr.null, some 7⟩, none],
          ⟨2, NodePtr.node 0, NodePtr.null, ⟨NodePtr.null, NodePtr.null⟩, NodePtr.null⟩⟩ ∧
    (⟨[some ⟨NodePtr.null, NodePtr.null, some 7⟩, none],
        ⟨2, NodePtr.node 0, NodePtr.null, ⟨NodePtr.null, NodePtr.null⟩, NodePtr.null⟩⟩ :
      ListState Nat).outstanding = 1 := by
  refine ⟨by decide, by decide⟩

/-- C16 (the code diverges from the claim): each of the four push overloads increments `size_`
before it allocates, and no handler restores it. When the allocation throws, the exception
leaves with `size_` one more than before and all else unchanged (for every state); on the list
`[1]`, `size()` is `2` after a failed `push_back`, also when the assignment of the value
throws, where the claim has `size()` unchanged. -/
theorem ListState.push_failure_keeps_size_increment :
    (∀ (s : ListState α) (value : Option α),
      s.push_back_copy false value
        = Res.thrown { s with list := { s.list with size_ := s.list.size_ + 1 } } ∧
      s.push_back_move false value
        = Res.thrown { s with list := { s.list with size_ := s.list.size_ + 1 } } ∧
      s.push_front_copy false value
        = Res.thrown { s with list := { s.list with size_ := s.list.size_ + 1 } } ∧
      s.push_front_move false value
        = Res.thrown { s with list := { s.list with size_ := s.list.size_ + 1 } }) ∧
    sampleListOne.size = 1 ∧
    sampleListOne.push_back_copy false (some 2)
      = Res.thrown { sampleListOne with list := { sampleListOne.list with size_ := 2 } } ∧
    sampleListOne.push_back_copy true none
      = Res.thrown ⟨[some ⟨NodePtr.fake, NodePtr.fake, some 1⟩, none],
          { sampleListOne.list with size_ := 2 }⟩ := by
  refine ⟨fun s value => ⟨rfl, rfl, rfl, rfl⟩, rfl, by decide, by decide⟩

/-- C20 (the code diverges from the claim): on the default-constructed list the copying
overloads `push_back(const T&)` and `push_front(const T&)` write through the null `tail_`
(`head_`), where the moving overloads have a null guard and build the list `[1]`; and on the
list `[1]` both `pop_back` and `pop_front` write a link of the node they have just destroyed
and deallocated (`head_->prev = fake_`, `tail_->next = fake_`). -/
theorem ListState.mutators_touch_null_and_freed :
    sampleListEmpty.push_back_copy true (some 1) = Res.ub ∧
    sampleListEmpty.push_front_copy true (some 1) = Res.ub ∧
    sampleListEmpty.push_back_move true (some 1) = Res.ok sampleListOne ∧
    sampleListEmpty.push_front_move true (some 1) = Res.ok sampleListOne ∧
    sampleListOne.pop_back = Res.ub ∧
    sampleListOne.pop_front = Res.ub := by
  refine ⟨by decide, by decide, by decide, by decide, by decide, by decide⟩

/-- In a well-formed deque every slot below the capacity of the table lies in an existing
block. -/
theorem Deque.WF.inBlock {h : Heap α} {d : Deque} (hw : d.WF h) {j : Nat}
    (hj : j < kBlockSize * d.array_.length) : d.InBlock h j := by
  have hlt : j / kBlockSize < d.array_.length :=
    (Nat.div_lt_iff_lt_mul kBlockSize_pos).2 (by rw [Nat.mul_comm] at hj; exact hj)
  obtain ⟨p, hp, hloc⟩ := Deque.locate_of_lt hj
  exact ⟨hlt, Nat.mod_lt j kBlockSize_pos, p, (Deque.locate_eq_some.1 hloc).1, hw.live p hp⟩

/-- C21: in every deque state reached from a default-constructed deque by `push_back`,
`push_front`, `pop_back`, `pop_front` with no pop on an empty deque,
`back_index_ <= B * (length of the block table)`; for every `i < size()` the block index
`(front_index_ + i) / B` used by `operator[]` is below the table length, the offset is below
`B` and the table entry is a live block; the slot `back_index_` written by `emplace_back`
after `ensure_back_capacity` lies in an existing block; and after `ensure_front_capacity`
`front_index_` is positive, so `front_index_ - 1` does not wrap, and the slot
`front_index_ - 1` written by `emplace_front` lies in an existing block. -/
theorem Deque.access_in_bounds (h0 : Heap α) (ops : List (Op α))
    (hok : popsOk 0 ops = true) :
    ∃ h d, Deque.run h0 Deque.default ops = Res.ok (h, d) ∧
      d.back_index_ ≤ kBlockSize * d.array_.length ∧
      (∀ i, i < d.size → d.InBlock h (d.front_index_ + i)) ∧
      (Deque.ensure_back_capacity h d).2.InBlock (Deque.ensure_back_capacity h d).1
        (Deque.ensure_back_capacity h d).2.back_index_ ∧
      0 < (Deque.ensure_front_capacity h d).2.front_index_ ∧
      decSizeT (Deque.ensure_front_capacity h d).2.front_index_
        = (Deque.ensure_front_capacity h d).2.front_index_ - 1 ∧
      (Deque.ensure_front_capacity h d).2.InBlock (Deque.ensure_front_capacity h d).1
        (decSizeT (Deque.ensure_front_capacity h d).2.front_index_) := by
  obtain ⟨h, d, hrun, hm, -⟩ := Deque.run_spec ops (Deque.default_models h0) hok
  have hw := hm.1
  have hcap := hw.cap
  have hsz := hw.size_eq
  refine ⟨h, d, hrun, hcap, ?_, ?_, ?_⟩
  · intro i hi
    have hi1 : i < d.size_ := hi
    exact hw.inBlock (by omega)
  · obtain ⟨hw1, -, -, hbk, hlt, -, -⟩ := Deque.ensure_back_capacity_spec hw
    rw [hbk]
    exact hw1.inBlock hlt
  · obtain ⟨hw1, -, hpos, -, -⟩ := Deque.ensure_front_capacity_spec hw
    have hcap1 := hw1.cap
    have hsz1 := hw1.size_eq
    refine ⟨hpos, decSizeT_pos hpos, ?_⟩
    rw [decSizeT_pos hpos]
    exact hw1.inBlock (by omega)

theorem Deque.access_in_bounds_witness :
    popsOk 0 [Op.push_front 3, Op.push_back 4, Op.pop_front] = true ∧
    ∃ h d, Deque.run (⟨[]⟩ : Heap Nat) Deque.default
        [Op.push_front 3, Op.push_back 4, Op.pop_front] = Res.ok (h, d) ∧
      d.back_index_ ≤ kBlockSize * d.array_.length ∧
      (∀ i, i < d.size → d.InBlock h (d.front_index_ + i)) := by
  refine ⟨by decide, ?_⟩
  obtain ⟨h, d, hrun, hcap, hidx, -⟩ := Deque.access_in_bounds (⟨[]⟩ : Heap Nat)
    [Op.push_front 3, Op.push_back 4, Op.pop_front] (by decide)
  exact ⟨h, d, hrun, hcap, hidx⟩

/-- C22: on a list with `size() == 0`, `pop_back()` and `pop_front()` return normally in the
state they were called in: `size_`, `head_`, `tail_`, the links of the sentinel and every
node are what they were. -/
theorem ListState.pop_on_empty_is_noop (s : ListState α) (h0 : s.size = 0) :
    s.pop_back = Res.ok s ∧ s.pop_front = Res.ok s := by
  have hz : s.list.size_ = 0 := h0
  constructor
  · unfold ListState.pop_back
    rw [if_pos hz]
  · unfold ListState.pop_front
    rw [if_pos hz]

theorem ListState.pop_on_empty_is_noop_witness :
    sampleListEmpty.size = 0 ∧
    sampleListEmpty.pop_back = Res.ok sampleListEmpty ∧
    sampleListEmpty.pop_front = Res.ok sampleListEmpty :=
  ⟨rfl, ListState.pop_on_empty_is_noop sampleListEmpty rfl⟩

/-- C23: for an iterator `it1` bound to the deque `d1` (at any index) and an iterator `it2`
bound to the deque `d2` at index `j < min(d1.size(), d2.size())`, the assignment `it1 = it2`
keeps the container binding of `it1` and takes the index `j`; dereferencing `it1` afterwards
yields `d1[j]`, an element of `d1`, while `*it2` is `d2[j]`; so where `d1[j]` and `d2[j]`
differ the result is not `d2[j]`. -/
theorem DequeIterator.assign_keeps_binding (w : World α) (it1 it2 : DequeIterator)
    (d1 d2 : Deque) (L1 : List α) (j : Nat)
    (hd1 : w.objs[it1.deque_ptr_]? = some d1) (hd2 : w.objs[it2.deque_ptr_]? = some d2)
    (hm1 : d1.Models w.heap L1) (hidx : it2.index_ = j) (hj : j < min d1.size d2.size) :
    (it1.assign it2).deque_ptr_ = it1.deque_ptr_ ∧
    (it1.assign it2).index_ = j ∧
    (it1.assign it2).deref w = d1.subscript w.heap j ∧
    (∃ x, (it1.assign it2).deref w = some x ∧ L1[j]? = some x) ∧
    it2.deref w = d2.subscript w.heap j ∧
    (d1.subscript w.heap j ≠ d2.subscript w.heap j →
      (it1.assign it2).deref w ≠ d2.subscript w.heap j) := by
  have hder : (it1.assign it2).deref w = d1.subscript w.heap j := by
    unfold DequeIterator.deref DequeIterator.assign
    simp only [hd1, hidx]
  have hj1 : j < d1.size_ := by
    have : j < d1.size := Nat.lt_of_lt_of_le hj (Nat.min_le_left _ _)
    exact this
  refine ⟨rfl, hidx, hder, ?_, ?_, ?_⟩
  · have hlt : j < L1.length := by rw [← hm1.2.1]; exact hj1
    refine ⟨L1[j], ?_, List.getElem?_eq_getElem hlt⟩
    rw [hder, hm1.2.2 j hj1, List.getElem?_eq_getElem hlt]
  · unfold DequeIterator.deref
    simp only [hd2, hidx]
  · intro hne
    rw [hder]
    exact hne

theorem DequeIterator.assign_keeps_binding_witness :
    sampleA.Models sampleHeap [5, 6] ∧ 0 < min sampleA.size sampleB.size ∧
    ((⟨0, 1⟩ : DequeIterator).assign ⟨1, 0⟩).deref sampleWorld = some 5 ∧
    (⟨1, 0⟩ : DequeIterator).deref sampleWorld = some 7 :=
  have key := DequeIterator.assign_keeps_binding sampleWorld ⟨0, 1⟩ ⟨1, 0⟩ sampleA sampleB
    [5, 6] 0 rfl rfl (by decide) rfl (by decide)
  ⟨by decide, by decide, key.2.2.1.trans (by decide), key.2.2.2.2.1.trans (by decide)⟩

/-- A run in which no pop meets an empty deque and no `pop_back` empties a block keeps the
block table at exactly `⌈back_index_ / B⌉` entries. -/
theorem Deque.run_keeps_tight (ops : List (Op α)) : ∀ {h : Heap α} {d : Deque} {L : List α},
    d.Models h L → d.Tight → popsOk L.length ops = true → Deque.popBackKeeps h d ops = true →
    ∃ h1 d1, Deque.run h d ops = Res.ok (h1, d1) ∧ d1.Models h1 (refRun L ops) ∧
      d1.Tight := by
  induction ops with
  | nil =>
    intro h d L hm ht _ _
    exact ⟨h, d, rfl, hm, ht⟩
  | cons op ops ih =>
    intro h d L hm ht hok hkeep
    obtain ⟨hok1, hok2⟩ := popsOk_cons L.length op ops hok
    obtain ⟨h1, d1, hstep, hm1, -⟩ := Deque.step_spec hm op hok1
    simp only [Deque.popBackKeeps, hstep, Bool.and_eq_true] at hkeep
    obtain ⟨hk1, hk2⟩ := hkeep
    have ht1 : d1.Tight := by
      rw [Deque.tight_iff] at ht ⊢
      cases op with
      | push_back v =>
        obtain ⟨-, -, f3, f4, -⟩ := Deque.emplace_back_fields hstep
        rw [f3, f4]
        by_cases hmod : d.back_index_ % kBlockSize = 0
        · rw [if_pos hmod, List.length_append, List.length_singleton]
          unfold kBlockSize at *
          omega
        · rw [if_neg hmod]
          unfold kBlockSize at *
          omega
      | push_front v =>
        obtain ⟨-, -, f3, f4, -⟩ := Deque.emplace_front_fields hstep
        rw [f3, f4]
        by_cases h0 : d.front_index_ = 0
        · rw [if_pos h0, if_pos h0, List.length_cons]
          unfold kBlockSize at *
          omega
        · rw [if_neg h0, if_neg h0]
          exact ht
      | pop_back =>
        obtain ⟨-, -, f3, f4, -⟩ := Deque.pop_back_fields hstep
        have hne : d.back_index_ % kBlockSize ≠ 1 := by simpa using hk1
        have hpos : 0 < d.back_index_ := by
          have hL : 0 < L.length := by
            cases L with
            | nil => simp [popsOk] at hok1
            | cons a l => simp
          have h1 := hm.1.size_eq
          have h2 := hm.2.1
          omega
        rw [f3, f4, decSizeT_pos hpos]
        unfold kBlockSize at *
        omega
      | pop_front =>
        obtain ⟨-, -, f3, f4, -⟩ := Deque.pop_front_fields hstep
        rw [f3, f4]
        exact ht
    obtain ⟨h2, d2, hrun, hm2, ht2⟩ := ih hm1 ht1 (hok2 L rfl) hk2
    refine ⟨h2, d2, ?_, hm2, ht2⟩
    simp only [Deque.run, hstep]
    exact hrun

/-- A run without `pop_back` has no `pop_back` that empties a block. -/
theorem Deque.popBackKeeps_of_no_pop_back (ops : List (Op α)) :
    ∀ (h : Heap α) (d : Deque), (∀ op ∈ ops, op ≠ Op.pop_back) →
    Deque.popBackKeeps h d ops = true := by
  induction ops with
  | nil =>
    intro h d _
    rfl
  | cons op ops ih =>
    intro h d hall
    have hop : op ≠ Op.pop_back := hall op (List.mem_cons_self _ _)
    have hrest : ∀ o ∈ ops, o ≠ Op.pop_back := fun o ho => hall o (List.mem_cons_of_mem _ ho)
    have h2 : ∀ o : Op α, (match Deque.step h d o with
        | Res.ok s => Deque.popBackKeeps s.1 s.2 ops
        | _ => true) = true := by
      intro o
      cases hs : Deque.step h d o with
      | ok s => exact ih s.1 s.2 hrest
      | thrown s => rfl
      | ub => rfl
    cases op with
    | pop_back => exact absurd rfl hop
    | push_back v =>
      simp only [Deque.popBackKeeps, Bool.true_and]
      exact h2 _
    | push_front v =>
      simp only [Deque.popBackKeeps, Bool.true_and]
      exact h2 _
    | pop_front =>
      simp only [Deque.popBackKeeps, Bool.true_and]
      exact h2 _

/-- The block table has exactly `⌈back_index_ / B⌉` entries after every prefix of a run
exactly when no `pop_back` of the run empties a block. -/
theorem Deque.popBackKeeps_iff (ops : List (Op α)) : ∀ {h : Heap α} {d : Deque} {L : List α},
    d.Models h L → d.Tight → popsOk L.length ops = true →
    (Deque.popBackKeeps h d ops = true ↔
      ∀ n : Nat, ∃ h1 d1, Deque.run h d (ops.take n) = Res.ok (h1, d1) ∧ d1.Tight) := by
  induction ops with
  | nil =>
    intro h d L hm ht _
    refine ⟨fun _ n => ⟨h, d, ?_, ht⟩, fun _ => rfl⟩
    simp [Deque.run]
  | cons op ops ih =>
    intro h d L hm ht hok
    obtain ⟨hok1, hok2⟩ := popsOk_cons L.length op ops hok
    obtain ⟨h1, d1, hstep, hm1, -⟩ := Deque.step_spec hm op hok1
    constructor
    · intro hkeep
      simp only [Deque.popBackKeeps, hstep, Bool.and_eq_true] at hkeep
      obtain ⟨hk1, hk2⟩ := hkeep
      have ht1 : d1.Tight := by
        have hk : Deque.popBackKeeps h d [op] = true := by
          simp only [Deque.popBackKeeps, hstep, Bool.and_eq_true, and_true]
          exact hk1
        obtain ⟨h2, d2, hrun, -, ht2⟩ := Deque.run_keeps_tight [op] hm ht hok1 hk
        simp only [Deque.run, hstep, Res.ok.injEq, Prod.mk.injEq] at hrun
        rw [hrun.2]
        exact ht2
      intro n
      cases n with
      | zero => exact ⟨h, d, by simp [Deque.run], ht⟩
      | succ n =>
        obtain ⟨h2, d2, hrun, ht2⟩ := ((ih hm1 ht1 (hok2 L rfl)).1 hk2) n
        refine ⟨h2, d2, ?_, ht2⟩
        simp only [List.take_succ_cons, Deque.run, hstep]
        exact hrun
    · intro hall
      have ht1 : d1.Tight := by
        obtain ⟨h2, d2, hrun, ht2⟩ := hall 1
        simp only [List.take_succ_cons, List.take_zero, Deque.run, hstep, Res.ok.injEq,
          Prod.mk.injEq] at hrun
        rw [hrun.2]
        exact ht2
      have hrest : Deque.popBackKeeps h1 d1 ops = true := by
        refine (ih hm1 ht1 (hok2 L rfl)).2 (fun n => ?_)
        obtain ⟨h2, d2, hrun, ht2⟩ := hall (n + 1)
        refine ⟨h2, d2, ?_, ht2⟩
        simp only [List.take_succ_cons, Deque.run, hstep] at hrun
        exact hrun
      simp only [Deque.popBackKeeps, hstep, hrest, Bool.and_true]
      cases op with
      | push_back v => rfl
      | push_front v => rfl
      | pop_front => rfl
      | pop_back =>
        simp only [decide_eq_true_eq]
        intro hmod
        obtain ⟨-, -, f3, f4, -⟩ := Deque.pop_back_fields hstep
        have hpos : 0 < d.back_index_ := by
          unfold kBlockSize at hmod
          omega
        rw [Deque.tight_iff] at ht ht1
        rw [f3, f4, decSizeT_pos hpos] at ht1
        unfold kBlockSize at *
        omega

/-- C19, amended: in every deque state reached from a default-constructed deque by pushes
and pops at the two ends (no pop on an empty deque) the block table has at least
`⌈back_index_ / B⌉` blocks. It has exactly `⌈back_index_ / B⌉` blocks as long as no `pop_back` has emptied a
block, that is, has been applied with `back_index_ % B = 1`: the equality holds after every
prefix of a run exactly when the run has no such `pop_back`, and so after every run without
`pop_back` (`push_back`, `push_front` and `pop_front` in any order). A `pop_back` that empties
a block leaves the table one block longer than `⌈back_index_ / B⌉`. A prepend
(`front_index_ = 0`) adds exactly one block and shifts both indices by `B`. -/
theorem Deque.block_table_covers :
    (∀ (h0 : Heap α) (ops : List (Op α)), popsOk 0 ops = true →
      ∃ h d, Deque.run h0 Deque.default ops = Res.ok (h, d) ∧
        ceilDiv d.back_index_ kBlockSize ≤ d.array_.length) ∧
    (∀ (h0 : Heap α) (ops : List (Op α)), popsOk 0 ops = true →
      Deque.popBackKeeps h0 Deque.default ops = true →
      ∃ h d, Deque.run h0 Deque.default ops = Res.ok (h, d) ∧
        d.array_.length = ceilDiv d.back_index_ kBlockSize) ∧
    (∀ (h0 : Heap α) (ops : List (Op α)), popsOk 0 ops = true →
      (Deque.popBackKeeps h0 Deque.default ops = true ↔
        ∀ n : Nat, ∃ h d, Deque.run h0 Deque.default (ops.take n) = Res.ok (h, d) ∧
          d.array_.length = ceilDiv d.back_index_ kBlockSize)) ∧
    (∀ (h0 : Heap α) (ops : List (Op α)), popsOk 0 ops = true →
      (∀ op ∈ ops, op ≠ Op.pop_back) →
      ∃ h d, Deque.run h0 Deque.default ops = Res.ok (h, d) ∧
        d.array_.length = ceilDiv d.back_index_ kBlockSize) ∧
    (∀ (h h1 : Heap α) (d d1 : Deque),
      d.array_.length = ceilDiv d.back_index_ kBlockSize →
      d.back_index_ % kBlockSize = 1 → Deque.pop_back h d = Res.ok (h1, d1) →
      d1.array_.length = ceilDiv d1.back_index_ kBlockSize + 1) ∧
    (∀ (h : Heap α) (d : Deque), d.front_index_ = 0 →
      (Deque.ensure_front_capacity h d).2.array_.length = d.array_.length + 1 ∧
      (Deque.ensure_front_capacity h d).2.front_index_ = d.front_index_ + kBlockSize ∧
      (Deque.ensure_front_capacity h d).2.back_index_ = d.back_index_ + kBlockSize) := by
  refine ⟨?_, ?_, ?_, ?_, ?_, ?_⟩
  · intro h0 ops hok
    obtain ⟨h, d, hrun, hm, -⟩ := Deque.run_spec ops (Deque.default_models h0) hok
    refine ⟨h, d, hrun, ?_⟩
    have := hm.1.cap
    unfold ceilDiv kBlockSize at *
    omega
  · intro h0 ops hok hkeep
    obtain ⟨h, d, hrun, -, ht⟩ := Deque.run_keeps_tight ops (Deque.default_models h0)
      (show Deque.default.Tight from rfl) hok hkeep
    exact ⟨h, d, hrun, ht⟩
  · intro h0 ops hok
    exact Deque.popBackKeeps_iff ops (Deque.default_models h0)
      (show Deque.default.Tight from rfl) hok
  · intro h0 ops hok hall
    obtain ⟨h, d, hrun, -, ht⟩ := Deque.run_keeps_tight ops (Deque.default_models h0)
      (show Deque.default.Tight from rfl) hok
      (Deque.popBackKeeps_of_no_pop_back ops h0 Deque.default hall)
    exact ⟨h, d, hrun, ht⟩
  · intro h h1 d d1 ht hmod hpop
    obtain ⟨-, -, f3, f4, -⟩ := Deque.pop_back_fields hpop
    have hpos : 0 < d.back_index_ := by
      unfold kBlockSize at hmod
      omega
    rw [f3, f4, decSizeT_pos hpos, ht]
    unfold ceilDiv kBlockSize at *
    omega
  · intro h d h0
    simp [Deque.ensure_front_capacity, h0]

theorem Event.constructed_append (a b : List Event) :
    Event.constructed (a ++ b) = Event.constructed a ++ Event.constructed b := by
  simp [Event.constructed, List.filterMap_append]

theorem Event.destroyed_append (a b : List Event) :
    Event.destroyed (a ++ b) = Event.destroyed a ++ Event.destroyed b := by
  simp [Event.destroyed, List.filterMap_append]

theorem Event.allocated_append (a b : List Event) :
    Event.allocated (a ++ b) = Event.allocated a ++ Event.allocated b := by
  simp [Event.allocated, List.filterMap_append]

theorem Event.deallocated_append (a b : List Event) :
    Event.deallocated (a ++ b) = Event.deallocated a ++ Event.deallocated b := by
  simp [Event.deallocated, List.filterMap_append]

/-- Projections of a log that consists of `destroy` calls only. -/
theorem Event.of_destroys (slots : List (Nat × Nat)) :
    Event.destroyed (slots.map fun q => Event.destroy q.1 q.2) = slots ∧
    Event.constructed (slots.map fun q => Event.destroy q.1 q.2) = [] ∧
    Event.allocated (slots.map fun q => Event.destroy q.1 q.2) = [] ∧
    Event.deallocated (slots.map fun q => Event.destroy q.1 q.2) = [] := by
  induction slots with
  | nil => exact ⟨rfl, rfl, rfl, rfl⟩
  | cons q slots ih =>
    obtain ⟨i1, i2, i3, i4⟩ := ih
    refine ⟨?_, ?_, ?_, ?_⟩
    · unfold Event.destroyed at i1 ⊢
      simp only [List.map_cons, List.filterMap_cons, i1]
    · unfold Event.constructed at i2 ⊢
      rw [List.map_cons, List.filterMap_cons_none rfl, i2]
    · unfold Event.allocated at i3 ⊢
      rw [List.map_cons, List.filterMap_cons_none rfl, i3]
    · unfold Event.deallocated at i4 ⊢
      rw [List.map_cons, List.filterMap_cons_none rfl, i4]

/-- Projections of a log that consists of `deallocate` calls only. -/
theorem Event.of_deallocates (ps : List Nat) :
    Event.deallocated (ps.map Event.deallocate) = ps ∧
    Event.constructed (ps.map Event.deallocate) = [] ∧
    Event.allocated (ps.map Event.deallocate) = [] ∧
    Event.destroyed (ps.map Event.deallocate) = [] := by
  induction ps with
  | nil => exact ⟨rfl, rfl, rfl, rfl⟩
  | cons q ps ih =>
    obtain ⟨i1, i2, i3, i4⟩ := ih
    refine ⟨?_, ?_, ?_, ?_⟩
    · unfold Event.deallocated at i1 ⊢
      simp only [List.map_cons, List.filterMap_cons, i1]
    · unfold Event.constructed at i2 ⊢
      rw [List.map_cons, List.filterMap_cons_none rfl, i2]
    · unfold Event.allocated at i3 ⊢
      rw [List.map_cons, List.filterMap_cons_none rfl, i3]
    · unfold Event.destroyed at i4 ⊢
      rw [List.map_cons, List.filterMap_cons_none rfl, i4]

/-- The logged `ensure_back_capacity` is the plain one, with the allocation recorded. -/
theorem Deque.ensure_back_capacity_logged_eq (s : LHeap α) (d : Deque) :
    Deque.ensure_back_capacity_logged s d =
      (⟨(Deque.ensure_back_capacity s.heap d).1,
        s.log ++ (if d.back_index_ % kBlockSize = 0 then [Event.allocate s.heap.cells.length]
          else [])⟩,
       (Deque.ensure_back_capacity s.heap d).2) := by
  unfold Deque.ensure_back_capacity_logged Deque.ensure_back_capacity
  by_cases hmod : d.back_index_ % kBlockSize = 0
  · simp only [if_pos hmod]
    rfl
  · simp only [if_neg hmod, List.append_nil]

theorem Deque.ensure_back_capacity_back (h : Heap α) (d : Deque) :
    (Deque.ensure_back_capacity h d).2.back_index_ = d.back_index_ := by
  unfold Deque.ensure_back_capacity
  split <;> rfl

/-- A successful logged `emplace_back` is the plain one; the log gains the allocation, if
there is one, and the construction at the slot `back_index_`. -/
theorem Deque.emplace_back_logged_ok {s : LHeap α} {d d1 : Deque} {h1 : Heap α} {v : α}
    (he : Deque.emplace_back s.heap d (some v) = Res.ok (h1, d1)) :
    ∃ p off, d1.locate d.back_index_ = some (p, off) ∧
      Deque.emplace_back_logged s d (some v) = Res.ok
        (⟨h1, s.log ++ (if d.back_index_ % kBlockSize = 0
            then [Event.allocate s.heap.cells.length] else []) ++ [Event.construct p off]⟩,
          d1) := by
  unfold Deque.emplace_back at he
  unfold Deque.emplace_back_logged
  rw [Deque.ensure_back_capacity_logged_eq]
  have hbk := Deque.ensure_back_capacity_back s.heap d
  generalize Deque.ensure_back_capacity s.heap d = e at he hbk ⊢
  simp only at he ⊢
  split at he
  · cases he
  · next p off hloc =>
    split at he
    · cases he
    · next hc2 hcon =>
      simp only [Res.ok.injEq, Prod.mk.injEq] at he
      obtain ⟨rfl, rfl⟩ := he
      refine ⟨p, off, ?_, ?_⟩
      · rw [← hbk]
        exact hloc
      · simp only [hloc, LHeap.construct, hcon]

/-- A throwing logged `emplace_back` on a well-formed deque: the deque record is kept, the
heap is the one of the plain call, and the log gains the allocation and the deallocation of
the block of this call, if there is one. -/
theorem Deque.emplace_back_logged_none {s : LHeap α} {d : Deque} (hw : d.WF s.heap) :
    ∃ h1, Deque.emplace_back s.heap d none = Res.thrown (h1, d) ∧
      Deque.emplace_back_logged s d none = Res.thrown
        (⟨h1, s.log ++ (if d.back_index_ % kBlockSize = 0
            then [Event.allocate s.heap.cells.length, Event.deallocate s.heap.cells.length]
            else [])⟩, d) := by
  obtain ⟨hw1, -, -, hbk, hlt, -, -⟩ := Deque.ensure_back_capacity_spec hw
  obtain ⟨p, y, hloc, -⟩ := hw1.cell_isSome hlt
  rw [← hbk] at hloc
  by_cases hmod : d.back_index_ % kBlockSize = 0
  · have hens : Deque.ensure_back_capacity s.heap d =
        (⟨s.heap.cells ++ [some (List.replicate kBlockSize none)]⟩,
          { d with array_ := d.array_ ++ [s.heap.cells.length] }) := by
      simp [Deque.ensure_back_capacity, hmod, Deque.allocate_block, Heap.allocate]
    rw [hens] at hloc
    have hset : (s.heap.cells ++ [some (List.replicate kBlockSize (none : Option α))]).set
        s.heap.cells.length none = s.heap.cells ++ [none] := by
      rw [List.set_append_right _ _ (Nat.le_refl _), Nat.sub_self]
      rfl
    refine ⟨⟨s.heap.cells ++ [none]⟩, ?_, ?_⟩
    · unfold Deque.emplace_back
      rw [hens]
      simp only [hloc]
      simp [Deque.handle_failed_construction, hmod, Heap.deallocate, hset]
    · unfold Deque.emplace_back_logged
      rw [Deque.ensure_back_capacity_logged_eq, hens]
      simp only [hloc]
      simp [Deque.handle_failed_construction_logged, hmod, LHeap.deallocate, Heap.deallocate,
        hset]
  · have hens : Deque.ensure_back_capacity s.heap d = (s.heap, d) := by
      simp [Deque.ensure_back_capacity, hmod]
    rw [hens] at hloc
    refine ⟨s.heap, ?_, ?_⟩
    · unfold Deque.emplace_back
      rw [hens]
      simp only [hloc]
      simp [Deque.handle_failed_construction, hmod]
    · unfold Deque.emplace_back_logged
      rw [Deque.ensure_back_capacity_logged_eq, hens]
      simp only [hloc]
      simp [Deque.handle_failed_construction_logged, hmod]

/-- The logged destroy loop is the plain one; the log gains one `destroy` for each of the
slots `i, ..., i + n - 1` of the deque, in order. -/
theorem Deque.destroy_loop_logged_eq (d : Deque) :
    ∀ (n i : Nat) (s : LHeap α) (h1 : Heap α), Deque.destroy_loop d i n s.heap = some h1 →
    ∃ slots : List (Nat × Nat),
      Deque.destroy_loop_logged d i n s
        = some ⟨h1, s.log ++ slots.map fun q => Event.destroy q.1 q.2⟩ ∧
      slots.map some = (List.range n).map fun m => d.locate (d.front_index_ + (i + m)) := by
  intro n
  induction n with
  | zero =>
    intro i s h1 hd
    simp only [Deque.destroy_loop, Option.some.injEq] at hd
    subst hd
    exact ⟨[], by simp [Deque.destroy_loop_logged], rfl⟩
  | succ n ih =>
    intro i s h1 hd
    unfold Deque.destroy_loop at hd
    split at hd
    · next p off hloc =>
      split at hd
      · next h2 hdes =>
        obtain ⟨slots, hlog, hslots⟩ := ih (i + 1) ⟨h2, s.log ++ [Event.destroy p off]⟩ h1 hd
        refine ⟨(p, off) :: slots, ?_, ?_⟩
        · simp only [Deque.destroy_loop_logged, hloc, LHeap.destroy, hdes, hlog,
            List.map_cons, List.append_assoc, List.singleton_append]
        · rw [List.range_succ_eq_map, List.map_cons, List.map_cons, List.map_map, hslots]
          have h0 : d.locate (d.front_index_ + (i + 0)) = some (p, off) := by
            rw [Nat.add_zero]
            exact hloc
          rw [h0]
          congr 1
          apply List.map_congr_left
          intro m _
          simp only [Function.comp_apply]
          congr 2
          omega
      · cases hd
    · cases hd

/-- The logged deallocation loop is the plain one; the log gains one `deallocate` for each
block of the table, in order. -/
theorem Deque.dealloc_loop_logged_eq : ∀ (ps : List Nat) (s : LHeap α) (h1 : Heap α),
    Deque.dealloc_loop ps s.heap = some h1 →
    Deque.dealloc_loop_logged ps s = some ⟨h1, s.log ++ ps.map Event.deallocate⟩ := by
  intro ps
  induction ps with
  | nil =>
    intro s h1 hd
    simp only [Deque.dealloc_loop, Option.some.injEq] at hd
    subst hd
    simp [Deque.dealloc_loop_logged]
  | cons p ps ih =>
    intro s h1 hd
    unfold Deque.dealloc_loop at hd
    split at hd
    · next h2 hde =>
      have := ih ⟨h2, s.log ++ [Event.deallocate p]⟩ h1 hd
      simp only [Deque.dealloc_loop_logged, LHeap.deallocate, hde, this, List.map_cons,
        List.append_assoc, List.singleton_append]
    · cases hd

/-- Appending blocks to the table does not move the slots below its old capacity. -/
theorem Deque.locate_append {d d1 : Deque} {xs : List Nat} (ha : d1.array_ = d.array_ ++ xs)
    {j : Nat} (hj : j < kBlockSize * d.array_.length) : d1.locate j = d.locate j := by
  have hlt : j / kBlockSize < d.array_.length :=
    (Nat.div_lt_iff_lt_mul kBlockSize_pos).2 (by rw [Nat.mul_comm] at hj; exact hj)
  unfold Deque.locate
  rw [ha, List.getElem?_append_left hlt]

/-- The logged loop of the initializer-list constructor over elements whose copy succeeds:
it follows the plain loop, appends the values and keeps the log invariant. -/
theorem Deque.init_loop_logged_pushes (l0 : List Event) (vals : List α) :
    ∀ {s : LHeap α} {d : Deque} {L : List α}, d.Models s.heap L → d.front_index_ = 0 →
    d.LogInv l0 s L.length →
    ∃ s1 d1,
      (∀ rest, Deque.init_loop_logged (vals.map some ++ rest) s d
        = Deque.init_loop_logged rest s1 d1) ∧
      (∀ rest, Deque.init_loop (vals.map some ++ rest) s.heap d
        = Deque.init_loop rest s1.heap d1) ∧
      d1.Models s1.heap (L ++ vals) ∧ d1.front_index_ = 0 ∧
      d1.LogInv l0 s1 (L ++ vals).length := by
  induction vals with
  | nil =>
    intro s d L hm hfr hinv
    refine ⟨s, d, fun _ => rfl, fun _ => rfl, ?_, hfr, ?_⟩
    · rw [List.append_nil]
      exact hm
    · rw [List.append_nil]
      exact hinv
  | cons v vals ih =>
    intro s d L hm hfr hinv
    obtain ⟨h1, d1, hpush, hm1, -⟩ := Deque.emplace_back_spec hm v
    obtain ⟨-, f2, -, f4, -⟩ := Deque.emplace_back_fields hpush
    obtain ⟨p, off, hloc, hlogged⟩ := Deque.emplace_back_logged_ok (s := s) hpush
    obtain ⟨lg, hlog, hall, hdeal, hdes, hcon⟩ := hinv
    have hsz := hm.1.size_eq
    have hlen := hm.2.1
    have hcap := hm.1.cap
    have hback : d.back_index_ = L.length := by omega
    have harr : ∃ xs, d1.array_ = d.array_ ++ xs ∧
        Event.allocated (if d.back_index_ % kBlockSize = 0
          then [Event.allocate s.heap.cells.length] else []) = xs := by
      by_cases hmod : d.back_index_ % kBlockSize = 0
      · rw [if_pos hmod] at f4
        exact ⟨[s.heap.cells.length], f4, by rw [if_pos hmod]; rfl⟩
      · rw [if_neg hmod] at f4
        exact ⟨[], by rw [f4, List.append_nil], by rw [if_neg hmod]; rfl⟩
    obtain ⟨xs, hxs, hallx⟩ := harr
    have hother : Event.deallocated (if d.back_index_ % kBlockSize = 0
          then [Event.allocate s.heap.cells.length] else []) = [] ∧
        Event.destroyed (if d.back_index_ % kBlockSize = 0
          then [Event.allocate s.heap.cells.length] else []) = [] ∧
        Event.constructed (if d.back_index_ % kBlockSize = 0
          then [Event.allocate s.heap.cells.length] else []) = [] := by
      by_cases hmod : d.back_index_ % kBlockSize = 0
      · rw [if_pos hmod]
        exact ⟨rfl, rfl, rfl⟩
      · rw [if_neg hmod]
        exact ⟨rfl, rfl, rfl⟩
    have hinv1 : d1.LogInv l0 ⟨h1, s.log ++ (if d.back_index_ % kBlockSize = 0
        then [Event.allocate s.heap.cells.length] else []) ++ [Event.construct p off]⟩
        (L ++ [v]).length := by
      refine ⟨lg ++ (if d.back_index_ % kBlockSize = 0
        then [Event.allocate s.heap.cells.length] else []) ++ [Event.construct p off],
        ?_, ?_, ?_, ?_, ?_⟩
      · simp only [hlog, List.append_assoc]
      · rw [Event.allocated_append, Event.allocated_append, hall, hallx, hxs]
        exact List.append_nil _
      · rw [Event.deallocated_append, Event.deallocated_append, hdeal, hother.1]
        rfl
      · rw [Event.destroyed_append, Event.destroyed_append, hdes, hother.2.1]
        rfl
      · rw [Event.constructed_append, Event.constructed_append, hother.2.2, List.append_nil,
          List.map_append, hcon, List.length_append, List.length_singleton, List.range_succ,
          List.map_append]
        have hold : (List.range L.length).map d1.locate = (List.range L.length).map d.locate := by
          apply List.map_congr_left
          intro i hi
          rw [List.mem_range] at hi
          exact Deque.locate_append hxs (by omega)
        rw [hold, List.map_singleton, ← hback, hloc]
        rfl
    obtain ⟨s2, d2, hl2, hu2, hm2, hfr2, hinv2⟩ := ih hm1 (f2.trans hfr) hinv1
    refine ⟨s2, d2, ?_, ?_, ?_, hfr2, ?_⟩
    · intro rest
      simp only [List.map_cons, List.cons_append, Deque.init_loop_logged,
        Deque.push_back_logged, hlogged]
      exact hl2 rest
    · intro rest
      simp only [List.map_cons, List.cons_append, Deque.init_loop, Deque.push_back, hpush]
      exact hu2 rest
    · rw [List.append_assoc, List.singleton_append] at hm2
      exact hm2
    · rw [List.append_assoc, List.singleton_append] at hinv2
      exact hinv2

/-- Without the log, the logged `handle_failed_construction()` is the plain one. -/
theorem Deque.handle_failed_construction_logged_forget (s : LHeap α) (d : Deque) :
    (Deque.handle_failed_construction_logged s d).map (fun t => (t.1.heap, t.2))
      = Deque.handle_failed_construction s.heap d := by
  unfold Deque.handle_failed_construction_logged Deque.handle_failed_construction
  by_cases hc : d.back_index_ % kBlockSize = 0 ∧ d.array_ ≠ []
  · simp only [if_pos hc]
    cases d.array_.getLast? with
    | none => rfl
    | some p =>
      simp only [LHeap.deallocate]
      cases s.heap.deallocate p with
      | none => rfl
      | some h1 => rfl
  · simp only [if_neg hc]
    rfl

/-- Without the log, the logged `emplace_back` is the plain one. -/
theorem Deque.emplace_back_logged_forget (s : LHeap α) (d : Deque) (args : Option α) :
    (Deque.emplace_back_logged s d args).forgetLog = Deque.emplace_back s.heap d args := by
  have he := Deque.ensure_back_capacity_logged_eq s d
  unfold Deque.emplace_back_logged Deque.emplace_back
  simp only [he]
  cases (Deque.ensure_back_capacity s.heap d).2.locate
      (Deque.ensure_back_capacity s.heap d).2.back_index_ with
  | none => rfl
  | some q =>
    obtain ⟨p, off⟩ := q
    cases args with
    | none =>
      have hf := Deque.handle_failed_construction_logged_forget
        (⟨(Deque.ensure_back_capacity s.heap d).1,
          s.log ++ (if d.back_index_ % kBlockSize = 0
            then [Event.allocate s.heap.cells.length] else [])⟩ : LHeap α)
        (Deque.ensure_back_capacity s.heap d).2
      simp only at hf ⊢
      rw [← hf]
      cases Deque.handle_failed_construction_logged _ _ with
      | none => rfl
      | some t => rfl
    | some v =>
      simp only [LHeap.construct]
      cases (Deque.ensure_back_capacity s.heap d).1.construct p off v with
      | none => rfl
      | some h1 => rfl

/-- Without the log, the logged destroy loop is the plain one. -/
theorem Deque.destroy_loop_logged_forget (d : Deque) : ∀ (n i : Nat) (s : LHeap α),
    (Deque.destroy_loop_logged d i n s).map (fun t => t.heap)
      = Deque.destroy_loop d i n s.heap := by
  intro n
  induction n with
  | zero =>
    intro i s
    rfl
  | succ n ih =>
    intro i s
    unfold Deque.destroy_loop_logged Deque.destroy_loop
    cases d.locate (d.front_index_ + i) with
    | none => rfl
    | some q =>
      obtain ⟨p, off⟩ := q
      simp only [LHeap.destroy]
      cases hd : s.heap.destroy p off with
      | none => rfl
      | some h1 => exact ih (i + 1) ⟨h1, s.log ++ [Event.destroy p off]⟩

/-- Without the log, the logged deallocation loop is the plain one. -/
theorem Deque.dealloc_loop_logged_forget : ∀ (ps : List Nat) (s : LHeap α),
    (Deque.dealloc_loop_logged ps s).map (fun t => t.heap) = Deque.dealloc_loop ps s.heap := by
  intro ps
  induction ps with
  | nil =>
    intro s
    rfl
  | cons p ps ih =>
    intro s
    unfold Deque.dealloc_loop_logged Deque.dealloc_loop
    simp only [LHeap.deallocate]
    cases hd : s.heap.deallocate p with
    | none => rfl
    | some h1 => exact ih ⟨h1, s.log ++ [Event.deallocate p]⟩

/-- Without the log, the logged `clear()` is the plain one. -/
theorem Deque.clear_logged_forget (s : LHeap α) (d : Deque) :
    (Deque.clear_logged s d).map (fun t => (t.1.heap, t.2)) = Deque.clear s.heap d := by
  have h1 := Deque.destroy_loop_logged_forget d d.size_ 0 s
  unfold Deque.clear_logged Deque.clear
  rw [← h1]
  cases Deque.destroy_loop_logged d 0 d.size_ s with
  | none => rfl
  | some s1 =>
    have h2 := Deque.dealloc_loop_logged_forget d.array_ s1
    simp only [Option.map_some']
    rw [← h2]
    cases Deque.dealloc_loop_logged d.array_ s1 with
    | none => rfl
    | some s2 => rfl

/-- Without the log, the logged loop of the initializer-list constructor is the plain one. -/
theorem Deque.init_loop_logged_forget : ∀ (init : List (Option α)) (s : LHeap α) (d : Deque),
    (Deque.init_loop_logged init s d).forgetLog = Deque.init_loop init s.heap d := by
  intro init
  induction init with
  | nil =>
    intro s d
    rfl
  | cons x rest ih =>
    intro s d
    have he := Deque.emplace_back_logged_forget s d x
    unfold Deque.init_loop_logged Deque.init_loop
    unfold Deque.push_back_logged Deque.push_back
    rw [← he]
    cases Deque.emplace_back_logged s d x with
    | ok t => exact ih t.1 t.2
    | thrown t => rfl
    | ub => rfl

/-- Without the log, the logged initializer-list constructor is the plain one, on every
input. -/
theorem Deque.init_ctor_logged_forget (s : LHeap α) (init : List (Option α)) :
    (Deque.init_ctor_logged s init).forgetLog = Deque.init_ctor s.heap init := by
  have hl := Deque.init_loop_logged_forget init s Deque.default
  unfold Deque.init_ctor_logged Deque.init_ctor
  rw [← hl]
  cases Deque.init_loop_logged init s Deque.default with
  | ok t => rfl
  | ub => rfl
  | thrown t =>
    have hc := Deque.clear_logged_forget t.1 t.2
    simp only [Res.forgetLog]
    rw [← hc]
    cases Deque.clear_logged t.1 t.2 with
    | none => rfl
    | some t1 => rfl

/-- C12: construction from an initializer sequence whose first `K - 1` elements are copied
(`vals`) and whose `K`-th copy throws (`rest` is what follows), with every allocator call
recorded in a log; on every input the logged constructor is the constructor itself with the
log added. The constructor leaves with the exception, with `size_ = 0`,
`front_index_ = back_index_ = 0` and an empty block table. In the log of the call exactly
`K - 1` slots are constructed, they are pairwise distinct, and the slots destroyed are these
same slots: each constructed element is destroyed exactly once (one `destroy` event, at one
position of the log). The blocks deallocated are the blocks allocated, each once, so the
number of deallocations equals the number of allocations; in the heap every cell allocated by
the call is freed and the number of outstanding blocks is what it was. -/
theorem Deque.init_ctor_logged_throw_cleans (h0 : Heap α) (l0 : List Event) (vals : List α)
    (rest : List (Option α)) :
    (∀ (s : LHeap α) (init : List (Option α)),
      (Deque.init_ctor_logged s init).forgetLog = Deque.init_ctor s.heap init) ∧
    ∃ h1 lg,
      Deque.init_ctor_logged ⟨h0, l0⟩ (vals.map some ++ none :: rest)
        = Res.thrown (⟨h1, l0 ++ lg⟩, ⟨0, 0, 0, []⟩) ∧
      Deque.init_ctor h0 (vals.map some ++ none :: rest) = Res.thrown (h1, ⟨0, 0, 0, []⟩) ∧
      (Event.constructed lg).length = vals.length ∧
      (Event.constructed lg).Nodup ∧
      Event.destroyed lg = Event.constructed lg ∧
      (∀ q ∈ Event.constructed lg, ∃ i : Nat, (Event.destroyed lg)[i]? = some q ∧
        ∀ j : Nat, (Event.destroyed lg)[j]? = some q → j = i) ∧
      (Event.allocated lg).Nodup ∧
      (Event.deallocated lg).Perm (Event.allocated lg) ∧
      (Event.deallocated lg).length = (Event.allocated lg).length ∧
      h1.cells = h0.cells ++ List.replicate (h1.cells.length - h0.cells.length) none ∧
      h1.outstanding = h0.outstanding := by
  refine ⟨Deque.init_ctor_logged_forget, ?_⟩
  -- the K - 1 successful pushes
  obtain ⟨s', d', hlogged, hplain, hm', hfr, lg, hlog, hall, hdeal, hdes, hcon⟩ :=
    Deque.init_loop_logged_pushes l0 vals (s := ⟨h0, l0⟩) (d := Deque.default) (L := [])
      (Deque.default_models h0) rfl ⟨[], by simp, rfl, rfl, rfl, rfl⟩
  rw [List.nil_append] at hm' hcon
  -- the K-th push throws
  obtain ⟨hK, hthrow, hthrowL⟩ := Deque.emplace_back_logged_none (s := s') hm'.1
  have hloopL : Deque.init_loop_logged (vals.map some ++ none :: rest) ⟨h0, l0⟩ Deque.default
      = Res.thrown (⟨hK, s'.log ++ (if d'.back_index_ % kBlockSize = 0
          then [Event.allocate s'.heap.cells.length, Event.deallocate s'.heap.cells.length]
          else [])⟩, d') := by
    rw [hlogged]
    simp only [Deque.init_loop_logged, Deque.push_back_logged, hthrowL]
  have hloop : Deque.init_loop (vals.map some ++ none :: rest) h0 Deque.default
      = Res.thrown (hK, d') := by
    have := hplain (none :: rest)
    simp only at this
    rw [this]
    simp only [Deque.init_loop, Deque.push_back, hthrow]
  -- the plain constructor: what it leaves in the heap
  obtain ⟨hK2, dK2, hmid, h1, hloop2, -, -, hdestroy, -, hctor, hcells, hout⟩ :=
    Deque.init_ctor_throw_cleans h0 vals rest
  rw [hloop] at hloop2
  simp only [Res.thrown.injEq, Prod.mk.injEq] at hloop2
  obtain ⟨rfl, rfl⟩ := hloop2
  have hdealloc : Deque.dealloc_loop d'.array_ hmid = some h1 := by
    have hc := hctor
    unfold Deque.init_ctor at hc
    rw [hloop] at hc
    simp only [Deque.clear, hdestroy] at hc
    cases hde : Deque.dealloc_loop d'.array_ hmid with
    | none =>
      rw [hde] at hc
      cases hc
    | some h2 =>
      rw [hde] at hc
      simp only [Res.thrown.injEq, Prod.mk.injEq, and_true] at hc
      rw [hc]
  -- the logged handler
  obtain ⟨slots, hdesL, hslots⟩ := Deque.destroy_loop_logged_eq d' d'.size_ 0
    ⟨hK, s'.log ++ (if d'.back_index_ % kBlockSize = 0
      then [Event.allocate s'.heap.cells.length, Event.deallocate s'.heap.cells.length]
      else [])⟩ hmid hdestroy
  have hdeaL := Deque.dealloc_loop_logged_eq d'.array_
    ⟨hmid, (s'.log ++ (if d'.back_index_ % kBlockSize = 0
      then [Event.allocate s'.heap.cells.length, Event.deallocate s'.heap.cells.length]
      else [])) ++ slots.map fun q => Event.destroy q.1 q.2⟩ h1 hdealloc
  have hsz : d'.size_ = vals.length := hm'.2.1
  have hcap := hm'.1.cap
  have hsize := hm'.1.size_eq
  have hslots2 : slots.map some = (List.range vals.length).map d'.locate := by
    rw [hslots, hsz]
    apply List.map_congr_left
    intro m _
    rw [hfr]
    congr 1
    omega
  have hslotsEq : slots = Event.constructed lg :=
    (Option.some_injective _).list_map (hslots2.trans hcon.symm)
  -- the slots are pairwise distinct
  have hnodupSome : ((List.range vals.length).map d'.locate).Nodup := by
    apply List.Nodup.map_on _ (List.nodup_range _)
    intro i hi j hj hij
    rw [List.mem_range] at hi hj
    obtain ⟨p, -, hp⟩ := Deque.locate_of_lt (d := d') (j := i) (by omega)
    rw [hp] at hij
    exact Deque.locate_inj hm'.1.nodup hp hij.symm
  have hnodup : (Event.constructed lg).Nodup := by
    have : ((Event.constructed lg).map some).Nodup := by
      rw [hcon]
      exact hnodupSome
    exact List.Nodup.of_map _ this
  -- the events of the rolled-back block
  have hfresh : s'.heap.cells.length ∉ d'.array_ :=
    fun hmem => Nat.lt_irrefl _ (hm'.1.lt_length _ hmem)
  -- projections of the log of the call
  have hrb : ∀ n : Nat,
      Event.constructed (if d'.back_index_ % kBlockSize = 0
        then [Event.allocate n, Event.deallocate n] else []) = [] ∧
      Event.destroyed (if d'.back_index_ % kBlockSize = 0
        then [Event.allocate n, Event.deallocate n] else []) = [] ∧
      Event.allocated (if d'.back_index_ % kBlockSize = 0
        then [Event.allocate n, Event.deallocate n] else [])
        = (if d'.back_index_ % kBlockSize = 0 then [n] else []) ∧
      Event.deallocated (if d'.back_index_ % kBlockSize = 0
        then [Event.allocate n, Event.deallocate n] else [])
        = (if d'.back_index_ % kBlockSize = 0 then [n] else []) := by
    intro n
    by_cases hmod : d'.back_index_ % kBlockSize = 0
    · simp only [if_pos hmod]
      exact ⟨rfl, rfl, rfl, rfl⟩
    · simp only [if_neg hmod]
      exact ⟨rfl, rfl, rfl, rfl⟩
  obtain ⟨r1, r2, r3, r4⟩ := hrb s'.heap.cells.length
  obtain ⟨t1, t2, t3, t4⟩ := Event.of_destroys slots
  obtain ⟨u1, u2, u3, u4⟩ := Event.of_deallocates d'.array_
  generalize hlgF : lg ++ (if d'.back_index_ % kBlockSize = 0
      then [Event.allocate s'.heap.cells.length, Event.deallocate s'.heap.cells.length]
      else []) ++ (slots.map fun q => Event.destroy q.1 q.2) ++ d'.array_.map Event.deallocate
    = lgF
  have hC : Event.constructed lgF = Event.constructed lg := by
    rw [← hlgF, Event.constructed_append, Event.constructed_append, Event.constructed_append,
      r1, t2, u2, List.append_nil, List.append_nil, List.append_nil]
  have hD : Event.destroyed lgF = slots := by
    rw [← hlgF, Event.destroyed_append, Event.destroyed_append, Event.destroyed_append,
      hdes, r2, t1, u4, List.nil_append, List.nil_append, List.append_nil]
  have hA : Event.allocated lgF
      = d'.array_ ++ (if d'.back_index_ % kBlockSize = 0 then [s'.heap.cells.length] else []) := by
    rw [← hlgF, Event.allocated_append, Event.allocated_append, Event.allocated_append,
      hall, r3, t3, u3, List.append_nil, List.append_nil]
  have hDe : Event.deallocated lgF
      = (if d'.back_index_ % kBlockSize = 0 then [s'.heap.cells.length] else []) ++ d'.array_ := by
    rw [← hlgF, Event.deallocated_append, Event.deallocated_append, Event.deallocated_append,
      hdeal, r4, t4, u1, List.nil_append, List.append_nil]
  have hperm : (Event.deallocated lgF).Perm (Event.allocated lgF) := by
    rw [hDe, hA]
    exact List.perm_append_comm
  refine ⟨h1, lgF, ?_, hctor, ?_, ?_, ?_, ?_, ?_, hperm, hperm.length_eq, hcells, hout⟩
  · unfold Deque.init_ctor_logged
    rw [hloopL]
    simp only [Deque.clear_logged, hdesL, hdeaL]
    simp only [hlog, ← hlgF, List.append_assoc]
  · rw [hC]
    have := congrArg List.length hcon
    simpa using this
  · rw [hC]
    exact hnodup
  · rw [hD, hC]
    exact hslotsEq
  · rw [hC, hD, hslotsEq]
    intro q hq
    obtain ⟨i, hi⟩ := List.mem_iff_getElem?.1 hq
    refine ⟨i, hi, fun j hj => ?_⟩
    have hlt := (List.getElem?_eq_some_iff.1 hj).1
    exact List.getElem?_inj hlt hnodup (hj.trans hi.symm)
  · rw [hA]
    by_cases hmod : d'.back_index_ % kBlockSize = 0
    · rw [if_pos hmod, List.nodup_append]
      refine ⟨hm'.1.nodup, List.nodup_singleton _, ?_⟩
      intro a ha hb
      rw [List.mem_singleton] at hb
      subst hb
      exact hfresh ha
    · rw [if_neg hmod, List.append_nil]
      exact hm'.1.nodup

end CppMipt
